import Mathlib

/-!
# A* grid search with a binary-heap open set (`src/backend/astar_algorithm.c`)

A shallow embedding of the C program and a verification of its queue and of the
search loop.

Modelling decisions.

* A `float` is an IEEE 754 binary32 number and `float` arithmetic rounds to nearest,
  ties to even.  The program only produces non-negative finite values; `Float32`
  holds such a value as a multiple of `2^-149`, the spacing of the smallest floats.
  `cost` is an integer-valued `float` (a start cost and the sums `cost + 1` made from
  it) and is a `Nat`; the sum `cost + 1` is rounded by `round_float`, so that
  `16777216 + 1` is `16777216`.  The `double` expression of `heuristic` has the exact
  value `sqrt r` for an integer `r`, recorded as a `Value`; `sqrt` rounds it to a
  `double` and the `return` to a `float` (`Value.toFloat`).  The squares and their
  sum are exact in `double` while `r < 2^53`.  No sum of the program overflows: the
  `float` sums `cost + 1` and `cost + heuristic` of finite floats are finite.  `int`
  coordinates are unbounded `Int`.
* A `Node *` that may be `NULL` is an `Option Node`.  Nodes are never changed after
  another node points to them, so a node carries its parent by value.
* The backing array of the queue is represented by its live prefix
  `nodes[0 .. size)`; slots at index `size` and above are never read by the program.
  `size` is the length of that prefix.
* `malloc` is taken to succeed.  The outcome of `realloc` is an explicit argument of
  `resize_priority_queue` and `insert_priority_queue`.  `size` and `capacity` are
  `int`; the only arithmetic on them that can leave `[0, INT_MAX]` is the product
  `capacity * 2` of a resize.  In `a_star_algorithm` the `realloc` is taken to succeed
  exactly when that product is an `int` (`realloc_succeeds`); otherwise
  `insert_priority_queue` prints its message and drops the node.
* Loops that the C code runs on machine state are recursive functions; the main
  `while` loop of `a_star_algorithm` need not terminate and takes the number of
  iterations it may run (`none` = still running after that many iterations).
* `printf` output of `reconstruct_path` is the list of printed coordinates.
-/

namespace AStar

/-! ## Values of type `float` -/

/-- The real number `whole + sqrt rad`: the exact value of a `double` expression
before it is rounded. -/
structure Value where
  whole : Nat
  rad : Nat
deriving DecidableEq, Repr

/-- A non-negative finite `float`: the number `units * 2^-149`.  Every such `float` is
a multiple of `2^-149`, and the multiples that are floats are those whose binary
numeral has at most 24 significant bits. -/
structure Float32 where
  units : Nat
deriving DecidableEq, Repr

/-- The comparison `a < b` of two floats. -/
def Float32.lt (a b : Float32) : Bool := decide (a.units < b.units)

/-- The order `a ≤ b` of two floats. -/
def Float32.le (a b : Float32) : Prop := a.units ≤ b.units

instance (a b : Float32) : Decidable (Float32.le a b) :=
  inferInstanceAs (Decidable (a.units ≤ b.units))

/-- The number of binary digits of `n`, counted by halving. -/
def bit_length_loop : Nat → Nat → Nat
  | 0, _ => 0
  | fuel + 1, n => if n = 0 then 0 else bit_length_loop fuel (n / 2) + 1

/-- The number of binary digits of `n` (`0` for `n = 0`). -/
def bit_length (n : Nat) : Nat := bit_length_loop n n

/-- Rounding to the nearest multiple of `2 ^ shift`, ties to even, of the number
`n + e`, where `e = 0` when `sticky` is false and `0 < e < 1` otherwise (then
`shift` is at least 1). -/
def round_at (shift n : Nat) (sticky : Bool) : Nat :=
  let u := 2 ^ shift
  let q := n / u
  let r := n % u
  if 2 * r < u ∨ (2 * r = u ∧ sticky = false ∧ q % 2 = 0) then q * u else (q + 1) * u

/-- Rounding to `p` significant bits, to nearest and ties to even. -/
def round_sig (p n : Nat) (sticky : Bool) : Nat :=
  round_at (bit_length n - p) n sticky

/-- The `float` nearest to the natural number `n`: the result of a `float` operation
whose exact result is `n`. -/
def round_float (n : Nat) : Nat := round_sig 24 n false

/-- The digits of the integer square root below bit `k`, found from the top. -/
def sqrt_floor_loop : Nat → Nat → Nat → Nat
  | 0, _, root => root
  | k + 1, n, root =>
    if (root + 2 ^ k) * (root + 2 ^ k) ≤ n then sqrt_floor_loop k n (root + 2 ^ k)
    else sqrt_floor_loop k n root

/-- The integer part of `sqrt n`. -/
def sqrt_floor (n : Nat) : Nat := sqrt_floor_loop (bit_length n / 2 + 1) n 0

/-- The `float` returned for a `double` expression of exact value `whole + sqrt rad`:
the value is rounded to a `double` (53 significant bits) by `sqrt` and to a `float`
(24 significant bits) by the conversion.  The program only uses `whole = 0`.  `t` is
the integer part of the value in units of `2^-53`; a non-zero value is at least 1, so
`t` has at least 54 bits. -/
def Value.toFloat (v : Value) : Float32 :=
  let s := sqrt_floor (v.rad * 4 ^ 53)
  let inexact := decide (s * s ≠ v.rad * 4 ^ 53)
  let t := v.whole * 2 ^ 53 + s
  let d := round_sig 53 t inexact
  let f := round_sig 24 d false
  ⟨f * 2 ^ 96⟩

/-- The `float` sum `cost + heuristic` of an integer-valued cost and a float. -/
def Float32.addCost (cost : Nat) (h : Float32) : Float32 :=
  ⟨round_float (cost * 2 ^ 149 + h.units)⟩

/-! ## Nodes -/

/-- `struct Node`: the fields `x`, `y`, `cost`, `heuristic`, `total_cost` and the
`parent` pointer, which is `NULL` (`root`) or points to a node (`child`). -/
inductive Node where
  | root (x y : Int) (cost : Nat) (heuristic total_cost : Float32)
  | child (x y : Int) (cost : Nat) (heuristic total_cost : Float32) (parent : Node)
deriving DecidableEq, Repr

namespace Node

/-- A node with the given fields; `parent = none` is the `NULL` pointer. -/
def make (x y : Int) (cost : Nat) (heuristic total_cost : Float32) : Option Node → Node
  | none => root x y cost heuristic total_cost
  | some p => child x y cost heuristic total_cost p

def x : Node → Int
  | root x .. => x
  | child x .. => x

def y : Node → Int
  | root _ y .. => y
  | child _ y .. => y

def cost : Node → Nat
  | root _ _ c .. => c
  | child _ _ c .. => c

def heuristic : Node → Float32
  | root _ _ _ h _ => h
  | child _ _ _ h _ _ => h

def total_cost : Node → Float32
  | root _ _ _ _ t => t
  | child _ _ _ _ t _ => t

def parent : Node → Option Node
  | root .. => none
  | child _ _ _ _ _ p => some p

/-- The assignment `n->parent = p`. -/
def setParent (n : Node) (p : Option Node) : Node :=
  make n.x n.y n.cost n.heuristic n.total_cost p

/-- The assignment `n->cost = c`. -/
def setCost (n : Node) (c : Nat) : Node :=
  make n.x n.y c n.heuristic n.total_cost n.parent

/-- The assignment `n->heuristic = h`. -/
def setHeuristic (n : Node) (h : Float32) : Node :=
  make n.x n.y n.cost h n.total_cost n.parent

/-- The assignment `n->total_cost = t`. -/
def setTotalCost (n : Node) (t : Float32) : Node :=
  make n.x n.y n.cost n.heuristic t n.parent

/-- The coordinates printed for the node and its ancestors, oldest ancestor first. -/
def chain : Node → List (Int × Int)
  | root x y .. => [(x, y)]
  | child x y _ _ _ p => p.chain ++ [(x, y)]

end Node

/-- `heuristic`: the exact value of the expression
`sqrt(pow(current->x - goal->x, 2) + pow(current->y - goal->y, 2))`.  The `float` that
the function returns is `(heuristic current goal).toFloat`. -/
def heuristic (current goal : Node) : Value :=
  ⟨0, ((current.x - goal.x) ^ 2 + (current.y - goal.y) ^ 2).toNat⟩

/-! ## The priority queue -/

/-- `PriorityQueue`: the live slots `nodes[0 .. size)` and the capacity.  `size` and
`capacity` are `int` fields; a resize to a capacity above `INT_MAX` does not succeed. -/
structure PriorityQueue where
  nodes : List Node
  capacity : Nat
deriving DecidableEq, Repr

/-- The field `size`. -/
def PriorityQueue.size (pq : PriorityQueue) : Nat := pq.nodes.length

/-- `create_priority_queue`. -/
def create_priority_queue (capacity : Nat) : PriorityQueue :=
  { nodes := [], capacity := capacity }

/-- `INT_MAX`, for the 32-bit `int` of `size` and `capacity`. -/
def INT_MAX : Nat := 2147483647

/-- The outcome of the `realloc` that `insert_priority_queue` asks for when a queue of
the given capacity is full, in a run that is not short of memory: the block is granted
when the requested capacity `capacity * 2` is an `int`.  Past `INT_MAX` the product
overflows; the wrapped value is negative, the byte count `sizeof(Node *) * new_capacity`
is larger than any block, and `realloc` returns `NULL`. -/
def realloc_succeeds (capacity : Nat) : Bool := decide (capacity * 2 ≤ INT_MAX)

/-- `resize_priority_queue`; `realloc_ok` says whether `realloc` returned a block. -/
def resize_priority_queue (realloc_ok : Bool) (pq : PriorityQueue) (new_capacity : Nat) :
    PriorityQueue × Bool :=
  if realloc_ok then ({ pq with capacity := new_capacity }, true) else (pq, false)

/-- The test `nodes[i]->total_cost < nodes[j]->total_cost`. -/
def cost_lt (nodes : List Node) (i j : Nat) : Bool :=
  match nodes[i]?, nodes[j]? with
  | some a, some b => a.total_cost.lt b.total_cost
  | _, _ => false

/-- Exchange of the slots `i` and `j` through `temp`. -/
def swap (nodes : List Node) (i j : Nat) : List Node :=
  match nodes[i]?, nodes[j]? with
  | some a, some b => (nodes.set i b).set j a
  | _, _ => nodes

/-- The `while (index > 0)` loop of `heapify_up`, run for at most `steps` rounds. -/
def heapify_up_loop : Nat → List Node → Nat → List Node
  | 0, nodes, _ => nodes
  | steps + 1, nodes, index =>
    if 0 < index then
      let parentIndex := (index - 1) / 2
      if cost_lt nodes index parentIndex then
        heapify_up_loop steps (swap nodes parentIndex index) parentIndex
      else nodes
    else nodes

/-- `heapify_up`.  The index strictly decreases in every round, so `index` rounds
are all the loop can make. -/
def heapify_up (pq : PriorityQueue) (index : Nat) : PriorityQueue :=
  { pq with nodes := heapify_up_loop index pq.nodes index }

/-- `insert_priority_queue`; `realloc_ok` is the outcome of the `realloc` made when
the queue is full. -/
def insert_priority_queue (realloc_ok : Bool) (pq : PriorityQueue) (node : Node) :
    PriorityQueue :=
  let grown : PriorityQueue × Bool :=
    if pq.size = pq.capacity then resize_priority_queue realloc_ok pq (pq.capacity * 2)
    else (pq, true)
  if grown.2 then
    let pq1 : PriorityQueue := { grown.1 with nodes := grown.1.nodes ++ [node] }
    heapify_up pq1 (pq1.size - 1)
  else pq

/-- The recursion of `heapify_down`, at most `depth` calls deep. -/
def heapify_down_rec : Nat → List Node → Nat → List Node
  | 0, nodes, _ => nodes
  | depth + 1, nodes, index =>
    let leftChildIdx := 2 * index + 1
    let rightChildIdx := 2 * index + 2
    let smallest := index
    let smallest :=
      if leftChildIdx < nodes.length && cost_lt nodes leftChildIdx smallest then leftChildIdx
      else smallest
    let smallest :=
      if rightChildIdx < nodes.length && cost_lt nodes rightChildIdx smallest then rightChildIdx
      else smallest
    if smallest ≠ index then heapify_down_rec depth (swap nodes index smallest) smallest
    else nodes

/-- `heapify_down`.  The index strictly increases from call to call and a call at an
index without children returns at once, so `size` calls are all that can happen. -/
def heapify_down (pq : PriorityQueue) (index : Nat) : PriorityQueue :=
  { pq with nodes := heapify_down_rec pq.size pq.nodes index }

/-- `pop_priority_queue`: the returned pointer and the queue afterwards.  With
`size > 0` the slots `0` and `size - 1` are live, so the last branch is never taken. -/
def pop_priority_queue (pq : PriorityQueue) : Option Node × PriorityQueue :=
  if pq.size = 0 then (none, pq)
  else
    match pq.nodes[0]?, pq.nodes[pq.size - 1]? with
    | some top, some last =>
      (some top, heapify_down { pq with nodes := (pq.nodes.set 0 last).dropLast } 0)
    | _, _ => (none, pq)

/-- `is_empty_priority_queue`. -/
def is_empty_priority_queue (pq : PriorityQueue) : Bool := pq.size = 0

/-! ## The search -/

/-- `find_neighbors`: the nodes written to `neighbors[0 .. neighbor_count)`.  The
fields `heuristic` and `total_cost` of a fresh node are not set here (the caller
sets both before reading them); they are shown as `0`. -/
def find_neighbors (current : Node) (grid_size : Int) : List Node :=
  let dx : List Int := [1, -1, 0, 0]
  let dy : List Int := [0, 0, 1, -1]
  (dx.zip dy).filterMap fun d =>
    let newX := current.x + d.1
    let newY := current.y + d.2
    if newX ≥ 0 ∧ newX < grid_size ∧ newY ≥ 0 ∧ newY < grid_size then
      some (Node.make newX newY 0 ⟨0⟩ ⟨0⟩ (some current))
    else none

/-- `reconstruct_path`: the coordinates it prints, in printing order. -/
def reconstruct_path : Option Node → List (Int × Int)
  | none => []
  | some current => current.chain

/-- What a finished run of `a_star_algorithm` did: it popped the goal (`current`)
and printed `path`, or it left the loop because the open set was empty. -/
inductive SearchResult where
  | goalReached (current : Node) (path : List (Int × Int))
  | openSetEmpty
deriving DecidableEq, Repr

/-- The body of the `for` loop over the neighbours in `a_star_algorithm`.  The sum
`current->cost + 1` is a `float` sum; the insertion fails, and drops the node, when the
queue is full and cannot be resized. -/
def process_neighbor (goal current : Node) (openSet : PriorityQueue) (neighbor : Node) :
    PriorityQueue :=
  let tentative_gScore := round_float (current.cost + 1)
  if tentative_gScore < neighbor.cost ∨ neighbor.cost = 0 then
    let neighbor := neighbor.setParent (some current)
    let neighbor := neighbor.setCost tentative_gScore
    let neighbor := neighbor.setHeuristic (heuristic neighbor goal).toFloat
    let neighbor := neighbor.setTotalCost (Float32.addCost neighbor.cost neighbor.heuristic)
    insert_priority_queue (realloc_succeeds openSet.capacity) openSet neighbor
  else openSet

/-- The `while (!is_empty_priority_queue(openSet))` loop of `a_star_algorithm`, run
for at most `iterations` iterations.  Inside the loop the queue is not empty, so the
pop returns a node; the branch for a `NULL` result is never taken. -/
def a_star_loop : Nat → Node → Int → PriorityQueue → Option SearchResult
  | 0, _, _, _ => none
  | iterations + 1, goal, grid_size, openSet =>
    if is_empty_priority_queue openSet then some SearchResult.openSetEmpty
    else
      match pop_priority_queue openSet with
      | (none, _) => some SearchResult.openSetEmpty
      | (some current, openSet) =>
        if current.x = goal.x ∧ current.y = goal.y then
          some (SearchResult.goalReached current (reconstruct_path (some current)))
        else
          let neighbors := find_neighbors current grid_size
          a_star_loop iterations goal grid_size
            (neighbors.foldl (process_neighbor goal current) openSet)

/-- The open set of `a_star_algorithm` when the main loop is entered. -/
def initial_open_set (start goal : Node) : PriorityQueue :=
  let openSet := create_priority_queue 100
  let start := start.setHeuristic (heuristic start goal).toFloat
  let start := start.setTotalCost (Float32.addCost start.cost start.heuristic)
  insert_priority_queue (realloc_succeeds openSet.capacity) openSet start

/-- `a_star_algorithm`, its main loop run for at most `iterations` iterations. -/
def a_star_algorithm (iterations : Nat) (start goal : Node) (grid_size : Int) :
    Option SearchResult :=
  a_star_loop iterations goal grid_size (initial_open_set start goal)

/-- A node as `main` builds them: `{x, y, 0, 0, 0, NULL}`. -/
def cell (x y : Int) : Node := Node.root x y 0 ⟨0⟩ ⟨0⟩

/-- `main`: the search from `(0, 0)` to `(5, 5)` on the grid of size 10. -/
def main (iterations : Nat) : Option SearchResult :=
  let start := cell 0 0
  let goal := cell 5 5
  let grid_size := 10
  a_star_algorithm iterations start goal grid_size

/-! ## Notions used to state the properties of the queue -/

/-- The key `nodes[i]->total_cost` (`0` outside the live slots, which no statement
reads). -/
def cost_at (nodes : List Node) (i : Nat) : Float32 :=
  match nodes[i]? with
  | some a => a.total_cost
  | none => ⟨0⟩

/-- Min-heap order: for every index `i` with `0 < i < size` the node at index
`(i - 1) / 2` has `total_cost` at most that of the node at index `i`, that is, the
test `nodes[i]->total_cost < nodes[(i-1)/2]->total_cost` fails. -/
def IsMinHeap (nodes : List Node) : Prop :=
  ∀ i, i < nodes.length → 0 < i → cost_lt nodes i ((i - 1) / 2) = false

instance (nodes : List Node) : Decidable (IsMinHeap nodes) :=
  inferInstanceAs
    (Decidable (∀ i, i < nodes.length → 0 < i → cost_lt nodes i ((i - 1) / 2) = false))

/-- A call on a queue: an insertion (with the outcome of its `realloc`, should it
make one) or a pop. -/
inductive QueueOp where
  | insert (realloc_ok : Bool) (node : Node)
  | pop
deriving DecidableEq, Repr

/-- The queue after one call. -/
def apply_op (pq : PriorityQueue) : QueueOp → PriorityQueue
  | QueueOp.insert realloc_ok node => insert_priority_queue realloc_ok pq node
  | QueueOp.pop => (pop_priority_queue pq).2

/-- The queue after a sequence of calls, made in list order. -/
def run_ops (pq : PriorityQueue) (ops : List QueueOp) : PriorityQueue :=
  ops.foldl apply_op pq

/-- Popping until the queue is empty, at most `n` times: the popped nodes in the
order of the pops, and the queue that is left. -/
def pop_all : Nat → PriorityQueue → List Node × PriorityQueue
  | 0, pq => ([], pq)
  | n + 1, pq =>
    match pop_priority_queue pq with
    | (some top, rest) => (top :: (pop_all n rest).1, (pop_all n rest).2)
    | (none, rest) => ([], rest)

/-! ## Notions used to state the properties of the search -/

/-- The coordinates of a node. -/
def Node.pos (n : Node) : Int × Int := (n.x, n.y)

/-- The Manhattan distance `|a.x - b.x| + |a.y - b.y|`. -/
def manhattan (a b : Int × Int) : Nat :=
  (a.1 - b.1).natAbs + (a.2 - b.2).natAbs

/-- The point lies in the grid: `0 <= x, y < grid_size`. -/
def in_grid (grid_size : Int) (p : Int × Int) : Prop :=
  0 ≤ p.1 ∧ p.1 < grid_size ∧ 0 ≤ p.2 ∧ p.2 < grid_size

instance (grid_size : Int) (p : Int × Int) : Decidable (in_grid grid_size p) :=
  inferInstanceAs (Decidable (0 ≤ p.1 ∧ p.1 < grid_size ∧ 0 ≤ p.2 ∧ p.2 < grid_size))

/-- Two coordinates differ by exactly 1 in exactly one of `x`, `y` and by 0 in the
other. -/
def unit_step (p q : Int × Int) : Prop :=
  ((p.1 - q.1).natAbs = 1 ∧ p.2 = q.2) ∨ (p.1 = q.1 ∧ (p.2 - q.2).natAbs = 1)

instance (p q : Int × Int) : Decidable (unit_step p q) :=
  inferInstanceAs
    (Decidable (((p.1 - q.1).natAbs = 1 ∧ p.2 = q.2) ∨ (p.1 = q.1 ∧ (p.2 - q.2).natAbs = 1)))

/-- A grid walk: every two consecutive coordinates are one unit step apart. -/
def is_walk : List (Int × Int) → Prop
  | p :: q :: rest => unit_step p q ∧ is_walk (q :: rest)
  | _ => True

/-- Whether a list of coordinates is a grid walk can be computed. -/
def is_walk_decidable : (path : List (Int × Int)) → Decidable (is_walk path)
  | [] => isTrue trivial
  | [_] => isTrue trivial
  | p :: q :: rest =>
    have : Decidable (is_walk (q :: rest)) := is_walk_decidable (q :: rest)
    inferInstanceAs (Decidable (unit_step p q ∧ is_walk (q :: rest)))

instance (path : List (Int × Int)) : Decidable (is_walk path) := is_walk_decidable path

/-- The start node as `a_star_algorithm` inserts it: `heuristic` and `total_cost` set,
the other fields as the caller gave them. -/
def prepared_start (start goal : Node) : Node :=
  (start.setHeuristic (heuristic start goal).toFloat).setTotalCost
    (Float32.addCost (start.setHeuristic (heuristic start goal).toFloat).cost
      (start.setHeuristic (heuristic start goal).toFloat).heuristic)

/-- The node that the loop body of `a_star_algorithm` inserts for a neighbour: parent,
cost, heuristic and total cost set in this order. -/
def relaxed (goal current neighbor : Node) : Node :=
  let neighbor := neighbor.setParent (some current)
  let neighbor := neighbor.setCost (round_float (current.cost + 1))
  let neighbor := neighbor.setHeuristic (heuristic neighbor goal).toFloat
  neighbor.setTotalCost (Float32.addCost neighbor.cost neighbor.heuristic)

/-- The nodes a run can put into the open set: the prepared start node, and for every
such node each of its neighbours as the loop body inserts it. -/
inductive Reached (start goal : Node) (grid_size : Int) : Node → Prop where
  | start : Reached start goal grid_size (prepared_start start goal)
  | step {p nb : Node} : Reached start goal grid_size p → nb ∈ find_neighbors p grid_size →
      Reached start goal grid_size (relaxed goal p nb)

/-- The weight of an open node in the count of the work that is left: `5 ^ (bound - cost)`
for a node of cost at most `bound`, nothing for a more expensive one. -/
def weight (bound : Nat) (n : Node) : Nat :=
  if n.cost ≤ bound then 5 ^ (bound - n.cost) else 0

/-- The total weight of the open set. -/
def potential (bound : Nat) (nodes : List Node) : Nat :=
  (nodes.map (weight bound)).sum

/-- One iteration of the main loop of `a_star_algorithm` that stays in the loop: the
node it popped and expanded, and the open set after the neighbours were processed.
`none` when the loop is left instead (open set empty, or the popped node is the goal). -/
def loop_iteration (goal : Node) (grid_size : Int) (openSet : PriorityQueue) :
    Option (Node × PriorityQueue) :=
  if is_empty_priority_queue openSet then none
  else
    match pop_priority_queue openSet with
    | (none, _) => none
    | (some current, openSet) =>
      if current.x = goal.x ∧ current.y = goal.y then none
      else
        some (current,
          (find_neighbors current grid_size).foldl (process_neighbor goal current) openSet)

/-- The open set after `n` iterations of the main loop, `none` when the loop was left
before. -/
def open_set_after : Nat → Node → Int → PriorityQueue → Option PriorityQueue
  | 0, _, _, openSet => some openSet
  | n + 1, goal, grid_size, openSet =>
    match loop_iteration goal grid_size openSet with
    | none => none
    | some (_, next) => open_set_after n goal grid_size next

/-- The coordinates of the nodes popped and expanded by the first `n` iterations of the
main loop, in the order of the iterations. -/
def expansions : Nat → Node → Int → PriorityQueue → List (Int × Int)
  | 0, _, _, _ => []
  | n + 1, goal, grid_size, openSet =>
    match loop_iteration goal grid_size openSet with
    | none => []
    | some (current, next) => current.pos :: expansions n goal grid_size next

/-- The node reached from `n` by following `parent` `k` times, if the chain is that
long. -/
def Node.ancestor : Nat → Node → Option Node
  | 0, n => some n
  | k + 1, n =>
    match n.parent with
    | none => none
    | some p => Node.ancestor k p

/-- The four cells next to `(x, y)` in the order `+x, -x, +y, -y`. -/
def adjacent_cells (x y : Int) : List (Int × Int) :=
  [(x + 1, y), (x - 1, y), (x, y + 1), (x, y - 1)]

/-- The call `insert_priority_queue(openSet, node)` as `a_star_algorithm` makes it: the
`realloc` of a resize succeeds exactly when the doubled capacity is an `int`. -/
def insert_open (openSet : PriorityQueue) (node : Node) : PriorityQueue :=
  insert_priority_queue (realloc_succeeds openSet.capacity) openSet node

/-- The fields of a queue as a run of `a_star_algorithm` keeps them: the capacity is at
least 1 (it starts at 100 and never shrinks), `size <= capacity`, and the capacity is an
`int`. -/
def PriorityQueue.in_range (pq : PriorityQueue) : Prop :=
  1 ≤ pq.capacity ∧ pq.size ≤ pq.capacity ∧ pq.capacity ≤ INT_MAX

instance (pq : PriorityQueue) : Decidable pq.in_range :=
  inferInstanceAs (Decidable (1 ≤ pq.capacity ∧ pq.size ≤ pq.capacity ∧ pq.capacity ≤ INT_MAX))

/-- The invariant of the main loop on valid input: the open set is a heap of nodes the
run can produce, their cost is at most one more than the bound
`start.cost + manhattan start goal`, some open node lies on a shortest path to the goal,
and the size of the open set is covered by the work that is left. -/
def SearchInv (start goal : Node) (grid_size : Int) (q : PriorityQueue) : Prop :=
  IsMinHeap q.nodes ∧
    (∀ n ∈ q.nodes, Reached start goal grid_size n) ∧
    (∀ n ∈ q.nodes, n.cost ≤ start.cost + manhattan start.pos goal.pos + 1) ∧
    (∃ w ∈ q.nodes, w.cost + manhattan w.pos goal.pos =
      start.cost + manhattan start.pos goal.pos) ∧
    q.size + 3 * potential (start.cost + manhattan start.pos goal.pos) q.nodes ≤
      3 * 5 ^ manhattan start.pos goal.pos + 1

/-- The path printed by a finished run (none when the open set ran empty). -/
def SearchResult.path : SearchResult → List (Int × Int)
  | SearchResult.goalReached _ path => path
  | SearchResult.openSetEmpty => []

theorem bit_length_loop_zero (fuel : Nat) : bit_length_loop fuel 0 = 0 := by
  cases fuel <;> simp [bit_length_loop]

theorem bit_length_loop_succ (fuel n : Nat) (h : n ≠ 0) :
    bit_length_loop (fuel + 1) n = bit_length_loop fuel (n / 2) + 1 := by
  rw [bit_length_loop, if_neg h]

theorem bit_length_loop_spec (fuel n : Nat) (hf : n ≤ fuel) (hn : n ≠ 0) :
    0 < bit_length_loop fuel n ∧ 2 ^ (bit_length_loop fuel n - 1) ≤ n := by
  induction fuel generalizing n with
  | zero => omega
  | succ fuel ih =>
    rw [bit_length_loop_succ fuel n hn]
    refine ⟨by omega, ?_⟩
    by_cases h2 : n / 2 = 0
    · rw [h2, bit_length_loop_zero]
      simp
      omega
    · obtain ⟨h3, h4⟩ := ih (n / 2) (by omega) h2
      have : bit_length_loop fuel (n / 2) + 1 - 1 = (bit_length_loop fuel (n / 2) - 1) + 1 := by
        omega
      rw [this, pow_succ]
      omega

theorem bit_length_spec (n : Nat) (hn : n ≠ 0) :
    0 < bit_length n ∧ 2 ^ (bit_length n - 1) ≤ n :=
  bit_length_loop_spec n n le_rfl hn

theorem round_at_ge (shift n : Nat) (sticky : Bool) :
    n / 2 ^ shift * 2 ^ shift ≤ round_at shift n sticky := by
  unfold round_at
  simp only
  split_ifs
  · exact le_rfl
  · exact Nat.mul_le_mul_right _ (Nat.le_succ _)

theorem round_at_le (shift n b : Nat) (sticky : Bool) (hdvd : 2 ^ shift ∣ b) (h : n ≤ b) :
    round_at shift n sticky ≤ b := by
  obtain ⟨j, rfl⟩ := hdvd
  have hu : 0 < 2 ^ shift := by positivity
  have hq : n / 2 ^ shift ≤ j := by
    rw [Nat.div_le_iff_le_mul_add_pred hu]
    have : 2 ^ shift * j ≤ 2 ^ shift * j + (2 ^ shift - 1) := Nat.le_add_right _ _
    omega
  unfold round_at
  simp only
  split_ifs with hc
  · rw [mul_comm (2 ^ shift)]
    exact Nat.mul_le_mul_right _ hq
  · rw [mul_comm (2 ^ shift)]
    apply Nat.mul_le_mul_right
    by_contra hlt
    have hqj : n / 2 ^ shift = j := by omega
    have hn : n = 2 ^ shift * j := by
      have h1 := Nat.div_mul_le_self n (2 ^ shift)
      rw [hqj, mul_comm] at h1
      omega
    apply hc
    left
    rw [hn, Nat.mul_mod_right]
    omega

/-- `round_at` rounds to nearest: the result is a multiple of `2 ^ shift` at a distance of
at most half of `2 ^ shift` from `n`, and on a tie it is the even multiple. -/
theorem round_at_nearest (shift n : Nat) :
    2 ^ shift ∣ round_at shift n false ∧
      2 * (round_at shift n false - n) ≤ 2 ^ shift ∧
      2 * (n - round_at shift n false) ≤ 2 ^ shift ∧
      (2 * (n % 2 ^ shift) = 2 ^ shift → round_at shift n false / 2 ^ shift % 2 = 0) := by
  have hu : 0 < 2 ^ shift := by positivity
  have hn := Nat.div_add_mod n (2 ^ shift)
  have hr := Nat.mod_lt n hu
  have hq : 2 ^ shift * (n / 2 ^ shift) = n / 2 ^ shift * 2 ^ shift := mul_comm _ _
  unfold round_at
  simp only
  split_ifs with hc
  · refine ⟨Dvd.intro_left _ rfl, by omega, ?_, ?_⟩
    · rcases hc with hc | hc <;> omega
    · intro htie
      rw [Nat.mul_div_cancel _ hu]
      rcases hc with hc | hc
      · omega
      · exact hc.2.2
  · refine ⟨Dvd.intro_left _ rfl, ?_, ?_, ?_⟩
    · rw [Nat.add_mul, one_mul]
      have : ¬ 2 * (n % 2 ^ shift) < 2 ^ shift := fun h => hc (Or.inl h)
      omega
    · rw [Nat.add_mul, one_mul]
      omega
    · intro htie
      rw [Nat.mul_div_cancel _ hu]
      have : ¬ (n / 2 ^ shift) % 2 = 0 := fun h => hc (Or.inr ⟨htie, trivial, h⟩)
      omega

/-- The shift used for `n` divides every `m * 2 ^ e` with fewer than `p` bits in `m` that
is at least `n`... -/
theorem shift_le_of_ge (p n m e : Nat) (hm : m < 2 ^ p) (h : 2 ^ (bit_length n - 1) ≤ m * 2 ^ e) :
    bit_length n - p ≤ e := by
  by_contra hlt
  have h1 : p + e ≤ bit_length n - 1 := by omega
  have h2 : m * 2 ^ e < 2 ^ p * 2 ^ e := Nat.mul_lt_mul_of_pos_right hm (by positivity)
  rw [← pow_add] at h2
  have h3 : 2 ^ (p + e) ≤ 2 ^ (bit_length n - 1) := Nat.pow_le_pow_right (by norm_num) h1
  omega

theorem round_sig_le (p n m e : Nat) (sticky : Bool) (hm : m < 2 ^ p) (h : n ≤ m * 2 ^ e) :
    round_sig p n sticky ≤ m * 2 ^ e := by
  unfold round_sig
  by_cases hn : n = 0
  · subst hn
    have : round_at (bit_length 0 - p) 0 sticky = 0 := by
      unfold round_at
      simp
    rw [this]
    exact Nat.zero_le _
  · apply round_at_le _ _ _ _ _ h
    have hs := shift_le_of_ge p n m e hm ((bit_length_spec n hn).2.trans h)
    exact Dvd.dvd.mul_left (pow_dvd_pow 2 hs) m

theorem le_round_sig (p n m e : Nat) (sticky : Bool) (hp : 0 < p) (hm : m < 2 ^ p)
    (h : m * 2 ^ e ≤ n) : m * 2 ^ e ≤ round_sig p n sticky := by
  unfold round_sig
  refine le_trans ?_ (round_at_ge _ n sticky)
  by_cases hn : n = 0
  · subst hn
    have : m * 2 ^ e = 0 := by omega
    rw [this]
    exact Nat.zero_le _
  obtain ⟨hpos, hlow⟩ := bit_length_spec n hn
  have hu : 0 < 2 ^ (bit_length n - p) := by positivity
  by_cases hs : bit_length n - p ≤ e
  · obtain ⟨j, hj⟩ : 2 ^ (bit_length n - p) ∣ m * 2 ^ e :=
      Dvd.dvd.mul_left (pow_dvd_pow 2 hs) m
    rw [hj, mul_comm]
    apply Nat.mul_le_mul_right
    rw [Nat.le_div_iff_mul_le hu, mul_comm, ← hj]
    exact h
  · have h1 : p + e ≤ bit_length n - 1 := by omega
    have h2 : m * 2 ^ e < 2 ^ p * 2 ^ e := Nat.mul_lt_mul_of_pos_right hm (by positivity)
    rw [← pow_add] at h2
    have h3 : 2 ^ (p + e) ≤ 2 ^ (bit_length n - 1) := Nat.pow_le_pow_right (by norm_num) h1
    have h4 : 2 ^ (bit_length n - 1) = 2 ^ (p - 1) * 2 ^ (bit_length n - p) := by
      rw [← pow_add]
      congr 1
      omega
    have h5 : 2 ^ (p - 1) ≤ n / 2 ^ (bit_length n - p) := by
      rw [Nat.le_div_iff_mul_le hu, ← h4]
      exact hlow
    calc m * 2 ^ e ≤ 2 ^ (bit_length n - 1) := by omega
      _ = 2 ^ (p - 1) * 2 ^ (bit_length n - p) := h4
      _ ≤ n / 2 ^ (bit_length n - p) * 2 ^ (bit_length n - p) := Nat.mul_le_mul_right _ h5

theorem round_float_le {n m e : Nat} (hm : m < 2 ^ 24) (h : n ≤ m * 2 ^ e) :
    round_float n ≤ m * 2 ^ e :=
  round_sig_le 24 n m e false hm h

theorem le_round_float {n m e : Nat} (hm : m < 2 ^ 24) (h : m * 2 ^ e ≤ n) :
    m * 2 ^ e ≤ round_float n :=
  le_round_sig 24 n m e false (by norm_num) hm h

theorem round_float_of_lt {n : Nat} (h : n < 2 ^ 24) : round_float n = n := by
  have h1 := @round_float_le n n 0 h (by simp)
  have h2 := @le_round_float n n 0 h (by simp)
  simp only [pow_zero, mul_one] at h1 h2
  exact le_antisymm h1 h2

theorem lt_of_round_float_lt {n : Nat} (h : round_float n < 2 ^ 24) : n < 2 ^ 24 := by
  by_contra hn
  have := @le_round_float n (2 ^ 23) 1 (by norm_num) (by norm_num at hn ⊢; omega)
  norm_num at this h
  omega

theorem round_float_saturated : round_float (2 ^ 24 + 1) = 2 ^ 24 := by decide

theorem round_float_succ_le {c : Nat} (h : c ≤ 2 ^ 24) : round_float (c + 1) ≤ 2 ^ 24 := by
  by_cases hc : c = 2 ^ 24
  · rw [hc, round_float_saturated]
  · have := @round_float_le (c + 1) (2 ^ 23) 1 (by norm_num) (by norm_num at h hc ⊢; omega)
    norm_num at this ⊢
    exact this

theorem sqrt_floor_loop_sq_le (k n root : Nat) (h : root * root ≤ n) :
    sqrt_floor_loop k n root * sqrt_floor_loop k n root ≤ n := by
  induction k generalizing root with
  | zero => exact h
  | succ k ih =>
    rw [sqrt_floor_loop]
    split_ifs with hc
    · exact ih _ hc
    · exact ih _ h

theorem sqrt_floor_sq_le (n : Nat) : sqrt_floor n * sqrt_floor n ≤ n :=
  sqrt_floor_loop_sq_le _ n 0 (Nat.zero_le _)

theorem bit_length_loop_lt (fuel n : Nat) (hf : n ≤ fuel) :
    n < 2 ^ bit_length_loop fuel n := by
  induction fuel generalizing n with
  | zero =>
    have : n = 0 := by omega
    subst this
    simp [bit_length_loop]
  | succ fuel ih =>
    by_cases hn : n = 0
    · subst hn
      rw [bit_length_loop_zero]
      simp
    · rw [bit_length_loop_succ fuel n hn, pow_succ]
      have := ih (n / 2) (by omega)
      omega

theorem lt_two_pow_bit_length (n : Nat) : n < 2 ^ bit_length n :=
  bit_length_loop_lt n n le_rfl

theorem sqrt_floor_loop_lt (k n root : Nat) (h : n < (root + 2 ^ k) * (root + 2 ^ k)) :
    n < (sqrt_floor_loop k n root + 1) * (sqrt_floor_loop k n root + 1) := by
  induction k generalizing root with
  | zero => simpa [sqrt_floor_loop] using h
  | succ k ih =>
    rw [sqrt_floor_loop]
    split_ifs with hc
    · apply ih
      have : root + 2 ^ k + 2 ^ k = root + 2 ^ (k + 1) := by
        rw [pow_succ]; ring
      rw [this]
      exact h
    · apply ih
      omega

/-- `sqrt_floor n` is the integer part of the square root of `n`. -/
theorem sqrt_floor_spec (n : Nat) :
    sqrt_floor n * sqrt_floor n ≤ n ∧ n < (sqrt_floor n + 1) * (sqrt_floor n + 1) := by
  refine ⟨sqrt_floor_sq_le n, sqrt_floor_loop_lt _ n 0 ?_⟩
  have h1 := lt_two_pow_bit_length n
  have h2 : 2 ^ bit_length n ≤ 2 ^ (bit_length n / 2 + 1) * 2 ^ (bit_length n / 2 + 1) := by
    rw [← pow_add]
    exact Nat.pow_le_pow_right (by norm_num) (by omega)
  simp only [Nat.zero_add]
  omega

theorem toFloat_le (rad m : Nat) (hm : m < 2 ^ 24) (h : rad ≤ m * m) :
    (Value.toFloat ⟨0, rad⟩).units ≤ m * 2 ^ 149 := by
  have hs : sqrt_floor (rad * 4 ^ 53) ≤ m * 2 ^ 53 := by
    have h1 := sqrt_floor_sq_le (rad * 4 ^ 53)
    have h2 : rad * 4 ^ 53 ≤ (m * 2 ^ 53) * (m * 2 ^ 53) := by
      have : (m * 2 ^ 53) * (m * 2 ^ 53) = (m * m) * 4 ^ 53 := by
        have : (4 : Nat) ^ 53 = 2 ^ 53 * 2 ^ 53 := by norm_num
        rw [this]; ring
      rw [this]
      exact Nat.mul_le_mul_right _ h
    by_contra hlt
    have h3 : m * 2 ^ 53 < sqrt_floor (rad * 4 ^ 53) := by omega
    have := Nat.mul_lt_mul'' h3 h3
    omega
  have hd := round_sig_le 53 (0 * 2 ^ 53 + sqrt_floor (rad * 4 ^ 53)) m 53
    (decide (sqrt_floor (rad * 4 ^ 53) * sqrt_floor (rad * 4 ^ 53) ≠ rad * 4 ^ 53))
    (lt_trans hm (by norm_num)) (by omega)
  have hf := round_sig_le 24 _ m 53 false hm hd
  unfold Value.toFloat
  simp only
  have : m * 2 ^ 149 = m * 2 ^ 53 * 2 ^ 96 := by
    rw [mul_assoc, ← pow_add]
  rw [this]
  exact Nat.mul_le_mul_right _ hf

theorem addCost_ge (cost : Nat) (h : Float32) (hc : cost < 2 ^ 24) :
    cost * 2 ^ 149 ≤ (Float32.addCost cost h).units := by
  unfold Float32.addCost
  exact le_round_float hc (Nat.le_add_right _ _)

theorem addCost_le (cost m : Nat) (h : Float32) (hc : cost + m < 2 ^ 24)
    (hh : h.units ≤ m * 2 ^ 149) :
    (Float32.addCost cost h).units ≤ (cost + m) * 2 ^ 149 := by
  unfold Float32.addCost
  apply round_float_le hc
  rw [Nat.add_mul]
  omega

/-! ## The order of floats -/

theorem value_lt_eq_true_iff (a b : Float32) : a.lt b = true ↔ ¬ Float32.le b a := by
  unfold Float32.lt Float32.le
  rw [decide_eq_true_iff, not_le]

theorem value_lt_eq_false_iff (a b : Float32) : a.lt b = false ↔ Float32.le b a := by
  rw [← Bool.not_eq_true, value_lt_eq_true_iff, not_not]

theorem value_le_refl (a : Float32) : Float32.le a a := by
  unfold Float32.le; exact le_rfl

theorem value_le_trans {a b c : Float32} (h1 : Float32.le a b) (h2 : Float32.le b c) :
    Float32.le a c := by
  unfold Float32.le at *; exact le_trans h1 h2

theorem value_le_total (a b : Float32) : Float32.le a b ∨ Float32.le b a := by
  unfold Float32.le; exact le_total _ _

/-! ## Slots, keys and exchanges -/

theorem cost_at_of_getElem? {l : List Node} {i : Nat} {a : Node} (h : l[i]? = some a) :
    cost_at l i = a.total_cost := by
  simp [cost_at, h]

theorem cost_lt_eq {l : List Node} {i j : Nat} (hi : i < l.length) (hj : j < l.length) :
    cost_lt l i j = (cost_at l i).lt (cost_at l j) := by
  simp [cost_lt, cost_at, List.getElem?_eq_getElem hi, List.getElem?_eq_getElem hj]

theorem swap_length (l : List Node) (i j : Nat) : (swap l i j).length = l.length := by
  unfold swap
  split <;> simp

theorem swap_getElem? {l : List Node} {i j : Nat} (hi : i < l.length) (hj : j < l.length)
    (k : Nat) :
    (swap l i j)[k]? = if k = j then l[i]? else if k = i then l[j]? else l[k]? := by
  unfold swap
  simp only [List.getElem?_eq_getElem hi, List.getElem?_eq_getElem hj]
  by_cases hkj : k = j
  · subst hkj
    simp [hj]
  · by_cases hki : k = i
    · subst hki
      simp [hkj, hi, Ne.symm hkj, List.getElem?_set_ne]
    · simp [hkj, hki, Ne.symm hkj, Ne.symm hki, List.getElem?_set_ne]

theorem swap_cost_at {l : List Node} {i j : Nat} (hi : i < l.length) (hj : j < l.length)
    (k : Nat) :
    cost_at (swap l i j) k =
      if k = j then cost_at l i else if k = i then cost_at l j else cost_at l k := by
  unfold cost_at
  rw [swap_getElem? hi hj]
  split_ifs <;> rfl

theorem set_cons_perm {l : List Node} {k : Nat} (hk : k < l.length) (a : Node) :
    (l[k] :: l.set k a).Perm (a :: l) := by
  induction l generalizing k with
  | nil => simp at hk
  | cons h t ih =>
    cases k with
    | zero => simpa using List.Perm.swap a h t
    | succ k =>
      have hk2 : k < t.length := by simpa using hk
      have h1 : (t[k] :: h :: t.set k a).Perm (h :: t[k] :: t.set k a) := List.Perm.swap _ _ _
      have h2 : (h :: t[k] :: t.set k a).Perm (h :: a :: t) := (ih hk2).cons h
      have h3 : (h :: a :: t).Perm (a :: h :: t) := List.Perm.swap _ _ _
      simpa using h1.trans (h2.trans h3)

theorem swap_perm_aux (l : List Node) (i j : Nat) (hij : i < j) (hj : j < l.length)
    (hi : i < l.length) : ((l.set i l[j]).set j l[i]).Perm l := by
  induction l generalizing i j with
  | nil => simp at hj
  | cons h t ih =>
    cases j with
    | zero => omega
    | succ j =>
      have hj2 : j < t.length := by simpa using hj
      cases i with
      | zero =>
        simp only [List.set_cons_zero, List.set_cons_succ, List.getElem_cons_succ,
          List.getElem_cons_zero]
        exact set_cons_perm hj2 h
      | succ i =>
        simp only [List.set_cons_succ, List.getElem_cons_succ]
        exact (ih i j (by omega) hj2 (by omega)).cons h

theorem swap_perm (l : List Node) (i j : Nat) (hij : i < j) : (swap l i j).Perm l := by
  unfold swap
  by_cases hj : j < l.length
  · have hi : i < l.length := hij.trans hj
    simp only [List.getElem?_eq_getElem hi, List.getElem?_eq_getElem hj]
    exact swap_perm_aux l i j hij hj hi
  · have : l[j]? = none := List.getElem?_eq_none (by omega)
    rw [this]
    split
    · simp_all
    · exact List.Perm.refl _

/-! ## The shape of the heap is kept by `heapify_up` and `heapify_down` -/

theorem isMinHeap_iff (l : List Node) :
    IsMinHeap l ↔
      ∀ i, i < l.length → 0 < i → Float32.le (cost_at l ((i - 1) / 2)) (cost_at l i) := by
  unfold IsMinHeap
  constructor
  · intro h i hi h0
    have hp : (i - 1) / 2 < l.length := by omega
    have := h i hi h0
    rw [cost_lt_eq hi hp, value_lt_eq_false_iff] at this
    exact this
  · intro h i hi h0
    have hp : (i - 1) / 2 < l.length := by omega
    rw [cost_lt_eq hi hp, value_lt_eq_false_iff]
    exact h i hi h0

theorem heapify_up_loop_succ (s : Nat) (l : List Node) (i : Nat) :
    heapify_up_loop (s + 1) l i =
      if 0 < i then
        if cost_lt l i ((i - 1) / 2) then
          heapify_up_loop s (swap l ((i - 1) / 2) i) ((i - 1) / 2)
        else l
      else l := rfl

theorem heapify_up_loop_length (s : Nat) (l : List Node) (i : Nat) :
    (heapify_up_loop s l i).length = l.length := by
  induction s generalizing l i with
  | zero => rfl
  | succ s ih =>
    rw [heapify_up_loop_succ]
    split_ifs
    · rw [ih, swap_length]
    · rfl
    · rfl

theorem heapify_up_loop_perm (s : Nat) (l : List Node) (i : Nat) :
    (heapify_up_loop s l i).Perm l := by
  induction s generalizing l i with
  | zero => exact List.Perm.refl _
  | succ s ih =>
    rw [heapify_up_loop_succ]
    split_ifs with h0 h1
    · exact (ih _ _).trans (swap_perm l _ _ (by omega))
    · exact List.Perm.refl _
    · exact List.Perm.refl _

theorem heapify_up_loop_heap (s : Nat) (l : List Node) (i : Nat) (his : i ≤ s)
    (hi : i < l.length)
    (ha : ∀ j, j < l.length → 0 < j → j ≠ i →
      Float32.le (cost_at l ((j - 1) / 2)) (cost_at l j))
    (hb : ∀ j, j < l.length → 0 < j → 0 < i → (j - 1) / 2 = i →
      Float32.le (cost_at l ((i - 1) / 2)) (cost_at l j)) :
    IsMinHeap (heapify_up_loop s l i) := by
  induction s generalizing l i with
  | zero =>
    have hi0 : i = 0 := by omega
    subst hi0
    rw [isMinHeap_iff]
    intro j hj hj0
    exact ha j hj hj0 (by omega)
  | succ s ih =>
    rw [heapify_up_loop_succ]
    by_cases h0 : 0 < i
    · have hp : (i - 1) / 2 < l.length := by omega
      have hpi : (i - 1) / 2 < i := by omega
      simp only [h0, if_true]
      by_cases hlt : cost_lt l i ((i - 1) / 2) = true
      · simp only [hlt, if_true]
        have hlt2 : ¬ Float32.le (cost_at l ((i - 1) / 2)) (cost_at l i) := by
          rw [cost_lt_eq hi hp, value_lt_eq_true_iff] at hlt
          exact hlt
        have hle : Float32.le (cost_at l i) (cost_at l ((i - 1) / 2)) :=
          (value_le_total _ _).resolve_right hlt2
        apply ih
        · omega
        · rw [swap_length]; exact hp
        · intro j hj hj0 hjp
          rw [swap_length] at hj
          rw [swap_cost_at hp hi, swap_cost_at hp hi]
          by_cases hji : j = i
          · subst hji
            simp only [if_pos, if_neg (ne_of_lt hpi), if_true]
            exact hle
          · simp only [if_neg hji, if_neg hjp]
            by_cases hpj : (j - 1) / 2 = i
            · simp only [if_pos hpj]
              exact hb j hj hj0 h0 hpj
            · simp only [if_neg hpj]
              by_cases hpj2 : (j - 1) / 2 = (i - 1) / 2
              · simp only [if_pos hpj2]
                have := ha j hj hj0 hji
                rw [hpj2] at this
                exact value_le_trans hle this
              · simp only [if_neg hpj2]
                exact ha j hj hj0 hji
        · intro j hj hj0 hp0 hjp
          rw [swap_length] at hj
          rw [swap_cost_at hp hi, swap_cost_at hp hi]
          have h1 : ((i - 1) / 2 - 1) / 2 ≠ i := by omega
          have h2 : ((i - 1) / 2 - 1) / 2 ≠ (i - 1) / 2 := by omega
          have h3 : j ≠ (i - 1) / 2 := by omega
          simp only [if_neg h1, if_neg h2, if_neg h3]
          have hpp := ha ((i - 1) / 2) hp hp0 (by omega)
          by_cases hji : j = i
          · simp only [if_pos hji]
            exact hpp
          · simp only [if_neg hji]
            have := ha j hj hj0 hji
            rw [hjp] at this
            exact value_le_trans hpp this
      · simp only [hlt]
        rw [isMinHeap_iff]
        intro j hj hj0
        by_cases hji : j = i
        · subst hji
          rw [Bool.not_eq_true, cost_lt_eq hi hp, value_lt_eq_false_iff] at hlt
          exact hlt
        · exact ha j hj hj0 hji
    · simp only [h0, if_false]
      rw [isMinHeap_iff]
      intro j hj hj0
      exact ha j hj hj0 (by omega)

theorem heapify_down_rec_succ (d : Nat) (l : List Node) (i : Nat) :
    heapify_down_rec (d + 1) l i =
      if (if 2 * i + 2 < l.length &&
            cost_lt l (2 * i + 2)
              (if 2 * i + 1 < l.length && cost_lt l (2 * i + 1) i then 2 * i + 1 else i)
          then 2 * i + 2
          else (if 2 * i + 1 < l.length && cost_lt l (2 * i + 1) i then 2 * i + 1 else i)) ≠ i
      then
        heapify_down_rec d
          (swap l i
            (if 2 * i + 2 < l.length &&
              cost_lt l (2 * i + 2)
                (if 2 * i + 1 < l.length && cost_lt l (2 * i + 1) i then 2 * i + 1 else i)
            then 2 * i + 2
            else (if 2 * i + 1 < l.length && cost_lt l (2 * i + 1) i then 2 * i + 1 else i)))
          (if 2 * i + 2 < l.length &&
              cost_lt l (2 * i + 2)
                (if 2 * i + 1 < l.length && cost_lt l (2 * i + 1) i then 2 * i + 1 else i)
            then 2 * i + 2
            else (if 2 * i + 1 < l.length && cost_lt l (2 * i + 1) i then 2 * i + 1 else i))
      else l := rfl

theorem cost_lt_true_le {l : List Node} {i j : Nat} (hi : i < l.length) (hj : j < l.length)
    (h : cost_lt l i j = true) : Float32.le (cost_at l i) (cost_at l j) := by
  rw [cost_lt_eq hi hj, value_lt_eq_true_iff] at h
  exact (value_le_total _ _).resolve_right h

theorem cost_lt_false_le {l : List Node} {i j : Nat} (hi : i < l.length) (hj : j < l.length)
    (h : cost_lt l i j = false) : Float32.le (cost_at l j) (cost_at l i) := by
  rw [cost_lt_eq hi hj, value_lt_eq_false_iff] at h
  exact h

theorem smallest_spec (l : List Node) (i s1 s2 : Nat)
    (hs1 : (if 2 * i + 1 < l.length && cost_lt l (2 * i + 1) i then 2 * i + 1 else i) = s1)
    (hs2 : (if 2 * i + 2 < l.length && cost_lt l (2 * i + 2) s1 then 2 * i + 2 else s1) = s2) :
    (s2 = i ∨ (s2 = 2 * i + 1 ∧ 2 * i + 1 < l.length) ∨
        (s2 = 2 * i + 2 ∧ 2 * i + 2 < l.length)) ∧
      (∀ j, j < l.length → (j = 2 * i + 1 ∨ j = 2 * i + 2) →
        Float32.le (cost_at l s2) (cost_at l j)) ∧
      Float32.le (cost_at l s2) (cost_at l i) := by
  by_cases c1 : (2 * i + 1 < l.length && cost_lt l (2 * i + 1) i) = true
  · rw [if_pos c1] at hs1
    subst hs1
    rw [Bool.and_eq_true, decide_eq_true_eq] at c1
    obtain ⟨hl, hlt⟩ := c1
    have hi : i < l.length := by omega
    have h1 := cost_lt_true_le hl hi hlt
    by_cases c2 : (2 * i + 2 < l.length && cost_lt l (2 * i + 2) (2 * i + 1)) = true
    · rw [if_pos c2] at hs2
      subst hs2
      rw [Bool.and_eq_true, decide_eq_true_eq] at c2
      obtain ⟨hr, hrt⟩ := c2
      have h2 := cost_lt_true_le hr hl hrt
      refine ⟨Or.inr (Or.inr ⟨rfl, hr⟩), ?_, value_le_trans h2 h1⟩
      rintro j hj (rfl | rfl)
      · exact h2
      · exact value_le_refl _
    · rw [if_neg c2] at hs2
      subst hs2
      refine ⟨Or.inr (Or.inl ⟨rfl, hl⟩), ?_, h1⟩
      rintro j hj (rfl | rfl)
      · exact value_le_refl _
      · have : cost_lt l (2 * i + 2) (2 * i + 1) = false := by
          simpa [hj] using c2
        exact cost_lt_false_le hj hl this
  · rw [if_neg c1] at hs1
    subst hs1
    have h1 : 2 * i + 1 < l.length → Float32.le (cost_at l i) (cost_at l (2 * i + 1)) := by
      intro hl
      have : cost_lt l (2 * i + 1) i = false := by simpa [hl] using c1
      exact cost_lt_false_le hl (by omega) this
    by_cases c2 : (2 * i + 2 < l.length && cost_lt l (2 * i + 2) i) = true
    · rw [if_pos c2] at hs2
      subst hs2
      rw [Bool.and_eq_true, decide_eq_true_eq] at c2
      obtain ⟨hr, hrt⟩ := c2
      have hi : i < l.length := by omega
      have h2 := cost_lt_true_le hr hi hrt
      refine ⟨Or.inr (Or.inr ⟨rfl, hr⟩), ?_, h2⟩
      rintro j hj (rfl | rfl)
      · exact value_le_trans h2 (h1 hj)
      · exact value_le_refl _
    · rw [if_neg c2] at hs2
      subst hs2
      refine ⟨Or.inl rfl, ?_, value_le_refl _⟩
      rintro j hj (rfl | rfl)
      · exact h1 hj
      · have : cost_lt l (2 * i + 2) i = false := by simpa [hj] using c2
        exact cost_lt_false_le hj (by omega) this

theorem heapify_down_rec_perm (d : Nat) (l : List Node) (i : Nat) :
    (heapify_down_rec d l i).Perm l := by
  induction d generalizing l i with
  | zero => exact List.Perm.refl _
  | succ d ih =>
    rw [heapify_down_rec_succ]
    generalize hs1 : (if 2 * i + 1 < l.length && cost_lt l (2 * i + 1) i
      then 2 * i + 1 else i) = s1
    generalize hs2 : (if 2 * i + 2 < l.length && cost_lt l (2 * i + 2) s1
      then 2 * i + 2 else s1) = s2
    obtain ⟨hcase, -, -⟩ := smallest_spec l i s1 s2 hs1 hs2
    split_ifs with hne
    · exact (ih _ _).trans (swap_perm l i s2 (by omega))
    · exact List.Perm.refl _

theorem heapify_down_rec_heap (d : Nat) (l : List Node) (i : Nat) (hd : l.length ≤ d + i)
    (ha : ∀ j, j < l.length → 0 < j → (j - 1) / 2 ≠ i →
      Float32.le (cost_at l ((j - 1) / 2)) (cost_at l j))
    (hb : ∀ j, j < l.length → 0 < j → 0 < i → (j - 1) / 2 = i →
      Float32.le (cost_at l ((i - 1) / 2)) (cost_at l j)) :
    IsMinHeap (heapify_down_rec d l i) := by
  induction d generalizing l i with
  | zero =>
    rw [isMinHeap_iff]
    intro j hj hj0
    exact ha j hj hj0 (by simp [heapify_down_rec] at hj; omega)
  | succ d ih =>
    rw [heapify_down_rec_succ]
    generalize hs1 : (if 2 * i + 1 < l.length && cost_lt l (2 * i + 1) i
      then 2 * i + 1 else i) = s1
    generalize hs2 : (if 2 * i + 2 < l.length && cost_lt l (2 * i + 2) s1
      then 2 * i + 2 else s1) = s2
    obtain ⟨hcase, hch, hsi⟩ := smallest_spec l i s1 s2 hs1 hs2
    by_cases hne : s2 ≠ i
    · rw [if_pos hne]
      have hs : s2 < l.length := by omega
      have his : i < s2 := by omega
      have hi : i < l.length := by omega
      have hps : (s2 - 1) / 2 = i := by omega
      apply ih
      · rw [swap_length]; omega
      · intro j hj hj0 hjp
        rw [swap_length] at hj
        rw [swap_cost_at hi hs, swap_cost_at hi hs]
        have hpne : (j - 1) / 2 ≠ s2 := hjp
        simp only [if_neg hpne]
        by_cases hjs : j = s2
        · subst hjs
          simp only [if_pos hps, if_true]
          exact hsi
        · simp only [if_neg hjs]
          by_cases hji : j = i
          · subst hji
            have hpi : (j - 1) / 2 ≠ j := by omega
            simp only [if_neg hpi, if_true]
            exact hb s2 hs (by omega) hj0 hps
          · simp only [if_neg hji]
            by_cases hpj : (j - 1) / 2 = i
            · simp only [if_pos hpj]
              exact hch j hj (by omega)
            · simp only [if_neg hpj]
              exact ha j hj hj0 hpj
      · intro j hj hj0 hs0 hjp
        rw [swap_length] at hj
        rw [swap_cost_at hi hs, swap_cost_at hi hs]
        have h1 : (s2 - 1) / 2 ≠ s2 := by omega
        have h2 : j ≠ s2 := by omega
        have h3 : j ≠ i := by omega
        simp only [if_neg h1, if_pos hps, if_neg h2, if_neg h3]
        have := ha j hj hj0 (by omega)
        rw [hjp] at this
        exact this
    · rw [if_neg hne]
      rw [not_not] at hne
      subst hne
      rw [isMinHeap_iff]
      intro j hj hj0
      by_cases hpj : (j - 1) / 2 = s2
      · have := hch j hj (by omega)
        rw [hpj]
        exact this
      · exact ha j hj hj0 hpj

/-! ## The bounds on the rounds of `heapify_up` and `heapify_down` lose nothing -/

theorem heapify_up_loop_rounds (s t : Nat) (l : List Node) (i : Nat) (hs : i ≤ s)
    (ht : i ≤ t) : heapify_up_loop s l i = heapify_up_loop t l i := by
  induction s generalizing t l i with
  | zero =>
    have hi : i = 0 := by omega
    subst hi
    cases t with
    | zero => rfl
    | succ t => rw [heapify_up_loop_succ, if_neg (by omega)]; rfl
  | succ s ih =>
    cases t with
    | zero =>
      have hi : i = 0 := by omega
      subst hi
      rw [heapify_up_loop_succ, if_neg (by omega)]; rfl
    | succ t =>
      rw [heapify_up_loop_succ, heapify_up_loop_succ]
      by_cases h0 : 0 < i
      · rw [if_pos h0, if_pos h0]
        by_cases hc : cost_lt l i ((i - 1) / 2) = true
        · rw [if_pos hc, if_pos hc]
          exact ih t _ _ (by omega) (by omega)
        · rw [if_neg hc, if_neg hc]
      · rw [if_neg h0, if_neg h0]

/-- The loop of `heapify_up` as the C code runs it: while `index > 0`, exchange with the
parent and continue there if the parent has the greater `total_cost`, else stop. -/
theorem heapify_up_unfold (pq : PriorityQueue) (index : Nat) :
    heapify_up pq index =
      if 0 < index then
        if cost_lt pq.nodes index ((index - 1) / 2) then
          heapify_up { pq with nodes := swap pq.nodes ((index - 1) / 2) index }
            ((index - 1) / 2)
        else pq
      else pq := by
  unfold heapify_up
  cases index with
  | zero => rfl
  | succ i =>
    have h0 : 0 < i + 1 := by omega
    rw [heapify_up_loop_succ, if_pos h0, if_pos h0]
    by_cases hc : cost_lt pq.nodes (i + 1) ((i + 1 - 1) / 2) = true
    · rw [if_pos hc, if_pos hc]
      simp only
      rw [heapify_up_loop_rounds i ((i + 1 - 1) / 2) _ _ (by omega) le_rfl]
    · rw [if_neg hc, if_neg hc]

theorem heapify_down_rec_depth (d e : Nat) (l : List Node) (i : Nat)
    (hd : l.length ≤ d + i) (he : l.length ≤ e + i) :
    heapify_down_rec d l i = heapify_down_rec e l i := by
  have hstop : ∀ (c : Nat) (l : List Node) (i : Nat), l.length ≤ i →
      heapify_down_rec c l i = l := by
    intro c l i hi
    cases c with
    | zero => rfl
    | succ c =>
      rw [heapify_down_rec_succ]
      generalize hs1 : (if 2 * i + 1 < l.length && cost_lt l (2 * i + 1) i
        then 2 * i + 1 else i) = s1
      generalize hs2 : (if 2 * i + 2 < l.length && cost_lt l (2 * i + 2) s1
        then 2 * i + 2 else s1) = s2
      obtain ⟨hcase, -, -⟩ := smallest_spec l i s1 s2 hs1 hs2
      have : s2 = i := by omega
      rw [if_neg (by simp [this])]
  induction d generalizing e l i with
  | zero => rw [hstop 0 l i (by omega), hstop e l i (by omega)]
  | succ d ih =>
    cases e with
    | zero => rw [hstop (d + 1) l i (by omega), hstop 0 l i (by omega)]
    | succ e =>
      rw [heapify_down_rec_succ, heapify_down_rec_succ]
      generalize hs1 : (if 2 * i + 1 < l.length && cost_lt l (2 * i + 1) i
        then 2 * i + 1 else i) = s1
      generalize hs2 : (if 2 * i + 2 < l.length && cost_lt l (2 * i + 2) s1
        then 2 * i + 2 else s1) = s2
      obtain ⟨hcase, -, -⟩ := smallest_spec l i s1 s2 hs1 hs2
      by_cases hne : s2 ≠ i
      · rw [if_pos hne, if_pos hne]
        exact ih e _ _ (by rw [swap_length]; omega) (by rw [swap_length]; omega)
      · rw [if_neg hne, if_neg hne]

/-- The recursion of `heapify_down` as the C code runs it: pick the smallest of the node
and its children inside the queue, and if that is a child, exchange and recurse there. -/
theorem heapify_down_unfold (pq : PriorityQueue) (index : Nat) :
    heapify_down pq index =
      if (if 2 * index + 2 < pq.size &&
            cost_lt pq.nodes (2 * index + 2)
              (if 2 * index + 1 < pq.size && cost_lt pq.nodes (2 * index + 1) index
                then 2 * index + 1 else index)
          then 2 * index + 2
          else (if 2 * index + 1 < pq.size && cost_lt pq.nodes (2 * index + 1) index
            then 2 * index + 1 else index)) ≠ index
      then
        heapify_down
          { pq with nodes := (swap pq.nodes index
              (if 2 * index + 2 < pq.size &&
                cost_lt pq.nodes (2 * index + 2)
                  (if 2 * index + 1 < pq.size && cost_lt pq.nodes (2 * index + 1) index
                    then 2 * index + 1 else index)
              then 2 * index + 2
              else (if 2 * index + 1 < pq.size && cost_lt pq.nodes (2 * index + 1) index
                then 2 * index + 1 else index))) }
          (if 2 * index + 2 < pq.size &&
              cost_lt pq.nodes (2 * index + 2)
                (if 2 * index + 1 < pq.size && cost_lt pq.nodes (2 * index + 1) index
                  then 2 * index + 1 else index)
            then 2 * index + 2
            else (if 2 * index + 1 < pq.size && cost_lt pq.nodes (2 * index + 1) index
              then 2 * index + 1 else index))
      else pq := by
  unfold heapify_down PriorityQueue.size
  generalize hs1 : (if 2 * index + 1 < pq.nodes.length && cost_lt pq.nodes (2 * index + 1) index
    then 2 * index + 1 else index) = s1
  generalize hs2 : (if 2 * index + 2 < pq.nodes.length && cost_lt pq.nodes (2 * index + 2) s1
    then 2 * index + 2 else s1) = s2
  obtain ⟨hcase, -, -⟩ := smallest_spec pq.nodes index s1 s2 hs1 hs2
  by_cases hne : s2 ≠ index
  · rw [if_pos hne]
    have hlen : 0 < pq.nodes.length := by omega
    obtain ⟨d, hd⟩ : ∃ d, pq.nodes.length = d + 1 := ⟨pq.nodes.length - 1, by omega⟩
    simp only
    rw [hd, heapify_down_rec_succ, hs1, hs2, if_pos hne, swap_length]
    rw [heapify_down_rec_depth d pq.nodes.length _ _ (by rw [swap_length]; omega)
      (by rw [swap_length]; omega)]
  · rw [if_neg hne]
    cases hl : pq.nodes.length with
    | zero => rfl
    | succ d =>
      rw [heapify_down_rec_succ, hs1, hs2, if_neg hne]

/-! ## `insert_priority_queue` and `pop_priority_queue` -/

theorem insert_of_grown (ok : Bool) (pq : PriorityQueue) (node : Node)
    (h : ok = true ∨ pq.size ≠ pq.capacity) :
    insert_priority_queue ok pq node =
      { nodes := heapify_up_loop pq.nodes.length (pq.nodes ++ [node]) pq.nodes.length,
        capacity := if pq.size = pq.capacity then pq.capacity * 2 else pq.capacity } := by
  unfold insert_priority_queue resize_priority_queue heapify_up PriorityQueue.size
  by_cases hc : pq.nodes.length = pq.capacity
  · have hok : ok = true := by
      rcases h with h | h
      · exact h
      · exact absurd hc h
    subst hok
    simp [hc]
  · simp [hc]

theorem insert_of_failed (pq : PriorityQueue) (node : Node) (h : pq.size = pq.capacity) :
    insert_priority_queue false pq node = pq := by
  unfold insert_priority_queue resize_priority_queue
  simp [h]

theorem insert_cases (ok : Bool) (pq : PriorityQueue) (node : Node) :
    insert_priority_queue ok pq node = pq ∨
      insert_priority_queue ok pq node =
        { nodes := heapify_up_loop pq.nodes.length (pq.nodes ++ [node]) pq.nodes.length,
          capacity := if pq.size = pq.capacity then pq.capacity * 2 else pq.capacity } := by
  by_cases h : ok = true ∨ pq.size ≠ pq.capacity
  · exact Or.inr (insert_of_grown ok pq node h)
  · left
    rw [not_or, Bool.not_eq_true, not_not] at h
    rw [h.1]
    exact insert_of_failed pq node h.2

theorem cost_at_append_left {l : List Node} {i : Nat} (hi : i < l.length) (n : Node) :
    cost_at (l ++ [n]) i = cost_at l i := by
  unfold cost_at
  rw [List.getElem?_append_left hi]

theorem heapify_up_appended_heap (l : List Node) (node : Node) (h : IsMinHeap l) :
    IsMinHeap (heapify_up_loop l.length (l ++ [node]) l.length) := by
  rw [isMinHeap_iff] at h
  apply heapify_up_loop_heap
  · exact le_rfl
  · simp
  · intro j hj hj0 hjne
    have hj2 : j < l.length := by
      simp at hj; omega
    rw [cost_at_append_left hj2, cost_at_append_left (by omega)]
    exact h j hj2 hj0
  · intro j hj hj0 _ hjp
    simp at hj
    omega

theorem insert_heap (ok : Bool) (pq : PriorityQueue) (node : Node) (h : IsMinHeap pq.nodes) :
    IsMinHeap (insert_priority_queue ok pq node).nodes := by
  rcases insert_cases ok pq node with hc | hc
  · rw [hc]; exact h
  · rw [hc]; exact heapify_up_appended_heap pq.nodes node h

theorem insert_perm (pq : PriorityQueue) (node : Node) :
    (insert_priority_queue true pq node).nodes.Perm (node :: pq.nodes) := by
  rw [insert_of_grown true pq node (Or.inl rfl)]
  exact (heapify_up_loop_perm _ _ _).trans (List.perm_append_singleton node pq.nodes)

theorem pop_of_pos (pq : PriorityQueue) (h : 0 < pq.size) :
    ∃ top last, pq.nodes[0]? = some top ∧ pq.nodes[pq.size - 1]? = some last ∧
      pop_priority_queue pq =
        (some top,
          { nodes := heapify_down_rec ((pq.nodes.set 0 last).dropLast).length
              ((pq.nodes.set 0 last).dropLast) 0,
            capacity := pq.capacity }) := by
  unfold PriorityQueue.size at h
  have h0 : pq.nodes[0]? = some pq.nodes[0] := List.getElem?_eq_getElem h
  have hl : pq.nodes.length - 1 < pq.nodes.length := by omega
  have h1 : pq.nodes[pq.size - 1]? = some pq.nodes[pq.nodes.length - 1] := by
    unfold PriorityQueue.size
    exact List.getElem?_eq_getElem hl
  refine ⟨_, _, h0, h1, ?_⟩
  unfold pop_priority_queue
  have hne : ¬ pq.size = 0 := by unfold PriorityQueue.size; omega
  rw [if_neg hne, h0, h1]
  rfl

theorem popped_list_perm (l : List Node) (top last : Node) (h0 : l[0]? = some top)
    (h1 : l[l.length - 1]? = some last) : l.Perm (top :: (l.set 0 last).dropLast) := by
  cases l with
  | nil => simp at h0
  | cons a rest =>
    simp only [List.getElem?_cons_zero, Option.some.injEq] at h0
    subst h0
    cases hr : rest with
    | nil =>
      simp
    | cons b rest2 =>
      have hne : rest ≠ [] := by rw [hr]; simp
      have hlast : last = rest.getLast hne := by
        have : (a :: rest)[(a :: rest).length - 1]? = some (rest.getLast hne) := by
          rw [← List.getLast?_eq_getElem?, List.getLast?_eq_getLast (a :: rest) (by simp),
            List.getLast_cons hne]
        rw [this] at h1
        exact (Option.some.inj h1).symm
      rw [← hr]
      simp only [List.set_cons_zero]
      rw [List.dropLast_cons_of_ne_nil hne]
      have h2 : rest.dropLast ++ [last] = rest := by
        rw [hlast]; exact List.dropLast_concat_getLast hne
      have h3 : (last :: rest.dropLast).Perm rest := by
        have := (List.perm_append_singleton last rest.dropLast).symm
        rw [h2] at this
        exact this
      exact (h3.symm).cons a

theorem heap_root_le (l : List Node) (h : IsMinHeap l) (i : Nat) (hi : i < l.length) :
    Float32.le (cost_at l 0) (cost_at l i) := by
  rw [isMinHeap_iff] at h
  induction i using Nat.strong_induction_on with
  | _ i ih =>
    by_cases h0 : i = 0
    · subst h0; exact value_le_refl _
    · have hp : (i - 1) / 2 < i := by omega
      exact value_le_trans (ih _ hp (by omega)) (h i hi (by omega))

theorem popped_list_heap (l : List Node) (last : Node) (h : IsMinHeap l) :
    IsMinHeap (heapify_down_rec ((l.set 0 last).dropLast).length ((l.set 0 last).dropLast) 0) := by
  rw [isMinHeap_iff] at h
  have hlen : ((l.set 0 last).dropLast).length = l.length - 1 := by simp
  have hget : ∀ j, 0 < j → j < l.length - 1 →
      cost_at ((l.set 0 last).dropLast) j = cost_at l j := by
    intro j hj0 hj
    unfold cost_at
    rw [List.dropLast_eq_take, List.getElem?_take_of_lt (by simpa using hj),
      List.getElem?_set_ne (by omega)]
  apply heapify_down_rec_heap
  · omega
  · intro j hj hj0 hjp
    rw [hlen] at hj
    rw [hget j hj0 hj, hget ((j - 1) / 2) (by omega) (by omega)]
    exact h j (by omega) hj0
  · intro j _ _ h00 _
    omega

theorem pop_heap (pq : PriorityQueue) (h : IsMinHeap pq.nodes) :
    IsMinHeap (pop_priority_queue pq).2.nodes := by
  by_cases hs : 0 < pq.size
  · obtain ⟨top, last, -, -, heq⟩ := pop_of_pos pq hs
    rw [heq]
    exact popped_list_heap pq.nodes last h
  · have : pop_priority_queue pq = (none, pq) := by
      unfold pop_priority_queue
      rw [if_pos (by omega)]
    rw [this]; exact h

theorem pop_perm (pq : PriorityQueue) (hs : 0 < pq.size) :
    ∃ top, (pop_priority_queue pq).1 = some top ∧ pq.nodes[0]? = some top ∧
      pq.nodes.Perm (top :: (pop_priority_queue pq).2.nodes) ∧
      (pop_priority_queue pq).2.capacity = pq.capacity := by
  obtain ⟨top, last, h0, h1, heq⟩ := pop_of_pos pq hs
  refine ⟨top, by rw [heq], h0, ?_, by rw [heq]⟩
  rw [heq]
  exact (popped_list_perm pq.nodes top last h0 h1).trans
    ((heapify_down_rec_perm _ _ _).symm.cons top)

theorem heap_head_min (l : List Node) (h : IsMinHeap l) (top : Node) (h0 : l[0]? = some top)
    (n : Node) (hn : n ∈ l) : Float32.le top.total_cost n.total_cost := by
  obtain ⟨i, hi, hin⟩ := List.getElem_of_mem hn
  have := heap_root_le l h i hi
  rw [cost_at_of_getElem? h0, cost_at_of_getElem? (a := n)
    (by rw [List.getElem?_eq_getElem hi, hin])] at this
  exact this

theorem apply_op_heap (pq : PriorityQueue) (op : QueueOp) (h : IsMinHeap pq.nodes) :
    IsMinHeap (apply_op pq op).nodes := by
  cases op with
  | insert ok node => exact insert_heap ok pq node h
  | pop => exact pop_heap pq h

theorem run_ops_heap (pq : PriorityQueue) (ops : List QueueOp) (h : IsMinHeap pq.nodes) :
    IsMinHeap (run_ops pq ops).nodes := by
  induction ops generalizing pq with
  | nil => exact h
  | cons op ops ih => exact ih (apply_op pq op) (apply_op_heap pq op h)

theorem create_heap (capacity : Nat) : IsMinHeap (create_priority_queue capacity).nodes := by
  intro i hi
  simp [create_priority_queue] at hi

theorem pop_all_spec (n : Nat) (pq : PriorityQueue) (h : IsMinHeap pq.nodes)
    (hn : pq.size = n) :
    (pop_all n pq).1.Pairwise (fun a b => b.total_cost.lt a.total_cost = false) ∧
      (pop_all n pq).1.Perm pq.nodes ∧ (pop_all n pq).2.size = 0 := by
  induction n generalizing pq with
  | zero =>
    have hnil : pq.nodes = [] := List.length_eq_zero.mp hn
    simp [pop_all, hnil, hn]
  | succ n ih =>
    obtain ⟨top, h1, h0, hperm, -⟩ := pop_perm pq (by omega)
    have hheap := pop_heap pq h
    have hsize : (pop_priority_queue pq).2.size = n := by
      have := hperm.length_eq
      simp only [List.length_cons] at this
      unfold PriorityQueue.size at hn ⊢
      omega
    obtain ⟨ih1, ih2, ih3⟩ := ih _ hheap hsize
    have hpop : pop_priority_queue pq = (some top, (pop_priority_queue pq).2) := by
      rw [← h1]
    have hstep : pop_all (n + 1) pq =
        (top :: (pop_all n (pop_priority_queue pq).2).1,
          (pop_all n (pop_priority_queue pq).2).2) := by
      conv_lhs => rw [pop_all, hpop]
    rw [hstep]
    refine ⟨?_, ?_, ih3⟩
    · rw [List.pairwise_cons]
      refine ⟨?_, ih1⟩
      intro b hb
      have hb2 : b ∈ pq.nodes :=
        hperm.symm.subset (List.mem_cons_of_mem _ (ih2.subset hb))
      rw [value_lt_eq_false_iff]
      exact heap_head_min pq.nodes h top h0 b hb2
    · exact (ih2.cons top).trans hperm.symm

/-! ## The claims about the queue -/

/-- C7: on a non-empty queue built from a fresh one by any sequence of
`insert_priority_queue` and `pop_priority_queue` calls, `pop_priority_queue` returns a
node whose `total_cost` is at most the `total_cost` of every node of the queue (no node
of the queue compares below it), and the queue afterwards holds exactly the other
entries: the old contents are the returned node plus the new contents, as multisets,
and the size went down by one. -/
theorem pop_returns_minimum (capacity : Nat) (ops : List QueueOp)
    (h : 0 < (run_ops (create_priority_queue capacity) ops).size) :
    ∃ top,
      (pop_priority_queue (run_ops (create_priority_queue capacity) ops)).1 = some top ∧
      (∀ n ∈ (run_ops (create_priority_queue capacity) ops).nodes,
        n.total_cost.lt top.total_cost = false) ∧
      (run_ops (create_priority_queue capacity) ops).nodes.Perm
        (top :: (pop_priority_queue (run_ops (create_priority_queue capacity) ops)).2.nodes) ∧
      (pop_priority_queue (run_ops (create_priority_queue capacity) ops)).2.size + 1 =
        (run_ops (create_priority_queue capacity) ops).size := by
  have hheap := run_ops_heap _ ops (create_heap capacity)
  obtain ⟨top, h1, h0, hperm, -⟩ := pop_perm _ h
  refine ⟨top, h1, ?_, hperm, ?_⟩
  · intro n hn
    rw [value_lt_eq_false_iff]
    exact heap_head_min _ hheap top h0 n hn
  · have := hperm.length_eq
    simp only [List.length_cons] at this
    unfold PriorityQueue.size
    omega

theorem pop_returns_minimum_witness :
    0 < (run_ops (create_priority_queue 2)
        [QueueOp.insert true (Node.root 0 0 0 ⟨0⟩ ⟨82⟩),
          QueueOp.insert true (Node.root 1 0 0 ⟨0⟩ ⟨56⟩),
          QueueOp.insert true (Node.root 2 0 0 ⟨0⟩ ⟨64⟩),
          QueueOp.pop,
          QueueOp.insert true (Node.root 3 0 0 ⟨0⟩ ⟨66⟩)]).size ∧
    ∃ top,
      (pop_priority_queue (run_ops (create_priority_queue 2)
        [QueueOp.insert true (Node.root 0 0 0 ⟨0⟩ ⟨82⟩),
          QueueOp.insert true (Node.root 1 0 0 ⟨0⟩ ⟨56⟩),
          QueueOp.insert true (Node.root 2 0 0 ⟨0⟩ ⟨64⟩),
          QueueOp.pop,
          QueueOp.insert true (Node.root 3 0 0 ⟨0⟩ ⟨66⟩)])).1 = some top ∧
      (∀ n ∈ (run_ops (create_priority_queue 2)
        [QueueOp.insert true (Node.root 0 0 0 ⟨0⟩ ⟨82⟩),
          QueueOp.insert true (Node.root 1 0 0 ⟨0⟩ ⟨56⟩),
          QueueOp.insert true (Node.root 2 0 0 ⟨0⟩ ⟨64⟩),
          QueueOp.pop,
          QueueOp.insert true (Node.root 3 0 0 ⟨0⟩ ⟨66⟩)]).nodes,
        n.total_cost.lt top.total_cost = false) ∧
      (run_ops (create_priority_queue 2)
        [QueueOp.insert true (Node.root 0 0 0 ⟨0⟩ ⟨82⟩),
          QueueOp.insert true (Node.root 1 0 0 ⟨0⟩ ⟨56⟩),
          QueueOp.insert true (Node.root 2 0 0 ⟨0⟩ ⟨64⟩),
          QueueOp.pop,
          QueueOp.insert true (Node.root 3 0 0 ⟨0⟩ ⟨66⟩)]).nodes.Perm
        (top :: (pop_priority_queue (run_ops (create_priority_queue 2)
          [QueueOp.insert true (Node.root 0 0 0 ⟨0⟩ ⟨82⟩),
            QueueOp.insert true (Node.root 1 0 0 ⟨0⟩ ⟨56⟩),
            QueueOp.insert true (Node.root 2 0 0 ⟨0⟩ ⟨64⟩),
            QueueOp.pop,
            QueueOp.insert true (Node.root 3 0 0 ⟨0⟩ ⟨66⟩)])).2.nodes) ∧
      (pop_priority_queue (run_ops (create_priority_queue 2)
        [QueueOp.insert true (Node.root 0 0 0 ⟨0⟩ ⟨82⟩),
          QueueOp.insert true (Node.root 1 0 0 ⟨0⟩ ⟨56⟩),
          QueueOp.insert true (Node.root 2 0 0 ⟨0⟩ ⟨64⟩),
          QueueOp.pop,
          QueueOp.insert true (Node.root 3 0 0 ⟨0⟩ ⟨66⟩)])).2.size + 1 =
        (run_ops (create_priority_queue 2)
          [QueueOp.insert true (Node.root 0 0 0 ⟨0⟩ ⟨82⟩),
            QueueOp.insert true (Node.root 1 0 0 ⟨0⟩ ⟨56⟩),
            QueueOp.insert true (Node.root 2 0 0 ⟨0⟩ ⟨64⟩),
            QueueOp.pop,
            QueueOp.insert true (Node.root 3 0 0 ⟨0⟩ ⟨66⟩)]).size :=
  ⟨by decide, pop_returns_minimum 2 _ (by decide)⟩

/-- C8: for a queue built from a fresh one by any sequence of `insert_priority_queue`
and `pop_priority_queue` calls, popping until the queue is empty (`size` pops) returns
the nodes in non-decreasing `total_cost` order: no node popped later compares below a
node popped earlier.  The pops return exactly the nodes of the queue and leave it
empty. -/
theorem pop_all_nondecreasing (capacity : Nat) (ops : List QueueOp) :
    (pop_all (run_ops (create_priority_queue capacity) ops).size
        (run_ops (create_priority_queue capacity) ops)).1.Pairwise
        (fun a b => b.total_cost.lt a.total_cost = false) ∧
      (pop_all (run_ops (create_priority_queue capacity) ops).size
        (run_ops (create_priority_queue capacity) ops)).1.Perm
        (run_ops (create_priority_queue capacity) ops).nodes ∧
      is_empty_priority_queue
        (pop_all (run_ops (create_priority_queue capacity) ops).size
          (run_ops (create_priority_queue capacity) ops)).2 = true := by
  obtain ⟨h1, h2, h3⟩ := pop_all_spec _ _ (run_ops_heap _ ops (create_heap capacity)) rfl
  refine ⟨h1, h2, ?_⟩
  unfold is_empty_priority_queue
  simp [h3]

/-- C9: on a queue with capacity at least 1, `insert_priority_queue` adds exactly the
given entry whenever the resize it may need succeeds: the size grows by 1 and the
stored nodes afterwards are the old ones plus the inserted node, as multisets (nothing
is lost or duplicated by `heapify_up`). -/
theorem insert_adds_entry (realloc_ok : Bool) (pq : PriorityQueue) (node : Node)
    (_hcap : 1 ≤ pq.capacity) (hok : pq.size = pq.capacity → realloc_ok = true) :
    (insert_priority_queue realloc_ok pq node).size = pq.size + 1 ∧
      (insert_priority_queue realloc_ok pq node).nodes.Perm (node :: pq.nodes) := by
  have hg : realloc_ok = true ∨ pq.size ≠ pq.capacity := by
    by_cases hc : pq.size = pq.capacity
    · exact Or.inl (hok hc)
    · exact Or.inr hc
  rw [insert_of_grown realloc_ok pq node hg]
  have hperm : (heapify_up_loop pq.nodes.length (pq.nodes ++ [node]) pq.nodes.length).Perm
      (node :: pq.nodes) :=
    (heapify_up_loop_perm _ _ _).trans (List.perm_append_singleton node pq.nodes)
  refine ⟨?_, hperm⟩
  have := hperm.length_eq
  simpa [PriorityQueue.size] using this

theorem insert_adds_entry_witness :
    (insert_priority_queue true
        { nodes := [Node.root 0 0 0 ⟨0⟩ ⟨82⟩, Node.root 1 0 0 ⟨0⟩ ⟨96⟩],
          capacity := 2 }
        (Node.root 2 0 0 ⟨0⟩ ⟨65⟩)).size = 2 + 1 ∧
      (insert_priority_queue true
        { nodes := [Node.root 0 0 0 ⟨0⟩ ⟨82⟩, Node.root 1 0 0 ⟨0⟩ ⟨96⟩],
          capacity := 2 }
        (Node.root 2 0 0 ⟨0⟩ ⟨65⟩)).nodes.Perm
        [Node.root 2 0 0 ⟨0⟩ ⟨65⟩, Node.root 0 0 0 ⟨0⟩ ⟨82⟩,
          Node.root 1 0 0 ⟨0⟩ ⟨96⟩] :=
  insert_adds_entry true
    { nodes := [Node.root 0 0 0 ⟨0⟩ ⟨82⟩, Node.root 1 0 0 ⟨0⟩ ⟨96⟩], capacity := 2 }
    (Node.root 2 0 0 ⟨0⟩ ⟨65⟩) (by decide) (fun _ => rfl)

/-- C10: on a queue for which `is_empty_priority_queue` holds (`size == 0`),
`pop_priority_queue` returns no node and leaves the queue (size, capacity, contents)
as it was; on every queue with `size > 0` it returns a node. -/
theorem pop_empty_and_nonempty (pq : PriorityQueue) :
    (is_empty_priority_queue pq = true →
        pq.size = 0 ∧ pop_priority_queue pq = (none, pq)) ∧
      (0 < pq.size → ∃ top, (pop_priority_queue pq).1 = some top) := by
  constructor
  · intro h
    have hs : pq.size = 0 := by simpa [is_empty_priority_queue] using h
    refine ⟨hs, ?_⟩
    unfold pop_priority_queue
    rw [if_pos hs]
  · intro h
    obtain ⟨top, h1, -⟩ := pop_perm pq h
    exact ⟨top, h1⟩

theorem pop_empty_and_nonempty_witness :
    ((create_priority_queue 100).size = 0 ∧
        pop_priority_queue (create_priority_queue 100) = (none, create_priority_queue 100)) ∧
      ∃ top, (pop_priority_queue
        { nodes := [Node.root 0 0 0 ⟨0⟩ ⟨82⟩, Node.root 1 0 0 ⟨0⟩ ⟨96⟩],
          capacity := 2 }).1 = some top :=
  ⟨(pop_empty_and_nonempty (create_priority_queue 100)).1 (by decide),
    (pop_empty_and_nonempty
      { nodes := [Node.root 0 0 0 ⟨0⟩ ⟨82⟩, Node.root 1 0 0 ⟨0⟩ ⟨96⟩],
        capacity := 2 }).2 (by decide)⟩

/-! ## Nodes of the search -/

@[simp] theorem make_x (x y : Int) (c : Nat) (h t : Float32) (p : Option Node) :
    (Node.make x y c h t p).x = x := by cases p <;> rfl

@[simp] theorem make_y (x y : Int) (c : Nat) (h t : Float32) (p : Option Node) :
    (Node.make x y c h t p).y = y := by cases p <;> rfl

@[simp] theorem make_cost (x y : Int) (c : Nat) (h t : Float32) (p : Option Node) :
    (Node.make x y c h t p).cost = c := by cases p <;> rfl

@[simp] theorem make_heuristic (x y : Int) (c : Nat) (h t : Float32) (p : Option Node) :
    (Node.make x y c h t p).heuristic = h := by cases p <;> rfl

@[simp] theorem make_total_cost (x y : Int) (c : Nat) (h t : Float32) (p : Option Node) :
    (Node.make x y c h t p).total_cost = t := by cases p <;> rfl

@[simp] theorem make_parent (x y : Int) (c : Nat) (h t : Float32) (p : Option Node) :
    (Node.make x y c h t p).parent = p := by cases p <;> rfl

theorem chain_eq (n : Node) : n.chain = reconstruct_path n.parent ++ [(n.x, n.y)] := by
  cases n <;> rfl

theorem initial_open_set_eq (start goal : Node) :
    initial_open_set start goal =
      insert_open (create_priority_queue 100) (prepared_start start goal) := rfl

theorem prepared_start_x (start goal : Node) : (prepared_start start goal).x = start.x := by
  simp [prepared_start, Node.setHeuristic, Node.setTotalCost]

theorem prepared_start_y (start goal : Node) : (prepared_start start goal).y = start.y := by
  simp [prepared_start, Node.setHeuristic, Node.setTotalCost]

theorem prepared_start_cost (start goal : Node) :
    (prepared_start start goal).cost = start.cost := by
  simp [prepared_start, Node.setHeuristic, Node.setTotalCost]

theorem prepared_start_parent (start goal : Node) :
    (prepared_start start goal).parent = start.parent := by
  simp [prepared_start, Node.setHeuristic, Node.setTotalCost]

theorem prepared_start_heuristic (start goal : Node) :
    (prepared_start start goal).heuristic = (heuristic start goal).toFloat := by
  simp [prepared_start, Node.setHeuristic, Node.setTotalCost]

theorem prepared_start_total_cost (start goal : Node) :
    (prepared_start start goal).total_cost =
      Float32.addCost start.cost (heuristic start goal).toFloat := by
  simp [prepared_start, Node.setHeuristic, Node.setTotalCost]

theorem heuristic_congr {a b : Node} (goal : Node) (hx : a.x = b.x) (hy : a.y = b.y) :
    heuristic a goal = heuristic b goal := by
  unfold heuristic
  rw [hx, hy]

theorem relaxed_x (goal cur nb : Node) : (relaxed goal cur nb).x = nb.x := by
  simp [relaxed, Node.setHeuristic, Node.setTotalCost, Node.setCost, Node.setParent]

theorem relaxed_y (goal cur nb : Node) : (relaxed goal cur nb).y = nb.y := by
  simp [relaxed, Node.setHeuristic, Node.setTotalCost, Node.setCost, Node.setParent]

theorem relaxed_cost (goal cur nb : Node) :
    (relaxed goal cur nb).cost = round_float (cur.cost + 1) := by
  simp [relaxed, Node.setHeuristic, Node.setTotalCost, Node.setCost, Node.setParent]

theorem relaxed_parent (goal cur nb : Node) : (relaxed goal cur nb).parent = some cur := by
  simp [relaxed, Node.setHeuristic, Node.setTotalCost, Node.setCost, Node.setParent]

theorem relaxed_heuristic (goal cur nb : Node) :
    (relaxed goal cur nb).heuristic = (heuristic nb goal).toFloat := by
  simp [relaxed, Node.setHeuristic, Node.setTotalCost, Node.setCost, Node.setParent, heuristic]

theorem relaxed_total_cost (goal cur nb : Node) :
    (relaxed goal cur nb).total_cost =
      Float32.addCost (round_float (cur.cost + 1)) (heuristic nb goal).toFloat := by
  simp [relaxed, Node.setHeuristic, Node.setTotalCost, Node.setCost, Node.setParent, heuristic]

theorem relaxed_chain (goal cur nb : Node) :
    (relaxed goal cur nb).chain = cur.chain ++ [(nb.x, nb.y)] := by
  rw [chain_eq, relaxed_parent, relaxed_x, relaxed_y]
  rfl

theorem mem_find_neighbors {cur nb : Node} {grid_size : Int}
    (h : nb ∈ find_neighbors cur grid_size) :
    nb.cost = 0 ∧ nb.parent = some cur ∧ unit_step cur.pos nb.pos ∧ in_grid grid_size nb.pos := by
  unfold find_neighbors at h
  simp only [List.zip_cons_cons, List.zip_nil_right, List.mem_filterMap, List.mem_cons,
    List.mem_singleton, List.not_mem_nil, or_false] at h
  obtain ⟨d, hd, hnb⟩ := h
  split_ifs at hnb with hg
  · have hnb := (Option.some.inj hnb).symm
    subst hnb
    refine ⟨by simp, by simp, ?_, ?_⟩
    · unfold unit_step Node.pos
      simp only [make_x, make_y]
      rcases hd with rfl | rfl | rfl | rfl <;> simp
    · unfold in_grid Node.pos
      simp only [make_x, make_y]
      omega

theorem find_neighbors_length (cur : Node) (grid_size : Int) :
    (find_neighbors cur grid_size).length ≤ 4 := by
  unfold find_neighbors
  exact (List.length_filterMap_le _ _).trans (by simp)

theorem mem_find_neighbors_of (cur : Node) (grid_size : Int) (d : Int × Int)
    (hd : d = (1, 0) ∨ d = (-1, 0) ∨ d = (0, 1) ∨ d = (0, -1))
    (hg : in_grid grid_size (cur.x + d.1, cur.y + d.2)) :
    Node.make (cur.x + d.1) (cur.y + d.2) 0 ⟨0⟩ ⟨0⟩ (some cur) ∈
      find_neighbors cur grid_size := by
  unfold find_neighbors
  rw [List.mem_filterMap]
  refine ⟨d, ?_, ?_⟩
  · rcases hd with rfl | rfl | rfl | rfl <;> simp
  · unfold in_grid at hg
    simp only at hg
    simp only
    rw [if_pos ⟨by omega, by omega, by omega, by omega⟩]

theorem find_neighbors_toward (cur : Node) (grid_size : Int) (g : Int × Int)
    (hc : in_grid grid_size cur.pos) (hg : in_grid grid_size g) (hne : cur.pos ≠ g) :
    ∃ nb ∈ find_neighbors cur grid_size, manhattan nb.pos g + 1 = manhattan cur.pos g := by
  obtain ⟨gx, gy⟩ := g
  unfold in_grid at hc hg
  unfold Node.pos at hc
  simp only at hc hg
  have hne2 : cur.x ≠ gx ∨ cur.y ≠ gy := by
    by_contra hcon
    rw [not_or, not_not, not_not] at hcon
    exact hne (by unfold Node.pos; rw [hcon.1, hcon.2])
  have key : ∀ d : Int × Int, (d = (1, 0) ∨ d = (-1, 0) ∨ d = (0, 1) ∨ d = (0, -1)) →
      in_grid grid_size (cur.x + d.1, cur.y + d.2) →
      (cur.x + d.1 - gx).natAbs + (cur.y + d.2 - gy).natAbs + 1 =
        (cur.x - gx).natAbs + (cur.y - gy).natAbs →
      ∃ nb ∈ find_neighbors cur grid_size, manhattan nb.pos (gx, gy) + 1 =
        manhattan cur.pos (gx, gy) := by
    intro d hd hin hm
    refine ⟨_, mem_find_neighbors_of cur grid_size d hd hin, ?_⟩
    unfold manhattan Node.pos
    simp only [make_x, make_y]
    exact hm
  by_cases h1 : cur.x < gx
  · exact key (1, 0) (by simp) (by unfold in_grid; simp only; omega) (by simp only; omega)
  · by_cases h2 : gx < cur.x
    · exact key (-1, 0) (by simp) (by unfold in_grid; simp only; omega) (by simp only; omega)
    · by_cases h3 : cur.y < gy
      · exact key (0, 1) (by simp) (by unfold in_grid; simp only; omega) (by simp only; omega)
      · exact key (0, -1) (by simp) (by unfold in_grid; simp only; omega)
          (by simp only; omega)

theorem is_walk_iff (l : List (Int × Int)) : is_walk l ↔ List.Chain' unit_step l := by
  induction l with
  | nil => simp [is_walk]
  | cons a t ih =>
    cases t with
    | nil => simp [is_walk]
    | cons b t =>
      rw [List.chain'_cons, ← ih]
      rfl

theorem manhattan_self (a : Int × Int) : manhattan a a = 0 := by
  unfold manhattan
  omega

theorem manhattan_step {a b : Int × Int} (h : unit_step a b) (e : Int × Int) :
    manhattan a e ≤ manhattan b e + 1 ∧ manhattan e b ≤ manhattan e a + 1 := by
  obtain ⟨ax, ay⟩ := a
  obtain ⟨bx, b_y⟩ := b
  obtain ⟨ex, ey⟩ := e
  unfold unit_step at h
  unfold manhattan
  simp only at h ⊢
  omega

theorem manhattan_triangle (a b c : Int × Int) :
    manhattan a c ≤ manhattan a b + manhattan b c := by
  unfold manhattan
  omega

theorem manhattan_eq_zero {a b : Int × Int} (h : manhattan a b = 0) : a = b := by
  obtain ⟨ax, ay⟩ := a
  obtain ⟨bx, b_y⟩ := b
  unfold manhattan at h
  simp only at h
  have h1 : ax = bx := by omega
  have h2 : ay = b_y := by omega
  rw [h1, h2]

theorem reached_total_cost {start goal : Node} {grid_size : Int} {n : Node}
    (h : Reached start goal grid_size n) :
    n.total_cost = Float32.addCost n.cost (heuristic n goal).toFloat := by
  cases h with
  | start =>
    rw [prepared_start_total_cost, prepared_start_cost,
      heuristic_congr goal (prepared_start_x start goal) (prepared_start_y start goal)]
  | @step p nb hp hnb =>
    rw [relaxed_total_cost, relaxed_cost,
      heuristic_congr goal (relaxed_x goal p nb) (relaxed_y goal p nb)]

theorem relaxed_cost_exact {goal cur nb : Node} (h : (relaxed goal cur nb).cost < 2 ^ 24) :
    cur.cost + 1 < 2 ^ 24 ∧ (relaxed goal cur nb).cost = cur.cost + 1 := by
  rw [relaxed_cost] at h ⊢
  have := lt_of_round_float_lt h
  exact ⟨this, round_float_of_lt this⟩

theorem reached_cost {start goal : Node} {grid_size : Int} {n : Node}
    (h : Reached start goal grid_size n) (hc : n.cost < 2 ^ 24) :
    manhattan start.pos n.pos + start.cost ≤ n.cost := by
  induction h with
  | start =>
    have : (prepared_start start goal).pos = start.pos := by
      unfold Node.pos
      rw [prepared_start_x, prepared_start_y]
    rw [this, manhattan_self, prepared_start_cost]
    omega
  | @step p nb hp hnb ih =>
    obtain ⟨-, -, hstep, -⟩ := mem_find_neighbors hnb
    have hpos : (relaxed goal p nb).pos = nb.pos := by
      unfold Node.pos
      rw [relaxed_x, relaxed_y]
    obtain ⟨h1, h2⟩ := relaxed_cost_exact hc
    rw [hpos, h2]
    have := (manhattan_step hstep start.pos).2
    have := ih (by omega)
    omega

theorem reached_in_grid {start goal : Node} {grid_size : Int} {n : Node}
    (hs : in_grid grid_size start.pos) (h : Reached start goal grid_size n) :
    in_grid grid_size n.pos := by
  cases h with
  | start =>
    have : (prepared_start start goal).pos = start.pos := by
      unfold Node.pos
      rw [prepared_start_x, prepared_start_y]
    rw [this]; exact hs
  | @step p nb hp hnb =>
    obtain ⟨-, -, -, hg⟩ := mem_find_neighbors hnb
    have hpos : (relaxed goal p nb).pos = nb.pos := by
      unfold Node.pos
      rw [relaxed_x, relaxed_y]
    rw [hpos]; exact hg

theorem reached_chain {start goal : Node} {grid_size : Int} {n : Node}
    (h : Reached start goal grid_size n) :
    ∃ w, n.chain = reconstruct_path start.parent ++ w ∧ is_walk w ∧
      w.head? = some start.pos ∧ w.getLast? = some n.pos ∧
      (n.cost < 2 ^ 24 → w.length + start.cost = n.cost + 1) := by
  induction h with
  | start =>
    refine ⟨[start.pos], ?_, ?_, rfl, ?_, ?_⟩
    · rw [chain_eq, prepared_start_parent, prepared_start_x, prepared_start_y]
      rfl
    · exact (is_walk_iff _).mpr (List.chain'_singleton _)
    · unfold Node.pos
      rw [prepared_start_x, prepared_start_y]
      rfl
    · rw [prepared_start_cost]
      simp only [List.length_singleton]
      omega
  | @step p nb hp hnb ih =>
    obtain ⟨w, hw1, hw2, hw3, hw4, hw5⟩ := ih
    obtain ⟨-, -, hstep, -⟩ := mem_find_neighbors hnb
    have hwne : w ≠ [] := by
      intro hnil
      rw [hnil] at hw3
      simp at hw3
    refine ⟨w ++ [nb.pos], ?_, ?_, ?_, ?_, ?_⟩
    · rw [relaxed_chain, hw1, List.append_assoc]
      rfl
    · rw [is_walk_iff] at hw2 ⊢
      apply List.Chain'.append hw2 (List.chain'_singleton _)
      intro x hx y hy
      rw [hw4] at hx
      simp only [List.head?_cons, Option.mem_def, Option.some.injEq] at hx hy
      rw [← hx, ← hy]
      exact hstep
    · rw [List.head?_append_of_ne_nil _ hwne]
      exact hw3
    · rw [List.getLast?_concat]
      unfold Node.pos
      rw [relaxed_x, relaxed_y]
    · intro hc
      obtain ⟨h1, h2⟩ := relaxed_cost_exact hc
      have := hw5 (by omega)
      rw [h2, List.length_append]
      simp only [List.length_singleton]
      omega

theorem toNat_sq_le (a b : Int) : ((a ^ 2 + b ^ 2).toNat) ≤ (a.natAbs + b.natAbs) ^ 2 := by
  have h : (((a ^ 2 + b ^ 2).toNat : Nat) : Int) = a ^ 2 + b ^ 2 :=
    Int.toNat_of_nonneg (by positivity)
  have h2 : (((a ^ 2 + b ^ 2).toNat : Nat) : Int) ≤ (((a.natAbs + b.natAbs) ^ 2 : Nat) : Int) := by
    rw [h]
    push_cast
    nlinarith [abs_nonneg a, abs_nonneg b, sq_abs a, sq_abs b, mul_nonneg (abs_nonneg a) (abs_nonneg b)]
  exact_mod_cast h2

theorem heuristic_float_le (n goal : Node) (hm : manhattan n.pos goal.pos < 2 ^ 24) :
    (heuristic n goal).toFloat.units ≤ manhattan n.pos goal.pos * 2 ^ 149 := by
  have h := toNat_sq_le (n.x - goal.x) (n.y - goal.y)
  have h2 : ((n.x - goal.x).natAbs + (n.y - goal.y).natAbs) ^ 2 =
      manhattan n.pos goal.pos * manhattan n.pos goal.pos := by
    unfold manhattan Node.pos
    exact pow_two _
  rw [h2] at h
  exact toFloat_le _ _ hm h

theorem key_ge_cost {start goal : Node} {grid_size : Int} {n : Node}
    (h : Reached start goal grid_size n) (hc : n.cost < 2 ^ 24) :
    n.cost * 2 ^ 149 ≤ n.total_cost.units := by
  rw [reached_total_cost h]
  exact addCost_ge _ _ hc

theorem key_le_bound {start goal : Node} {grid_size : Int} {n : Node}
    (h : Reached start goal grid_size n) (hc : n.cost + manhattan n.pos goal.pos < 2 ^ 24) :
    n.total_cost.units ≤ (n.cost + manhattan n.pos goal.pos) * 2 ^ 149 := by
  rw [reached_total_cost h]
  exact addCost_le _ _ _ hc (heuristic_float_le n goal (by omega))

theorem cost_le_of_value_le {start goal : Node} {grid_size : Int} {cur w : Node}
    (hc : Reached start goal grid_size cur) (hw : Reached start goal grid_size w)
    (hcb : cur.cost < 2 ^ 24) (hwb : w.cost + manhattan w.pos goal.pos < 2 ^ 24)
    (hle : Float32.le cur.total_cost w.total_cost) :
    cur.cost ≤ w.cost + manhattan w.pos goal.pos := by
  have h1 := key_ge_cost hc hcb
  have h2 := key_le_bound hw hwb
  unfold Float32.le at hle
  have h3 : cur.cost * 2 ^ 149 ≤ (w.cost + manhattan w.pos goal.pos) * 2 ^ 149 := by omega
  exact Nat.le_of_mul_le_mul_right h3 (by positivity)

/-! ## Insertions into the open set -/

theorem process_neighbor_eq (goal cur nb : Node) (q : PriorityQueue) (h : nb.cost = 0) :
    process_neighbor goal cur q nb = insert_open q (relaxed goal cur nb) := by
  unfold process_neighbor relaxed insert_open
  simp [h]

theorem foldl_process_eq (goal cur : Node) (nbs : List Node) (q : PriorityQueue)
    (h : ∀ nb ∈ nbs, nb.cost = 0) :
    nbs.foldl (process_neighbor goal cur) q =
      (nbs.map (relaxed goal cur)).foldl insert_open q := by
  induction nbs generalizing q with
  | nil => rfl
  | cons nb nbs ih =>
    rw [List.foldl_cons, List.map_cons, List.foldl_cons,
      process_neighbor_eq goal cur nb q (h nb (List.mem_cons_self _ _))]
    exact ih _ (fun x hx => h x (List.mem_cons_of_mem _ hx))

theorem expand_eq (goal cur : Node) (grid_size : Int) (q : PriorityQueue) :
    (find_neighbors cur grid_size).foldl (process_neighbor goal cur) q =
      ((find_neighbors cur grid_size).map (relaxed goal cur)).foldl insert_open q :=
  foldl_process_eq goal cur _ q (fun _ hnb => (mem_find_neighbors hnb).1)

theorem insert_open_spec (q : PriorityQueue) (n : Node) :
    (insert_open q n = q ∧ q.size = q.capacity ∧ INT_MAX < q.capacity * 2) ∨
      (insert_open q n =
          { nodes := heapify_up_loop q.nodes.length (q.nodes ++ [n]) q.nodes.length,
            capacity := if q.size = q.capacity then q.capacity * 2 else q.capacity } ∧
        (q.size = q.capacity → q.capacity * 2 ≤ INT_MAX)) := by
  unfold insert_open
  by_cases hfull : q.size = q.capacity
  · by_cases hok : q.capacity * 2 ≤ INT_MAX
    · right
      have : realloc_succeeds q.capacity = true := by
        unfold realloc_succeeds
        exact decide_eq_true hok
      exact ⟨insert_of_grown _ q n (Or.inl this), fun _ => hok⟩
    · left
      have : realloc_succeeds q.capacity = false := by
        unfold realloc_succeeds
        exact decide_eq_false hok
      rw [this]
      exact ⟨insert_of_failed q n hfull, hfull, by omega⟩
  · right
    exact ⟨insert_of_grown _ q n (Or.inr hfull), fun h => absurd h hfull⟩

theorem insert_open_heap (q : PriorityQueue) (n : Node) (h : IsMinHeap q.nodes) :
    IsMinHeap (insert_open q n).nodes :=
  insert_heap _ q n h

theorem insert_open_cases (q : PriorityQueue) (n : Node) :
    (insert_open q n = q ∧ q.size = q.capacity ∧ INT_MAX < q.capacity * 2) ∨
      ((insert_open q n).nodes.Perm (n :: q.nodes) ∧
        (insert_open q n).capacity =
          (if q.size = q.capacity then q.capacity * 2 else q.capacity) ∧
        (q.size = q.capacity → q.capacity * 2 ≤ INT_MAX)) := by
  rcases insert_open_spec q n with h | ⟨h1, h2⟩
  · exact Or.inl h
  · right
    rw [h1]
    exact ⟨(heapify_up_loop_perm _ _ _).trans (List.perm_append_singleton n q.nodes), rfl, h2⟩

theorem insert_open_mem {q : PriorityQueue} {n x : Node} (h : x ∈ (insert_open q n).nodes) :
    x = n ∨ x ∈ q.nodes := by
  rcases insert_open_cases q n with ⟨h1, -⟩ | ⟨h1, -⟩
  · rw [h1] at h
    exact Or.inr h
  · exact List.mem_cons.mp (h1.subset h)

theorem insert_open_range (q : PriorityQueue) (n : Node) (h : q.in_range) :
    (insert_open q n).in_range := by
  obtain ⟨h1, h2, h3⟩ := h
  rcases insert_open_cases q n with ⟨hq, -⟩ | ⟨hp, hc, hr⟩
  · rw [hq]
    exact ⟨h1, h2, h3⟩
  · have hl := hp.length_eq
    simp only [List.length_cons] at hl
    unfold PriorityQueue.in_range PriorityQueue.size at *
    rw [hc, hl]
    split_ifs with hf
    · have := hr hf
      omega
    · omega

theorem insert_open_perm (q : PriorityQueue) (n : Node)
    (hs : q.size < 2 ^ 30) : (insert_open q n).nodes.Perm (n :: q.nodes) := by
  rcases insert_open_cases q n with ⟨-, h1, h2⟩ | ⟨hp, -⟩
  · unfold INT_MAX at h2
    omega
  · exact hp

theorem insert_open_size (q : PriorityQueue) (n : Node) :
    q.size ≤ (insert_open q n).size ∧ (insert_open q n).size ≤ q.size + 1 := by
  rcases insert_open_cases q n with ⟨hq, -⟩ | ⟨hp, -⟩
  · rw [hq]
    omega
  · have hl := hp.length_eq
    simp only [List.length_cons] at hl
    unfold PriorityQueue.size
    omega

theorem foldl_insert_heap (ns : List Node) (q : PriorityQueue) (h : IsMinHeap q.nodes) :
    IsMinHeap (ns.foldl insert_open q).nodes := by
  induction ns generalizing q with
  | nil => exact h
  | cons n ns ih =>
    rw [List.foldl_cons]
    exact ih _ (insert_open_heap q n h)

theorem foldl_insert_range (ns : List Node) (q : PriorityQueue) (h : q.in_range) :
    (ns.foldl insert_open q).in_range := by
  induction ns generalizing q with
  | nil => exact h
  | cons n ns ih =>
    rw [List.foldl_cons]
    exact ih _ (insert_open_range q n h)

theorem foldl_insert_mem (ns : List Node) (q : PriorityQueue) {x : Node}
    (h : x ∈ (ns.foldl insert_open q).nodes) : x ∈ ns ∨ x ∈ q.nodes := by
  induction ns generalizing q with
  | nil => exact Or.inr h
  | cons n ns ih =>
    rw [List.foldl_cons] at h
    rcases ih _ h with h1 | h1
    · exact Or.inl (List.mem_cons_of_mem _ h1)
    · rcases insert_open_mem h1 with h2 | h2
      · exact Or.inl (h2 ▸ List.mem_cons_self _ _)
      · exact Or.inr h2

theorem foldl_insert_perm (ns : List Node) (q : PriorityQueue)
    (hs : q.size + ns.length ≤ 2 ^ 30) :
    (ns.foldl insert_open q).nodes.Perm (ns ++ q.nodes) := by
  induction ns generalizing q with
  | nil => exact List.Perm.refl _
  | cons n ns ih =>
    rw [List.foldl_cons]
    simp only [List.length_cons] at hs
    have hp := insert_open_perm q n (by omega)
    have hl := hp.length_eq
    simp only [List.length_cons] at hl
    refine (ih _ (by unfold PriorityQueue.size at *; omega)).trans ?_
    refine (hp.append_left ns).trans ?_
    exact List.perm_middle

theorem foldl_insert_size (ns : List Node) (q : PriorityQueue) :
    q.size ≤ (ns.foldl insert_open q).size ∧
      (ns.foldl insert_open q).size ≤ q.size + ns.length := by
  induction ns generalizing q with
  | nil => simp
  | cons n ns ih =>
    rw [List.foldl_cons]
    have h1 := insert_open_size q n
    have h2 := ih (insert_open q n)
    simp only [List.length_cons]
    omega

/-! ## One iteration of the main loop -/

theorem a_star_loop_step (k : Nat) (goal : Node) (grid_size : Int) (q q1 : PriorityQueue)
    (cur : Node) (hpop : pop_priority_queue q = (some cur, q1)) (hs : 0 < q.size) :
    a_star_loop (k + 1) goal grid_size q =
      if cur.x = goal.x ∧ cur.y = goal.y then
        some (SearchResult.goalReached cur (reconstruct_path (some cur)))
      else
        a_star_loop k goal grid_size
          ((find_neighbors cur grid_size).foldl (process_neighbor goal cur) q1) := by
  have he : is_empty_priority_queue q = false := by
    unfold is_empty_priority_queue
    simp
    omega
  conv_lhs => rw [a_star_loop, he, hpop]
  simp

theorem a_star_loop_empty (k : Nat) (goal : Node) (grid_size : Int) (q : PriorityQueue)
    (hs : q.size = 0) :
    a_star_loop (k + 1) goal grid_size q = some SearchResult.openSetEmpty := by
  have he : is_empty_priority_queue q = true := by
    unfold is_empty_priority_queue
    simp [hs]
  rw [a_star_loop, he]
  simp

theorem potential_perm (B : Nat) {l1 l2 : List Node} (h : l1.Perm l2) :
    potential B l1 = potential B l2 := by
  unfold potential
  exact (h.map _).sum_eq

theorem potential_cons (B : Nat) (n : Node) (l : List Node) :
    potential B (n :: l) = weight B n + potential B l := by
  unfold potential
  simp

theorem potential_append (B : Nat) (l1 l2 : List Node) :
    potential B (l1 ++ l2) = potential B l1 + potential B l2 := by
  unfold potential
  simp

theorem potential_successors (B : Nat) (goal cur : Node) (nbs : List Node)
    (hlen : nbs.length ≤ 4) (hc : cur.cost ≤ B)
    (hx : round_float (cur.cost + 1) = cur.cost + 1) :
    potential B (nbs.map (relaxed goal cur)) < weight B cur := by
  have hle : potential B (nbs.map (relaxed goal cur)) ≤
      nbs.length * (if cur.cost + 1 ≤ B then 5 ^ (B - (cur.cost + 1)) else 0) := by
    clear hlen
    induction nbs with
    | nil => simp [potential]
    | cons nb nbs ih =>
      rw [List.map_cons, potential_cons, List.length_cons, Nat.succ_mul]
      have : weight B (relaxed goal cur nb) =
          (if cur.cost + 1 ≤ B then 5 ^ (B - (cur.cost + 1)) else 0) := by
        unfold weight
        rw [relaxed_cost, hx]
      rw [this]
      omega
  have hw : weight B cur = 5 ^ (B - cur.cost) := by
    unfold weight
    rw [if_pos hc]
  rw [hw]
  by_cases h1 : cur.cost + 1 ≤ B
  · rw [if_pos h1] at hle
    have hpow : 5 ^ (B - cur.cost) = 5 * 5 ^ (B - (cur.cost + 1)) := by
      have : B - cur.cost = (B - (cur.cost + 1)) + 1 := by omega
      rw [this, pow_succ]
      ring
    have hpos : 0 < 5 ^ (B - (cur.cost + 1)) := by positivity
    have h4 : nbs.length * 5 ^ (B - (cur.cost + 1)) ≤ 4 * 5 ^ (B - (cur.cost + 1)) :=
      Nat.mul_le_mul_right _ hlen
    omega
  · rw [if_neg h1] at hle
    have hpos : 0 < 5 ^ (B - cur.cost) := by positivity
    omega

theorem pop_split (q : PriorityQueue) (hs : 0 < q.size) :
    ∃ cur q1, pop_priority_queue q = (some cur, q1) ∧ q.nodes[0]? = some cur ∧
      q.nodes.Perm (cur :: q1.nodes) ∧ (IsMinHeap q.nodes → IsMinHeap q1.nodes) ∧
      q1.capacity = q.capacity ∧ q1.size + 1 = q.size := by
  obtain ⟨top, h1, h0, hperm, hcap⟩ := pop_perm q hs
  refine ⟨top, (pop_priority_queue q).2, ?_, h0, hperm, fun h => pop_heap q h, hcap, ?_⟩
  · rw [← h1]
  · have := hperm.length_eq
    simp only [List.length_cons] at this
    unfold PriorityQueue.size
    omega

theorem pop_range {q q1 : PriorityQueue} {cur : Node}
    (hpop : pop_priority_queue q = (some cur, q1)) (hs : 0 < q.size) (h : q.in_range) :
    q1.in_range := by
  obtain ⟨c, q2, hpop2, -, -, -, hcap, hsz⟩ := pop_split q hs
  rw [hpop] at hpop2
  simp only [Prod.mk.injEq, Option.some.injEq] at hpop2
  obtain ⟨rfl, rfl⟩ := hpop2
  unfold PriorityQueue.in_range at *
  omega

theorem step_reach (start goal : Node) (grid_size : Int) (q : PriorityQueue)
    (hreach : ∀ n ∈ q.nodes, Reached start goal grid_size n) (hs : 0 < q.size) :
    ∃ cur q1, pop_priority_queue q = (some cur, q1) ∧ Reached start goal grid_size cur ∧
      ∀ n ∈ ((find_neighbors cur grid_size).foldl (process_neighbor goal cur) q1).nodes,
        Reached start goal grid_size n := by
  obtain ⟨cur, q1, hpop, -, hperm, -⟩ := pop_split q hs
  have hcur : Reached start goal grid_size cur := hreach cur (hperm.symm.subset (by simp))
  refine ⟨cur, q1, hpop, hcur, ?_⟩
  intro n hn
  rw [expand_eq] at hn
  rcases foldl_insert_mem _ q1 hn with h | h
  · obtain ⟨nb, hnb, rfl⟩ := List.mem_map.mp h
    exact Reached.step hcur hnb
  · exact hreach n (hperm.symm.subset (List.mem_cons_of_mem _ h))

theorem weight_pos_of_le {B : Nat} {n : Node} (h : n.cost ≤ B) : 1 ≤ weight B n := by
  unfold weight
  rw [if_pos h]
  exact Nat.one_le_pow _ _ (by norm_num)

theorem potential_pos_of_mem {B : Nat} {l : List Node} {n : Node} (hn : n ∈ l)
    (h : n.cost ≤ B) : 1 ≤ potential B l := by
  obtain ⟨l1, l2, rfl⟩ := List.append_of_mem hn
  rw [potential_append, potential_cons]
  have := weight_pos_of_le h
  omega

theorem step_inv (start goal : Node) (grid_size : Int) (hs : in_grid grid_size start.pos)
    (hg : in_grid grid_size goal.pos)
    (hB : start.cost + manhattan start.pos goal.pos + 1 < 2 ^ 24)
    (hD : 3 * 5 ^ manhattan start.pos goal.pos + 1 ≤ 2 ^ 30)
    (q : PriorityQueue) (hinv : SearchInv start goal grid_size q) :
    ∃ cur q1, pop_priority_queue q = (some cur, q1) ∧ 0 < q.size ∧
      Reached start goal grid_size cur ∧
      (cur.x = goal.x ∧ cur.y = goal.y →
        cur.cost = start.cost + manhattan start.pos goal.pos) ∧
      (¬ (cur.x = goal.x ∧ cur.y = goal.y) →
        SearchInv start goal grid_size
          ((find_neighbors cur grid_size).foldl (process_neighbor goal cur) q1) ∧
        potential (start.cost + manhattan start.pos goal.pos)
            ((find_neighbors cur grid_size).foldl (process_neighbor goal cur) q1).nodes <
          potential (start.cost + manhattan start.pos goal.pos) q.nodes) := by
  obtain ⟨hheap, hreach, hcost, ⟨w, hwq, hwB⟩, hsz⟩ := hinv
  have hsize : 0 < q.size := by
    unfold PriorityQueue.size
    exact List.length_pos_of_mem hwq
  obtain ⟨cur, q1, hpop, h0, hperm, hheap1, -, hq1⟩ := pop_split q hsize
  have hcurq : cur ∈ q.nodes := hperm.symm.subset (by simp)
  have hcur : Reached start goal grid_size cur := hreach cur hcurq
  have hmin : Float32.le cur.total_cost w.total_cost := heap_head_min q.nodes hheap cur h0 w hwq
  have hcb := hcost cur hcurq
  have hcB : cur.cost ≤ start.cost + manhattan start.pos goal.pos := by
    have := cost_le_of_value_le hcur (hreach w hwq) (by omega) (by omega) hmin
    omega
  have hpot1 : 1 ≤ potential (start.cost + manhattan start.pos goal.pos) q.nodes :=
    potential_pos_of_mem hwq (by omega)
  refine ⟨cur, q1, hpop, hsize, hcur, ?_, ?_⟩
  · rintro ⟨hx, hy⟩
    have hpos : cur.pos = goal.pos := by
      unfold Node.pos; rw [hx, hy]
    have := reached_cost hcur (by omega)
    rw [hpos] at this
    omega
  · intro hne
    have hlen := find_neighbors_length cur grid_size
    have hexp := foldl_insert_perm ((find_neighbors cur grid_size).map (relaxed goal cur)) q1
      (by rw [List.length_map]; omega)
    have hpot : potential (start.cost + manhattan start.pos goal.pos)
        ((find_neighbors cur grid_size).foldl (process_neighbor goal cur) q1).nodes <
        potential (start.cost + manhattan start.pos goal.pos) q.nodes := by
      rw [expand_eq, potential_perm _ hexp, potential_append, potential_perm _ hperm,
        potential_cons]
      have := potential_successors (start.cost + manhattan start.pos goal.pos) goal cur
        (find_neighbors cur grid_size) hlen hcB (round_float_of_lt (by omega))
      omega
    refine ⟨?_, hpot⟩
    rw [expand_eq] at hpot ⊢
    refine ⟨foldl_insert_heap _ q1 (hheap1 hheap), ?_, ?_, ?_, ?_⟩
    · intro n hn
      rcases List.mem_append.mp (hexp.subset hn) with h | h
      · obtain ⟨nb, hnb, rfl⟩ := List.mem_map.mp h
        exact Reached.step hcur hnb
      · exact hreach n (hperm.symm.subset (List.mem_cons_of_mem _ h))
    · intro n hn
      rcases List.mem_append.mp (hexp.subset hn) with h | h
      · obtain ⟨nb, hnb, rfl⟩ := List.mem_map.mp h
        rw [relaxed_cost, round_float_of_lt (by omega)]
        omega
      · exact hcost n (hperm.symm.subset (List.mem_cons_of_mem _ h))
    · rcases List.mem_cons.mp (hperm.subset hwq) with hwc | hw1
      · subst hwc
        have hposne : w.pos ≠ goal.pos := by
          intro hp
          apply hne
          unfold Node.pos at hp
          exact ⟨congrArg Prod.fst hp, congrArg Prod.snd hp⟩
        obtain ⟨nb, hnb, hnbd⟩ := find_neighbors_toward w grid_size goal.pos
          (reached_in_grid hs hcur) hg hposne
        refine ⟨relaxed goal w nb, ?_, ?_⟩
        · exact hexp.symm.subset
            (List.mem_append_left _ (List.mem_map_of_mem _ hnb))
        · have hpos : (relaxed goal w nb).pos = nb.pos := by
            unfold Node.pos
            rw [relaxed_x, relaxed_y]
          rw [relaxed_cost, round_float_of_lt (by omega), hpos]
          omega
      · exact ⟨w, hexp.symm.subset (List.mem_append_right _ hw1), hwB⟩
    · have hl := hexp.length_eq
      simp only [List.length_append, List.length_map] at hl
      unfold PriorityQueue.size at *
      omega

/-! ## The main loop -/

theorem loop_sound_reach (start goal : Node) (grid_size : Int) (k : Nat) (q : PriorityQueue)
    (hreach : ∀ n ∈ q.nodes, Reached start goal grid_size n) (cur : Node)
    (path : List (Int × Int))
    (hrun : a_star_loop k goal grid_size q = some (SearchResult.goalReached cur path)) :
    Reached start goal grid_size cur ∧ cur.x = goal.x ∧ cur.y = goal.y ∧ path = cur.chain := by
  induction k generalizing q with
  | zero => simp [a_star_loop] at hrun
  | succ k ih =>
    by_cases hs : 0 < q.size
    · obtain ⟨c, q1, hpop, hc, hnext⟩ := step_reach start goal grid_size q hreach hs
      rw [a_star_loop_step k goal grid_size q q1 c hpop hs] at hrun
      by_cases hgoal : c.x = goal.x ∧ c.y = goal.y
      · rw [if_pos hgoal] at hrun
        simp only [Option.some.injEq, SearchResult.goalReached.injEq] at hrun
        obtain ⟨rfl, rfl⟩ := hrun
        exact ⟨hc, hgoal.1, hgoal.2, rfl⟩
      · rw [if_neg hgoal] at hrun
        exact ih _ hnext hrun
    · rw [a_star_loop_empty k goal grid_size q (by omega)] at hrun
      simp at hrun

theorem loop_sound_inv (start goal : Node) (grid_size : Int)
    (hs : in_grid grid_size start.pos) (hg : in_grid grid_size goal.pos)
    (hB : start.cost + manhattan start.pos goal.pos + 1 < 2 ^ 24)
    (hD : 3 * 5 ^ manhattan start.pos goal.pos + 1 ≤ 2 ^ 30) (k : Nat)
    (q : PriorityQueue) (hinv : SearchInv start goal grid_size q)
    (r : SearchResult) (hrun : a_star_loop k goal grid_size q = some r) :
    ∃ cur, r = SearchResult.goalReached cur cur.chain ∧ Reached start goal grid_size cur ∧
      cur.x = goal.x ∧ cur.y = goal.y ∧
      cur.cost = start.cost + manhattan start.pos goal.pos := by
  induction k generalizing q with
  | zero => simp [a_star_loop] at hrun
  | succ k ih =>
    obtain ⟨c, q1, hpop, hsize, hc, hgoalc, hnext⟩ :=
      step_inv start goal grid_size hs hg hB hD q hinv
    rw [a_star_loop_step k goal grid_size q q1 c hpop hsize] at hrun
    by_cases hgoal : c.x = goal.x ∧ c.y = goal.y
    · rw [if_pos hgoal] at hrun
      exact ⟨c, (Option.some.inj hrun).symm, hc, hgoal.1, hgoal.2, hgoalc hgoal⟩
    · rw [if_neg hgoal] at hrun
      exact ih _ (hnext hgoal).1 hrun

theorem loop_terminates (start goal : Node) (grid_size : Int)
    (hs : in_grid grid_size start.pos) (hg : in_grid grid_size goal.pos)
    (hB : start.cost + manhattan start.pos goal.pos + 1 < 2 ^ 24)
    (hD : 3 * 5 ^ manhattan start.pos goal.pos + 1 ≤ 2 ^ 30) (k : Nat)
    (q : PriorityQueue) (hinv : SearchInv start goal grid_size q)
    (hk : potential (start.cost + manhattan start.pos goal.pos) q.nodes < k) :
    ∃ r, a_star_loop k goal grid_size q = some r := by
  induction k generalizing q with
  | zero => omega
  | succ k ih =>
    obtain ⟨c, q1, hpop, hsize, hc, hgoalc, hnext⟩ :=
      step_inv start goal grid_size hs hg hB hD q hinv
    rw [a_star_loop_step k goal grid_size q q1 c hpop hsize]
    by_cases hgoal : c.x = goal.x ∧ c.y = goal.y
    · rw [if_pos hgoal]
      exact ⟨_, rfl⟩
    · rw [if_neg hgoal]
      obtain ⟨h1, h4⟩ := hnext hgoal
      exact ih _ h1 (by omega)

theorem initial_nodes (start goal : Node) :
    (initial_open_set start goal).nodes = [prepared_start start goal] := by
  rw [initial_open_set_eq]
  unfold insert_open
  rw [insert_of_grown _ _ _ (Or.inr (by decide))]
  rfl

theorem initial_capacity (start goal : Node) : (initial_open_set start goal).capacity = 100 := by
  rw [initial_open_set_eq]
  unfold insert_open
  rw [insert_of_grown _ _ _ (Or.inr (by decide))]
  rfl

theorem initial_range (start goal : Node) : (initial_open_set start goal).in_range := by
  unfold PriorityQueue.in_range PriorityQueue.size
  rw [initial_nodes, initial_capacity]
  unfold INT_MAX
  simp

theorem initial_heap (start goal : Node) : IsMinHeap (initial_open_set start goal).nodes := by
  rw [initial_nodes]
  intro i hi h0
  simp at hi
  omega

theorem initial_reach (start goal : Node) (grid_size : Int) :
    ∀ n ∈ (initial_open_set start goal).nodes, Reached start goal grid_size n := by
  intro n hn
  rw [initial_nodes, List.mem_singleton] at hn
  rw [hn]
  exact Reached.start

theorem prepared_start_pos (start goal : Node) : (prepared_start start goal).pos = start.pos := by
  unfold Node.pos
  rw [prepared_start_x, prepared_start_y]

theorem initial_potential (start goal : Node) :
    potential (start.cost + manhattan start.pos goal.pos) (initial_open_set start goal).nodes =
      5 ^ manhattan start.pos goal.pos := by
  rw [initial_nodes]
  unfold potential weight
  simp [prepared_start_cost]

theorem initial_inv (start goal : Node) (grid_size : Int) :
    SearchInv start goal grid_size (initial_open_set start goal) := by
  refine ⟨initial_heap start goal, initial_reach start goal grid_size, ?_, ?_, ?_⟩
  · intro n hn
    rw [initial_nodes, List.mem_singleton] at hn
    rw [hn, prepared_start_cost]
    omega
  · refine ⟨prepared_start start goal, ?_, ?_⟩
    · rw [initial_nodes]; simp
    · rw [prepared_start_cost, prepared_start_pos]
  · rw [initial_potential]
    unfold PriorityQueue.size
    rw [initial_nodes]
    simp only [List.length_singleton]
    omega

theorem run_sound (start goal : Node) (grid_size : Int)
    (hs : in_grid grid_size start.pos) (hg : in_grid grid_size goal.pos)
    (hB : start.cost + manhattan start.pos goal.pos + 1 < 2 ^ 24)
    (hD : 3 * 5 ^ manhattan start.pos goal.pos + 1 ≤ 2 ^ 30) (k : Nat)
    (r : SearchResult) (hrun : a_star_algorithm k start goal grid_size = some r) :
    ∃ cur, r = SearchResult.goalReached cur cur.chain ∧ Reached start goal grid_size cur ∧
      cur.x = goal.x ∧ cur.y = goal.y ∧
      cur.cost = start.cost + manhattan start.pos goal.pos :=
  loop_sound_inv start goal grid_size hs hg hB hD k _ (initial_inv start goal grid_size) r hrun

theorem run_terminates (start goal : Node) (grid_size : Int)
    (hs : in_grid grid_size start.pos) (hg : in_grid grid_size goal.pos)
    (hB : start.cost + manhattan start.pos goal.pos + 1 < 2 ^ 24)
    (hD : 3 * 5 ^ manhattan start.pos goal.pos + 1 ≤ 2 ^ 30) (k : Nat)
    (hk : 5 ^ manhattan start.pos goal.pos < k) :
    ∃ r, a_star_algorithm k start goal grid_size = some r :=
  loop_terminates start goal grid_size hs hg hB hD k _ (initial_inv start goal grid_size)
    (by rw [initial_potential]; exact hk)

theorem potential_bound_of_le {d : Nat} (h : d ≤ 12) : 3 * 5 ^ d + 1 ≤ 2 ^ 30 := by
  have : 5 ^ d ≤ 5 ^ 12 := Nat.pow_le_pow_right (by norm_num) h
  norm_num at this ⊢
  omega

theorem reached_chain_root {start goal : Node} {grid_size : Int} {n : Node}
    (hp : start.parent = none) (h : Reached start goal grid_size n) :
    is_walk n.chain ∧ n.chain.head? = some start.pos ∧ n.chain.getLast? = some n.pos ∧
      (n.cost < 2 ^ 24 → n.chain.length + start.cost = n.cost + 1) := by
  obtain ⟨w, h1, h2, h3, h4, h5⟩ := reached_chain h
  rw [hp] at h1
  have : n.chain = w := by rw [h1]; rfl
  rw [this]
  exact ⟨h2, h3, h4, h5⟩

theorem reached_cost_le_saturation {start goal : Node} {grid_size : Int} {n : Node}
    (h : Reached start goal grid_size n) (hc : start.cost ≤ 2 ^ 24) : n.cost ≤ 2 ^ 24 := by
  induction h with
  | start => rw [prepared_start_cost]; exact hc
  | @step p nb hp hnb ih =>
    rw [relaxed_cost]
    exact round_float_succ_le ih

/-! ## The claims about the search -/

/-- C3, as stated, fails: called with a start node that has a parent, the search reaches
the goal and `reconstruct_path` prints the ancestors of the start node first.  With start
`(0,0)`, whose parent is a node at `(7,7)`, and goal `(0,0)` on the grid of size 10 the
printed sequence is `(7,7), (0,0)`: it does not begin with the start and is no grid
walk. -/
theorem walk_fails_for_start_with_parent :
    a_star_algorithm 1 (Node.child 0 0 0 ⟨0⟩ ⟨0⟩ (cell 7 7)) (cell 0 0) 10 =
        some (SearchResult.goalReached (Node.child 0 0 0 ⟨0⟩ ⟨0⟩ (cell 7 7))
          [(7, 7), (0, 0)]) ∧
      [((7 : Int), (7 : Int)), (0, 0)].head? ≠
        some (Node.child 0 0 0 ⟨0⟩ ⟨0⟩ (cell 7 7)).pos ∧
      ¬ is_walk [(7, 7), (0, 0)] := by
  decide

/-- C3, amended: whenever `a_star_algorithm`, called with a start node that has no
parent, reaches the goal, the reconstructed sequence (the parent chain of the popped
goal node, oldest first) is a grid walk from start to goal: its first coordinate is the
start, its last the goal, and every two consecutive coordinates differ by exactly 1 in
exactly one of `x`, `y` and by 0 in the other. -/
theorem path_is_walk (start goal : Node) (grid_size : Int) (hp : start.parent = none)
    (k : Nat) (cur : Node) (path : List (Int × Int))
    (hrun : a_star_algorithm k start goal grid_size =
      some (SearchResult.goalReached cur path)) :
    path = reconstruct_path (some cur) ∧ path.head? = some start.pos ∧
      path.getLast? = some goal.pos ∧ is_walk path := by
  obtain ⟨hreach, hx, hy, rfl⟩ := loop_sound_reach start goal grid_size k _
    (initial_reach start goal grid_size) cur path hrun
  obtain ⟨h1, h2, h3, -⟩ := reached_chain_root hp hreach
  refine ⟨rfl, h2, ?_, h1⟩
  rw [h3]
  unfold Node.pos
  rw [hx, hy]

set_option maxRecDepth 100000 in
theorem path_is_walk_witness :
    [((0 : Int), (0 : Int)), (1, 0), (1, 1)] =
        reconstruct_path (some (Node.child 1 1 2 ⟨0⟩ ⟨2 ^ 150⟩
          (Node.child 1 0 1 ⟨2 ^ 149⟩ ⟨2 ^ 150⟩
            (Node.root 0 0 0 ⟨11863283 * 2 ^ 126⟩ ⟨11863283 * 2 ^ 126⟩)))) ∧
      [((0 : Int), (0 : Int)), (1, 0), (1, 1)].head? = some (cell 0 0).pos ∧
      [((0 : Int), (0 : Int)), (1, 0), (1, 1)].getLast? = some (cell 1 1).pos ∧
      is_walk [(0, 0), (1, 0), (1, 1)] :=
  path_is_walk (cell 0 0) (cell 1 1) 3 rfl 4 _ _ (by decide)

/-- C4: when the start node has no parent and the coordinates of the goal, already the
first iteration of the main loop pops the start node and recognises it as the goal, so
that no neighbour is expanded; the reconstructed path is the one-element sequence
`[start]`, a path of zero steps, and the popped node carries the cost of the start
node (0 when the start is given with cost 0).  This holds for every grid size and every
such start, in particular for `grid_size > 0` and a start inside the grid. -/
theorem start_equals_goal (start goal : Node) (grid_size : Int) (hp : start.parent = none)
    (hx : start.x = goal.x) (hy : start.y = goal.y) (k : Nat) :
    a_star_algorithm (k + 1) start goal grid_size =
        some (SearchResult.goalReached (prepared_start start goal) [(start.x, start.y)]) ∧
      (pop_priority_queue (initial_open_set start goal)).1 = some (prepared_start start goal) ∧
      [(start.x, start.y)].length - 1 = 0 ∧
      (prepared_start start goal).cost = start.cost := by
  have hsize : 0 < (initial_open_set start goal).size := by
    unfold PriorityQueue.size
    rw [initial_nodes]
    simp
  obtain ⟨cur, q1, hpop, h0, -⟩ := pop_split (initial_open_set start goal) hsize
  rw [initial_nodes] at h0
  simp only [List.getElem?_cons_zero, Option.some.injEq] at h0
  subst h0
  refine ⟨?_, by rw [hpop], rfl, prepared_start_cost start goal⟩
  unfold a_star_algorithm
  rw [a_star_loop_step k goal grid_size _ q1 _ hpop hsize,
    if_pos ⟨by rw [prepared_start_x, hx], by rw [prepared_start_y, hy]⟩]
  have hchain : reconstruct_path (some (prepared_start start goal)) = [(start.x, start.y)] := by
    show (prepared_start start goal).chain = _
    rw [chain_eq, prepared_start_parent, prepared_start_x, prepared_start_y, hp]
    rfl
  rw [hchain]

theorem start_equals_goal_witness :
    a_star_algorithm (0 + 1) (cell 0 0) (cell 0 0) 1 =
        some (SearchResult.goalReached (prepared_start (cell 0 0) (cell 0 0))
          [((cell 0 0).x, (cell 0 0).y)]) ∧
      (pop_priority_queue (initial_open_set (cell 0 0) (cell 0 0))).1 =
        some (prepared_start (cell 0 0) (cell 0 0)) ∧
      [((cell 0 0).x, (cell 0 0).y)].length - 1 = 0 ∧
      (prepared_start (cell 0 0) (cell 0 0)).cost = (cell 0 0).cost :=
  start_equals_goal (cell 0 0) (cell 0 0) 1 rfl rfl rfl 0

/-- C5: on the inputs of `main` (`grid_size = 10`, start `(0,0)`, goal `(5,5)`) the
search reaches the goal, and in every run that has ended the reconstructed path has
exactly 11 coordinates, the first `(0,0)` and the last `(5,5)`, that is 10 steps, each
of them a unit step. -/
theorem main_finds_path :
    (∃ k cur path, main k = some (SearchResult.goalReached cur path)) ∧
      ∀ k, main k = none ∨
        ∃ cur path, main k = some (SearchResult.goalReached cur path) ∧
          path = reconstruct_path (some cur) ∧ path.length = 11 ∧
          path.head? = some (0, 0) ∧ path.getLast? = some (5, 5) ∧
          path.length - 1 = 10 ∧ is_walk path := by
  have hs : in_grid 10 (cell 0 0).pos := by decide
  have hg : in_grid 10 (cell 5 5).pos := by decide
  have hD : manhattan (cell 0 0).pos (cell 5 5).pos = 10 := by decide
  have hB : (cell 0 0).cost + manhattan (cell 0 0).pos (cell 5 5).pos + 1 < 2 ^ 24 := by
    decide
  have hN : 3 * 5 ^ manhattan (cell 0 0).pos (cell 5 5).pos + 1 ≤ 2 ^ 30 :=
    potential_bound_of_le (by decide)
  constructor
  · obtain ⟨r, hr⟩ := run_terminates (cell 0 0) (cell 5 5) 10 hs hg hB hN (5 ^ 10 + 1)
      (by rw [hD]; exact Nat.lt_succ_self _)
    obtain ⟨cur, rfl, -⟩ := run_sound (cell 0 0) (cell 5 5) 10 hs hg hB hN _ r hr
    exact ⟨_, cur, cur.chain, hr⟩
  · intro k
    cases hrun : main k with
    | none => exact Or.inl rfl
    | some r =>
      right
      obtain ⟨cur, rfl, hreach, hx, hy, hcost⟩ :=
        run_sound (cell 0 0) (cell 5 5) 10 hs hg hB hN k r hrun
      obtain ⟨h1, h2, h3, h4⟩ := @reached_chain_root (cell 0 0) _ _ _ rfl hreach
      rw [hD] at hcost
      have hc0 : (cell 0 0).cost = 0 := rfl
      have h5 := h4 (by omega)
      have hlen : cur.chain.length = 11 := by omega
      refine ⟨cur, cur.chain, rfl, rfl, hlen, h2, ?_, by omega, h1⟩
      rw [h3]
      unfold Node.pos
      rw [hx, hy]
      rfl

theorem filterMap_ite_eq {α β : Type} (l : List α) (P : α → Prop) [DecidablePred P]
    (f : α → β) :
    l.filterMap (fun d => if P d then some (f d) else none) =
      (l.filter (fun d => decide (P d))).map f := by
  induction l with
  | nil => rfl
  | cons a t ih =>
    by_cases h : P a
    · simp [List.filterMap_cons, List.filter_cons, h, ih]
    · simp [List.filterMap_cons, List.filter_cons, h, ih]

theorem adjacent_cells_eq (x y : Int) :
    adjacent_cells x y =
      ([((1 : Int), (0 : Int)), (-1, 0), (0, 1), (0, -1)]).map (fun d => (x + d.1, y + d.2)) := by
  simp [adjacent_cells, sub_eq_add_neg]

theorem find_neighbors_eq (cur : Node) (grid_size : Int) :
    find_neighbors cur grid_size =
      ((adjacent_cells cur.x cur.y).filter (fun c => decide (in_grid grid_size c))).map
        (fun c => Node.make c.1 c.2 0 ⟨0⟩ ⟨0⟩ (some cur)) := by
  rw [adjacent_cells_eq, List.filter_map, List.map_map]
  unfold find_neighbors
  simp only [List.zip_cons_cons, List.zip_nil_right]
  exact filterMap_ite_eq _
    (fun d : Int × Int => cur.x + d.1 ≥ 0 ∧ cur.x + d.1 < grid_size ∧ cur.y + d.2 ≥ 0 ∧
      cur.y + d.2 < grid_size)
    (fun d => Node.make (cur.x + d.1) (cur.y + d.2) 0 ⟨0⟩ ⟨0⟩ (some cur))

theorem find_neighbors_pos (cur : Node) (grid_size : Int) :
    (find_neighbors cur grid_size).map Node.pos =
      (adjacent_cells cur.x cur.y).filter (fun c => decide (in_grid grid_size c)) := by
  rw [find_neighbors_eq, List.map_map]
  have : (Node.pos ∘ fun c : Int × Int => Node.make c.1 c.2 0 ⟨0⟩ ⟨0⟩ (some cur)) = id := by
    funext c
    simp [Node.pos]
  rw [this, List.map_id]

theorem mem_find_neighbors_pos {cur : Node} {grid_size : Int} {c : Int × Int}
    (hstep : unit_step cur.pos c) (hg : in_grid grid_size c) :
    ∃ nb ∈ find_neighbors cur grid_size, nb.pos = c := by
  have hmem : c ∈ (find_neighbors cur grid_size).map Node.pos := by
    rw [find_neighbors_pos, List.mem_filter]
    refine ⟨?_, by simpa using hg⟩
    obtain ⟨cx, cy⟩ := c
    unfold unit_step Node.pos at hstep
    simp only at hstep
    unfold adjacent_cells
    simp only [List.mem_cons, Prod.mk.injEq, List.mem_singleton, List.not_mem_nil, or_false]
    omega
  obtain ⟨nb, hnb, hpos⟩ := List.mem_map.mp hmem
  exact ⟨nb, hnb, hpos⟩

theorem insert_size_of_grown (ok : Bool) (pq : PriorityQueue) (node : Node)
    (h : ok = true ∨ pq.size ≠ pq.capacity) :
    (insert_priority_queue ok pq node).size = pq.size + 1 := by
  rw [insert_of_grown ok pq node h]
  unfold PriorityQueue.size
  simp [heapify_up_loop_length]

/-! ## Further claims about the queue -/

/-- C16: on a queue with capacity at least 1 and `size <= capacity`, `insert_priority_queue`
(the resize succeeding when one is made) leaves the capacity unchanged when
`size < capacity` and sets it to exactly twice its old value when `size == capacity`; in
both cases `size <= capacity` holds afterwards, and the index `size` at which the node
was written is below the capacity of the array written to. -/
theorem insert_capacity (realloc_ok : Bool) (pq : PriorityQueue) (node : Node)
    (hcap : 1 ≤ pq.capacity) (hsize : pq.size ≤ pq.capacity)
    (hok : pq.size = pq.capacity → realloc_ok = true) :
    (pq.size < pq.capacity →
        (insert_priority_queue realloc_ok pq node).capacity = pq.capacity) ∧
      (pq.size = pq.capacity →
        (insert_priority_queue realloc_ok pq node).capacity = 2 * pq.capacity) ∧
      (insert_priority_queue realloc_ok pq node).size ≤
        (insert_priority_queue realloc_ok pq node).capacity ∧
      pq.size < (insert_priority_queue realloc_ok pq node).capacity := by
  have hg : realloc_ok = true ∨ pq.size ≠ pq.capacity := by
    by_cases hc : pq.size = pq.capacity
    · exact Or.inl (hok hc)
    · exact Or.inr hc
  have hs := insert_size_of_grown realloc_ok pq node hg
  have hc : (insert_priority_queue realloc_ok pq node).capacity =
      if pq.size = pq.capacity then pq.capacity * 2 else pq.capacity := by
    rw [insert_of_grown realloc_ok pq node hg]
  refine ⟨?_, ?_, ?_, ?_⟩
  · intro hlt
    rw [hc, if_neg (by omega)]
  · intro heq
    rw [hc, if_pos heq]
    omega
  · rw [hs, hc]
    split_ifs <;> omega
  · rw [hc]
    split_ifs <;> omega

theorem insert_capacity_witness :
    (insert_priority_queue true
        { nodes := [Node.root 0 0 0 ⟨0⟩ ⟨82⟩, Node.root 1 0 0 ⟨0⟩ ⟨96⟩],
          capacity := 2 }
        (Node.root 2 0 0 ⟨0⟩ ⟨65⟩)).capacity = 2 * 2 ∧
      (insert_priority_queue true
        { nodes := [Node.root 0 0 0 ⟨0⟩ ⟨82⟩], capacity := 2 }
        (Node.root 2 0 0 ⟨0⟩ ⟨65⟩)).capacity = 2 :=
  ⟨(insert_capacity true
      { nodes := [Node.root 0 0 0 ⟨0⟩ ⟨82⟩, Node.root 1 0 0 ⟨0⟩ ⟨96⟩], capacity := 2 }
      (Node.root 2 0 0 ⟨0⟩ ⟨65⟩) (by decide) (by decide) (fun _ => rfl)).2.1 (by decide),
    (insert_capacity true
      { nodes := [Node.root 0 0 0 ⟨0⟩ ⟨82⟩], capacity := 2 }
      (Node.root 2 0 0 ⟨0⟩ ⟨65⟩) (by decide) (by decide) (fun _ => rfl)).1 (by decide)⟩

/-- C18: min-heap order is an invariant of the queue.  It holds for the queue returned by
`create_priority_queue`; and if for every index `i` with `0 < i < size` the node at index
`(i-1)/2` has `total_cost` at most that of the node at index `i`, the same holds after
`insert_priority_queue` (whatever the outcome of its resize) and after
`pop_priority_queue`. -/
theorem heap_order_invariant (capacity : Nat) (realloc_ok : Bool) (pq : PriorityQueue)
    (node : Node) (h : IsMinHeap pq.nodes) :
    IsMinHeap (create_priority_queue capacity).nodes ∧
      IsMinHeap (insert_priority_queue realloc_ok pq node).nodes ∧
      IsMinHeap (pop_priority_queue pq).2.nodes :=
  ⟨create_heap capacity, insert_heap realloc_ok pq node h, pop_heap pq h⟩

theorem heap_order_invariant_witness :
    IsMinHeap (create_priority_queue 100).nodes ∧
      IsMinHeap (insert_priority_queue true
        { nodes := [Node.root 0 0 0 ⟨0⟩ ⟨50⟩, Node.root 1 0 0 ⟨0⟩ ⟨96⟩,
            Node.root 2 0 0 ⟨0⟩ ⟨67⟩], capacity := 4 }
        (Node.root 3 0 0 ⟨0⟩ ⟨33⟩)).nodes ∧
      IsMinHeap (pop_priority_queue
        { nodes := [Node.root 0 0 0 ⟨0⟩ ⟨50⟩, Node.root 1 0 0 ⟨0⟩ ⟨96⟩,
            Node.root 2 0 0 ⟨0⟩ ⟨67⟩], capacity := 4 }).2.nodes :=
  heap_order_invariant 100 true
    { nodes := [Node.root 0 0 0 ⟨0⟩ ⟨50⟩, Node.root 1 0 0 ⟨0⟩ ⟨96⟩,
        Node.root 2 0 0 ⟨0⟩ ⟨67⟩], capacity := 4 }
    (Node.root 3 0 0 ⟨0⟩ ⟨33⟩) (by decide)

/-! ## Further claims about the search -/

/-- C14: for every current node at `(x, y)` and every `grid_size`, the positions of the
nodes `find_neighbors` returns are, in the order `+x, -x, +y, -y`, exactly those of the
four cells `(x+1,y)`, `(x-1,y)`, `(x,y+1)`, `(x,y-1)` whose two coordinates both lie in
`[0, grid_size)`; each returned node has its parent set to the current node;
`neighbor_count` is the number of such cells and is at most 4. -/
theorem find_neighbors_spec (current : Node) (grid_size : Int) :
    (find_neighbors current grid_size).map Node.pos =
        [(current.x + 1, current.y), (current.x - 1, current.y),
          (current.x, current.y + 1), (current.x, current.y - 1)].filter
          (fun c => decide (0 ≤ c.1 ∧ c.1 < grid_size ∧ 0 ≤ c.2 ∧ c.2 < grid_size)) ∧
      (∀ nb ∈ find_neighbors current grid_size, nb.parent = some current) ∧
      (find_neighbors current grid_size).length =
        ([(current.x + 1, current.y), (current.x - 1, current.y),
          (current.x, current.y + 1), (current.x, current.y - 1)].filter
          (fun c => decide (0 ≤ c.1 ∧ c.1 < grid_size ∧ 0 ≤ c.2 ∧ c.2 < grid_size))).length ∧
      (find_neighbors current grid_size).length ≤ 4 := by
  have hpos := find_neighbors_pos current grid_size
  unfold adjacent_cells in_grid at hpos
  refine ⟨hpos, fun nb hnb => (mem_find_neighbors hnb).2.1, ?_,
    find_neighbors_length current grid_size⟩
  rw [← hpos, List.length_map]

/-- C17: for all nodes `a`, `b` with integer coordinates, the value of `heuristic(a, b)`
is the real number `sqrt((a.x-b.x)^2 + (a.y-b.y)^2)`; it is admissible for 4-directional
unit-cost movement, `0 <= heuristic(a, b) <= |a.x-b.x| + |a.y-b.y|`, and
`heuristic(a, a) = 0`. -/
theorem heuristic_admissible (a b : Node) :
    ((heuristic a b).whole : ℝ) + Real.sqrt ((heuristic a b).rad : ℝ) =
        Real.sqrt (((a.x : ℝ) - (b.x : ℝ)) ^ 2 + ((a.y : ℝ) - (b.y : ℝ)) ^ 2) ∧
      0 ≤ ((heuristic a b).whole : ℝ) + Real.sqrt ((heuristic a b).rad : ℝ) ∧
      ((heuristic a b).whole : ℝ) + Real.sqrt ((heuristic a b).rad : ℝ) ≤
        |(a.x : ℝ) - (b.x : ℝ)| + |(a.y : ℝ) - (b.y : ℝ)| ∧
      heuristic a a = ⟨0, 0⟩ := by
  have hnn : (0 : Int) ≤ (a.x - b.x) ^ 2 + (a.y - b.y) ^ 2 := by positivity
  have hrad : (((heuristic a b).rad : Nat) : ℝ) =
      ((a.x : ℝ) - (b.x : ℝ)) ^ 2 + ((a.y : ℝ) - (b.y : ℝ)) ^ 2 := by
    have h1 : ((((a.x - b.x) ^ 2 + (a.y - b.y) ^ 2).toNat : Nat) : Int) =
        (a.x - b.x) ^ 2 + (a.y - b.y) ^ 2 := Int.toNat_of_nonneg hnn
    have h2 : ((((a.x - b.x) ^ 2 + (a.y - b.y) ^ 2).toNat : Nat) : ℝ) =
        (((a.x - b.x) ^ 2 + (a.y - b.y) ^ 2 : Int) : ℝ) := by
      exact_mod_cast congrArg (fun z : Int => (z : ℝ)) h1
    unfold heuristic
    simp only
    rw [h2]
    push_cast
    ring
  have hwhole : ((heuristic a b).whole : ℝ) = 0 := by
    unfold heuristic
    simp
  rw [hwhole, zero_add, hrad]
  refine ⟨rfl, Real.sqrt_nonneg _, ?_, ?_⟩
  · rw [Real.sqrt_le_iff]
    refine ⟨by positivity, ?_⟩
    nlinarith [abs_nonneg ((a.x : ℝ) - (b.x : ℝ)), abs_nonneg ((a.y : ℝ) - (b.y : ℝ)),
      sq_abs ((a.x : ℝ) - (b.x : ℝ)), sq_abs ((a.y : ℝ) - (b.y : ℝ)),
      mul_nonneg (abs_nonneg ((a.x : ℝ) - (b.x : ℝ))) (abs_nonneg ((a.y : ℝ) - (b.y : ℝ)))]
  · unfold heuristic
    simp

/-- C13, as stated, fails: `a_star_algorithm` does not reset the `cost` and `parent` of
the caller's start node.  Given a start node at `(0,0)` with cost 5 and a parent at
`(1,0)`, the open set after the first insertion holds that node with cost 5 and with
its parent. -/
theorem start_keeps_cost_and_parent :
    (initial_open_set (Node.child 0 0 5 ⟨0⟩ ⟨0⟩ (cell 1 0)) (cell 5 5)).nodes =
        [Node.child 0 0 5 ⟨926819 * 2 ^ 132⟩ ⟨1582179 * 2 ^ 132⟩ (cell 1 0)] ∧
      (Node.child 0 0 5 ⟨926819 * 2 ^ 132⟩ ⟨1582179 * 2 ^ 132⟩ (cell 1 0)).cost ≠ 0 ∧
      (Node.child 0 0 5 ⟨926819 * 2 ^ 132⟩ ⟨1582179 * 2 ^ 132⟩ (cell 1 0)).parent ≠ none := by
  set_option maxRecDepth 100000 in
  decide

/-- C13, amended: for every call `a_star_algorithm(start, goal, grid_size)` the first node
inserted into the open set is the start node, at the start's coordinates and with the
`cost` and `parent` fields the caller gave it (cost 0 and no parent when the caller
passes them so, as `main` does); `a_star_algorithm` sets only its `heuristic` and
`total_cost`. -/
theorem start_inserted_as_given (start goal : Node) :
    (initial_open_set start goal).nodes = [prepared_start start goal] ∧
      (prepared_start start goal).x = start.x ∧
      (prepared_start start goal).y = start.y ∧
      (prepared_start start goal).cost = start.cost ∧
      (prepared_start start goal).parent = start.parent ∧
      (prepared_start start goal).heuristic = (heuristic start goal).toFloat ∧
      (prepared_start start goal).total_cost =
        Float32.addCost start.cost (heuristic start goal).toFloat :=
  ⟨initial_nodes start goal, prepared_start_x start goal, prepared_start_y start goal,
    prepared_start_cost start goal, prepared_start_parent start goal,
    prepared_start_heuristic start goal, prepared_start_total_cost start goal⟩

/-! ## What one expansion inserts -/

theorem insert_open_stuck {q : PriorityQueue} (h : q.size = q.capacity)
    (h2 : INT_MAX < q.capacity * 2) (n : Node) : insert_open q n = q := by
  rcases insert_open_spec q n with ⟨hq, -⟩ | ⟨-, hr⟩
  · exact hq
  · have := hr h
    omega

theorem foldl_insert_stuck {q : PriorityQueue} (h : q.size = q.capacity)
    (h2 : INT_MAX < q.capacity * 2) (ns : List Node) : ns.foldl insert_open q = q := by
  induction ns with
  | nil => rfl
  | cons n ns ih => rw [List.foldl_cons, insert_open_stuck h h2 n, ih]

theorem foldl_insert_taken (ns : List Node) (q : PriorityQueue) :
    ∃ k, k ≤ ns.length ∧ (ns.foldl insert_open q).nodes.Perm (ns.take k ++ q.nodes) ∧
      (k < ns.length → (ns.foldl insert_open q).size = (ns.foldl insert_open q).capacity ∧
        INT_MAX < (ns.foldl insert_open q).capacity * 2) ∧
      (q.size < q.capacity → ns ≠ [] → 0 < k) := by
  induction ns generalizing q with
  | nil => exact ⟨0, le_rfl, List.Perm.refl _, fun h => absurd h (lt_irrefl _),
      fun _ h => absurd rfl h⟩
  | cons n ns ih =>
    rw [List.foldl_cons]
    rcases insert_open_cases q n with ⟨hq, h1, h2⟩ | ⟨hp, -, -⟩
    · refine ⟨0, Nat.zero_le _, ?_, ?_, ?_⟩
      · rw [hq, foldl_insert_stuck h1 h2]
        exact List.Perm.refl _
      · intro _
        rw [hq, foldl_insert_stuck h1 h2]
        exact ⟨h1, h2⟩
      · intro hlt
        omega
    · obtain ⟨k, hk, hperm, hfull, -⟩ := ih (insert_open q n)
      refine ⟨k + 1, by simp only [List.length_cons]; omega, ?_, ?_, fun _ _ => by omega⟩
      · refine hperm.trans ?_
        rw [List.take_succ_cons, List.cons_append]
        refine (hp.append_left (ns.take k)).trans ?_
        exact List.perm_middle
      · intro hlt
        simp only [List.length_cons] at hlt
        exact hfull (by omega)

/-- C19, as stated, fails: the cost of an inserted neighbour is the `float` sum
`current->cost + 1`, which is not `current.cost + 1` from `2^24` on, and its
`total_cost` is the `float` sum of cost and heuristic.  Expanding a node at `(0,0)` of
cost `16777216` on the grid of size 3 with goal `(2,1)` inserts nodes for `(1,0)` and
`(0,1)` of cost `16777216` (not `16777217`) with `total_cost` `16777218` (not
`16777217 + sqrt 2` and `16777217 + 2`). -/
theorem neighbor_cost_is_rounded :
    ((find_neighbors (Node.root 0 0 (2 ^ 24) ⟨0⟩ ⟨0⟩) 3).foldl
          (process_neighbor (cell 2 1) (Node.root 0 0 (2 ^ 24) ⟨0⟩ ⟨0⟩))
          (create_priority_queue 100)).nodes.map
        (fun n => (n.pos, n.cost, n.total_cost)) =
        [((1, 0), 16777216, ⟨16777218 * 2 ^ 149⟩), ((0, 1), 16777216, ⟨16777218 * 2 ^ 149⟩)] ∧
      (Node.root 0 0 (2 ^ 24) ⟨0⟩ ⟨0⟩).cost + 1 = 16777217 := by
  set_option maxRecDepth 100000 in
  decide

/-- C19, amended: every neighbour returned by `find_neighbors` has cost 0, so the guard
`tentative_gScore < neighbor->cost || neighbor->cost == 0` is true for it and the loop
body calls `insert_priority_queue` for it.  The node handed over has the position of
the neighbour, parent the current node, cost the `float` sum `current.cost + 1` (which
is `current.cost + 1` as long as that is below `2^24`) and `total_cost` the `float` sum of
that cost and of `heuristic(neighbour, goal)`.  The nodes that an expansion adds to the
open set are the first so many of these nodes, in the order `+x, -x, +y, -y` of the
in-bounds adjacent cells; they are all of them when the open set has room for them
below `2^30` entries (an insertion can only fail on a full queue of capacity above
`INT_MAX / 2`).  The cell the current node was reached from is among the neighbours
whenever it is an in-bounds adjacent cell. -/
theorem expansion_inserts_all_neighbors (goal current : Node) (grid_size : Int)
    (openSet : PriorityQueue) :
    (∀ nb ∈ find_neighbors current grid_size,
        nb.cost = 0 ∧ (round_float (current.cost + 1) < nb.cost ∨ nb.cost = 0) ∧
        process_neighbor goal current openSet nb =
          insert_open openSet (relaxed goal current nb) ∧
        (relaxed goal current nb).pos = nb.pos ∧
        (relaxed goal current nb).parent = some current ∧
        (relaxed goal current nb).cost = round_float (current.cost + 1) ∧
        (current.cost + 1 < 2 ^ 24 → (relaxed goal current nb).cost = current.cost + 1) ∧
        (relaxed goal current nb).total_cost =
          Float32.addCost (round_float (current.cost + 1)) (heuristic nb goal).toFloat) ∧
      (∃ k, k ≤ (find_neighbors current grid_size).length ∧
        ((find_neighbors current grid_size).foldl (process_neighbor goal current)
            openSet).nodes.Perm
          (((find_neighbors current grid_size).map (relaxed goal current)).take k ++
            openSet.nodes)) ∧
      (openSet.size + (find_neighbors current grid_size).length ≤ 2 ^ 30 →
        ((find_neighbors current grid_size).foldl (process_neighbor goal current)
            openSet).nodes.Perm
          ((find_neighbors current grid_size).map (relaxed goal current) ++ openSet.nodes)) ∧
      ((find_neighbors current grid_size).map (relaxed goal current)).map Node.pos =
        [(current.x + 1, current.y), (current.x - 1, current.y),
          (current.x, current.y + 1), (current.x, current.y - 1)].filter
          (fun c => decide (0 ≤ c.1 ∧ c.1 < grid_size ∧ 0 ≤ c.2 ∧ c.2 < grid_size)) ∧
      (∀ p, current.parent = some p → unit_step current.pos p.pos →
        in_grid grid_size p.pos →
        ∃ nb ∈ find_neighbors current grid_size, (relaxed goal current nb).pos = p.pos) := by
  have hrpos : ∀ nb, (relaxed goal current nb).pos = nb.pos := by
    intro nb
    unfold Node.pos
    rw [relaxed_x, relaxed_y]
  refine ⟨?_, ?_, ?_, ?_, ?_⟩
  · intro nb hnb
    have h0 := (mem_find_neighbors hnb).1
    refine ⟨h0, Or.inr h0, process_neighbor_eq goal current nb openSet h0, hrpos nb,
      relaxed_parent goal current nb, relaxed_cost goal current nb, ?_,
      relaxed_total_cost goal current nb⟩
    intro hlt
    rw [relaxed_cost, round_float_of_lt hlt]
  · rw [expand_eq]
    obtain ⟨k, hk, hperm, -⟩ :=
      foldl_insert_taken ((find_neighbors current grid_size).map (relaxed goal current))
        openSet
    rw [List.length_map] at hk
    exact ⟨k, hk, hperm⟩
  · intro hroom
    rw [expand_eq]
    exact foldl_insert_perm _ openSet (by rw [List.length_map]; exact hroom)
  · have hpos := find_neighbors_pos current grid_size
    unfold adjacent_cells in_grid at hpos
    rw [← hpos, List.map_map]
    apply List.map_congr_left
    intro nb _
    exact hrpos nb
  · intro p _ hstep hg
    obtain ⟨nb, hnb, hpos⟩ := mem_find_neighbors_pos hstep hg
    exact ⟨nb, hnb, by rw [hrpos, hpos]⟩

theorem expansion_inserts_all_neighbors_witness :
    ∃ nb ∈ find_neighbors (Node.child 1 0 1 ⟨2 ^ 149⟩ ⟨2 ^ 150⟩ (cell 0 0)) 3,
      (relaxed (cell 1 1) (Node.child 1 0 1 ⟨2 ^ 149⟩ ⟨2 ^ 150⟩ (cell 0 0)) nb).pos =
        (cell 0 0).pos :=
  (expansion_inserts_all_neighbors (cell 1 1) (Node.child 1 0 1 ⟨2 ^ 149⟩ ⟨2 ^ 150⟩ (cell 0 0))
    3 (create_priority_queue 100)).2.2.2.2 (cell 0 0) rfl (by decide) (by decide)

/-! ## The iterations of the main loop -/

theorem loop_iteration_of_pop (goal : Node) (grid_size : Int) (q q1 : PriorityQueue)
    (cur : Node) (hpop : pop_priority_queue q = (some cur, q1)) (hs : 0 < q.size) :
    loop_iteration goal grid_size q =
      if cur.x = goal.x ∧ cur.y = goal.y then none
      else some (cur, (find_neighbors cur grid_size).foldl (process_neighbor goal cur) q1) := by
  have he : is_empty_priority_queue q = false := by
    unfold is_empty_priority_queue
    simp
    omega
  unfold loop_iteration
  rw [he, hpop]
  simp

theorem loop_iteration_of_empty (goal : Node) (grid_size : Int) (q : PriorityQueue)
    (hs : q.size = 0) : loop_iteration goal grid_size q = none := by
  unfold loop_iteration is_empty_priority_queue
  simp [hs]

theorem loop_iteration_some {goal : Node} {grid_size : Int} {q next : PriorityQueue}
    {cur : Node} (h : loop_iteration goal grid_size q = some (cur, next)) :
    ∃ q1, 0 < q.size ∧ pop_priority_queue q = (some cur, q1) ∧
      ¬ (cur.x = goal.x ∧ cur.y = goal.y) ∧
      next = (find_neighbors cur grid_size).foldl (process_neighbor goal cur) q1 := by
  by_cases hs : 0 < q.size
  · obtain ⟨c, q1, hpop, -⟩ := pop_split q hs
    rw [loop_iteration_of_pop goal grid_size q q1 c hpop hs] at h
    by_cases hg : c.x = goal.x ∧ c.y = goal.y
    · rw [if_pos hg] at h
      simp at h
    · rw [if_neg hg] at h
      simp only [Option.some.injEq, Prod.mk.injEq] at h
      obtain ⟨rfl, rfl⟩ := h
      exact ⟨q1, hs, hpop, hg, rfl⟩
  · rw [loop_iteration_of_empty goal grid_size q (by omega)] at h
    simp at h

theorem a_star_loop_of_iteration {goal : Node} {grid_size : Int} {q next : PriorityQueue}
    {cur : Node} (h : loop_iteration goal grid_size q = some (cur, next)) (k : Nat) :
    a_star_loop (k + 1) goal grid_size q = a_star_loop k goal grid_size next := by
  obtain ⟨q1, hs, hpop, hg, rfl⟩ := loop_iteration_some h
  rw [a_star_loop_step k goal grid_size q q1 cur hpop hs, if_neg hg]

theorem open_set_after_succ_of_iteration {goal : Node} {grid_size : Int}
    {q next : PriorityQueue} {cur : Node}
    (h : loop_iteration goal grid_size q = some (cur, next)) (n : Nat) :
    open_set_after (n + 1) goal grid_size q = open_set_after n goal grid_size next := by
  rw [open_set_after, h]

theorem open_set_after_succ_some {goal : Node} {grid_size : Int} {q q2 : PriorityQueue}
    {n : Nat} (h : open_set_after (n + 1) goal grid_size q = some q2) :
    ∃ cur next, loop_iteration goal grid_size q = some (cur, next) ∧
      open_set_after n goal grid_size next = some q2 := by
  rw [open_set_after] at h
  cases hit : loop_iteration goal grid_size q with
  | none => rw [hit] at h; simp at h
  | some pr =>
    obtain ⟨cur, next⟩ := pr
    rw [hit] at h
    exact ⟨cur, next, rfl, h⟩

theorem open_set_after_reached (start goal : Node) (grid_size : Int) (n : Nat)
    (q q2 : PriorityQueue) (hreach : ∀ x ∈ q.nodes, Reached start goal grid_size x)
    (h : open_set_after n goal grid_size q = some q2) :
    ∀ x ∈ q2.nodes, Reached start goal grid_size x := by
  induction n generalizing q with
  | zero =>
    simp only [open_set_after, Option.some.injEq] at h
    rw [← h]; exact hreach
  | succ n ih =>
    obtain ⟨cur, next, hit, hrest⟩ := open_set_after_succ_some h
    obtain ⟨q1, hs, hpop, hg, rfl⟩ := loop_iteration_some hit
    obtain ⟨c, q1', hpop', -, hnext⟩ := step_reach start goal grid_size q hreach hs
    rw [hpop] at hpop'
    simp only [Prod.mk.injEq, Option.some.injEq] at hpop'
    obtain ⟨rfl, rfl⟩ := hpop'
    exact ih _ hnext hrest

theorem two_le_length_of_mem {α : Type} {l : List α} {a b : α} (ha : a ∈ l) (hb : b ∈ l)
    (hne : a ≠ b) : 2 ≤ l.length := by
  match l, ha, hb with
  | [], ha, _ => simp at ha
  | [c], ha, hb =>
    simp only [List.mem_singleton] at ha hb
    exact absurd (ha.trans hb.symm) hne
  | _ :: _ :: _, _, _ => simp

theorem unit_step_cases (x y : Int) :
    unit_step (x, y) (x + 1, y) ∧ unit_step (x, y) (x - 1, y) ∧
      unit_step (x, y) (x, y + 1) ∧ unit_step (x, y) (x, y - 1) := by
  unfold unit_step
  refine ⟨Or.inl ⟨?_, rfl⟩, Or.inl ⟨?_, rfl⟩, Or.inr ⟨rfl, ?_⟩, Or.inr ⟨rfl, ?_⟩⟩ <;>
    simp only <;> omega

theorem two_le_find_neighbors (cur : Node) (grid_size : Int) (hgs : 2 ≤ grid_size)
    (hc : in_grid grid_size cur.pos) : 2 ≤ (find_neighbors cur grid_size).length := by
  unfold in_grid Node.pos at hc
  simp only at hc
  obtain ⟨u1, u2, u3, u4⟩ := unit_step_cases cur.x cur.y
  have hx : ∃ c : Int × Int, unit_step cur.pos c ∧ in_grid grid_size c ∧ c.2 = cur.y := by
    by_cases h : cur.x + 1 < grid_size
    · exact ⟨(cur.x + 1, cur.y), u1, ⟨by simp only; omega, h, hc.2.2.1, hc.2.2.2⟩, rfl⟩
    · exact ⟨(cur.x - 1, cur.y), u2,
        ⟨by simp only; omega, by simp only; omega, hc.2.2.1, hc.2.2.2⟩, rfl⟩
  have hy : ∃ c : Int × Int, unit_step cur.pos c ∧ in_grid grid_size c ∧ c.2 ≠ cur.y := by
    by_cases h : cur.y + 1 < grid_size
    · exact ⟨(cur.x, cur.y + 1), u3, ⟨hc.1, hc.2.1, by simp only; omega, h⟩,
        by simp only; omega⟩
    · exact ⟨(cur.x, cur.y - 1), u4,
        ⟨hc.1, hc.2.1, by simp only; omega, by simp only; omega⟩, by simp only; omega⟩
  obtain ⟨c1, hs1, hg1, hc1⟩ := hx
  obtain ⟨c2, hs2, hg2, hc2⟩ := hy
  obtain ⟨n1, hn1, hp1⟩ := mem_find_neighbors_pos hs1 hg1
  obtain ⟨n2, hn2, hp2⟩ := mem_find_neighbors_pos hs2 hg2
  refine two_le_length_of_mem hn1 hn2 ?_
  intro heq
  rw [heq, hp2] at hp1
  rw [hp1] at hc2
  exact hc2 hc1

theorem find_neighbors_nil_of_nonpos (cur : Node) (grid_size : Int) (h : grid_size ≤ 0) :
    find_neighbors cur grid_size = [] := by
  rw [List.eq_nil_iff_forall_not_mem]
  intro nb hnb
  have hg := (mem_find_neighbors hnb).2.2.2
  unfold in_grid at hg
  omega

theorem run_without_neighbors (start goal : Node) (grid_size : Int)
    (hn : find_neighbors (prepared_start start goal) grid_size = [])
    (hg : ¬ (start.x = goal.x ∧ start.y = goal.y)) (k : Nat) :
    a_star_algorithm (k + 2) start goal grid_size = some SearchResult.openSetEmpty := by
  have hsize : 0 < (initial_open_set start goal).size := by
    unfold PriorityQueue.size
    rw [initial_nodes]
    simp
  obtain ⟨cur, q1, hpop, h0, hperm, -⟩ := pop_split (initial_open_set start goal) hsize
  rw [initial_nodes] at h0 hperm
  simp only [List.getElem?_cons_zero, Option.some.injEq] at h0
  subst h0
  have hq1 : q1.size = 0 := by
    have := hperm.length_eq
    simp only [List.length_cons, List.length_nil] at this
    unfold PriorityQueue.size
    omega
  unfold a_star_algorithm
  rw [a_star_loop_step (k + 1) goal grid_size _ q1 _ hpop hsize,
    if_neg (by rw [prepared_start_x, prepared_start_y]; exact hg), hn, List.foldl_nil,
    a_star_loop_empty k goal grid_size q1 hq1]

/-- C11, as stated, fails: `a_star_algorithm` has no check of its arguments.  With start
`(10,10)` (outside the grid of size 10) and goal `(5,5)` the start node is inserted into
the open set, popped and expanded; it has no neighbour inside the grid, so the second
iteration finds the open set empty and the run ends without a path: the no-path
outcome, not an error raised before the search. -/
theorem out_of_grid_start_is_searched :
    ¬ in_grid 10 (cell 10 10).pos ∧
      (initial_open_set (cell 10 10) (cell 5 5)).size = 1 ∧
      a_star_algorithm 1 (cell 10 10) (cell 5 5) 10 = none ∧
      a_star_algorithm 2 (cell 10 10) (cell 5 5) 10 = some SearchResult.openSetEmpty := by
  set_option maxRecDepth 100000 in
  decide

/-- C11, amended: `a_star_algorithm` does not validate `start`, `goal` or `grid_size`.
For every call the start node is inserted into the open set and popped by the first
iteration of the loop.  When the popped start has no neighbour inside the grid and is
not at the goal, the run ends at the second iteration with the open set empty, the
no-path outcome; this is so for every `grid_size` that is not positive, and for start
`(10,10)` with `grid_size = 10`. -/
theorem no_input_validation (start goal : Node) (grid_size : Int) :
    (initial_open_set start goal).nodes = [prepared_start start goal] ∧
      (pop_priority_queue (initial_open_set start goal)).1 =
        some (prepared_start start goal) ∧
      (find_neighbors (prepared_start start goal) grid_size = [] →
        ¬ (start.x = goal.x ∧ start.y = goal.y) →
        ∀ k, a_star_algorithm (k + 2) start goal grid_size =
          some SearchResult.openSetEmpty) ∧
      (grid_size ≤ 0 → ¬ (start.x = goal.x ∧ start.y = goal.y) →
        ∀ k, a_star_algorithm (k + 2) start goal grid_size =
          some SearchResult.openSetEmpty) := by
  have hsize : 0 < (initial_open_set start goal).size := by
    unfold PriorityQueue.size
    rw [initial_nodes]
    simp
  obtain ⟨cur, q1, hpop, h0, -⟩ := pop_split (initial_open_set start goal) hsize
  rw [initial_nodes] at h0
  simp only [List.getElem?_cons_zero, Option.some.injEq] at h0
  subst h0
  refine ⟨initial_nodes start goal, by rw [hpop], ?_, ?_⟩
  · intro hn hg k
    exact run_without_neighbors start goal grid_size hn hg k
  · intro hgs hg k
    exact run_without_neighbors start goal grid_size
      (find_neighbors_nil_of_nonpos _ grid_size hgs) hg k

theorem no_input_validation_witness :
    (∀ k, a_star_algorithm (k + 2) (cell 10 10) (cell 5 5) 10 =
        some SearchResult.openSetEmpty) ∧
      (∀ k, a_star_algorithm (k + 2) (cell 0 0) (cell 5 5) 0 =
        some SearchResult.openSetEmpty) :=
  ⟨(no_input_validation (cell 10 10) (cell 5 5) 10).2.2.1 (by decide) (by decide),
    (no_input_validation (cell 0 0) (cell 5 5) 0).2.2.2 (by decide) (by decide)⟩

/-- C12, as stated, fails: the code keeps no closed set.  On the grid of size 3 with
start `(0,0)` and goal `(2,2)` (valid input) the first five iterations pop and expand
nodes at `(0,0)`, `(1,0)`, `(0,1)`, `(1,1)`, `(1,1)`: the coordinate `(1,1)` has its
neighbours generated twice. -/
theorem coordinate_expanded_twice :
    in_grid 3 (cell 0 0).pos ∧ in_grid 3 (cell 2 2).pos ∧
      expansions 5 (cell 2 2) 3 (initial_open_set (cell 0 0) (cell 2 2)) =
        [(0, 0), (1, 0), (0, 1), (1, 1), (1, 1)] ∧
      ¬ (expansions 5 (cell 2 2) 3 (initial_open_set (cell 0 0) (cell 2 2))).Nodup := by
  set_option maxRecDepth 100000 in
  decide

/-- C12, amended: during any run of `a_star_algorithm` every popped node that is not at
the goal is expanded, whether or not a node with the same coordinate was expanded
before: the iteration that pops it continues with the open set to which new nodes for
its neighbours have been added (for the first so many of them, in the order of
`find_neighbors`; for all of them when the open set has room for them below `2^30`
entries), and the coordinate is recorded as expanded once more.  A coordinate can so
have its neighbours generated more than once per search. -/
theorem every_popped_node_is_expanded (goal : Node) (grid_size : Int)
    (openSet rest : PriorityQueue) (current : Node) (hs : 0 < openSet.size)
    (hpop : pop_priority_queue openSet = (some current, rest))
    (hg : ¬ (current.x = goal.x ∧ current.y = goal.y)) (n : Nat) :
    loop_iteration goal grid_size openSet =
        some (current,
          (find_neighbors current grid_size).foldl (process_neighbor goal current) rest) ∧
      (∃ k, k ≤ (find_neighbors current grid_size).length ∧
        ((find_neighbors current grid_size).foldl (process_neighbor goal current)
            rest).nodes.Perm
          (((find_neighbors current grid_size).map (relaxed goal current)).take k ++
            rest.nodes)) ∧
      (rest.size + (find_neighbors current grid_size).length ≤ 2 ^ 30 →
        ((find_neighbors current grid_size).foldl (process_neighbor goal current)
            rest).nodes.Perm
          ((find_neighbors current grid_size).map (relaxed goal current) ++ rest.nodes)) ∧
      expansions (n + 1) goal grid_size openSet =
        current.pos ::
          expansions n goal grid_size
            ((find_neighbors current grid_size).foldl (process_neighbor goal current) rest) ∧
      a_star_loop (n + 1) goal grid_size openSet =
        a_star_loop n goal grid_size
          ((find_neighbors current grid_size).foldl (process_neighbor goal current) rest) := by
  have hit := loop_iteration_of_pop goal grid_size openSet rest current hpop hs
  rw [if_neg hg] at hit
  refine ⟨hit, ?_, ?_, ?_, a_star_loop_of_iteration hit n⟩
  · rw [expand_eq]
    obtain ⟨k, hk, hperm, -⟩ :=
      foldl_insert_taken ((find_neighbors current grid_size).map (relaxed goal current)) rest
    rw [List.length_map] at hk
    exact ⟨k, hk, hperm⟩
  · intro hroom
    rw [expand_eq]
    exact foldl_insert_perm _ rest (by rw [List.length_map]; exact hroom)
  · rw [expansions, hit]

set_option maxRecDepth 100000 in
theorem every_popped_node_is_expanded_witness :
    loop_iteration (cell 2 2) 3 (initial_open_set (cell 0 0) (cell 2 2)) =
        some (prepared_start (cell 0 0) (cell 2 2),
          (find_neighbors (prepared_start (cell 0 0) (cell 2 2)) 3).foldl
            (process_neighbor (cell 2 2) (prepared_start (cell 0 0) (cell 2 2)))
            { nodes := [], capacity := 100 }) ∧
      ((find_neighbors (prepared_start (cell 0 0) (cell 2 2)) 3).foldl
          (process_neighbor (cell 2 2) (prepared_start (cell 0 0) (cell 2 2)))
          { nodes := [], capacity := 100 }).nodes.Perm
        ((find_neighbors (prepared_start (cell 0 0) (cell 2 2)) 3).map
          (relaxed (cell 2 2) (prepared_start (cell 0 0) (cell 2 2))) ++
          ({ nodes := [], capacity := 100 } : PriorityQueue).nodes) ∧
      expansions (4 + 1) (cell 2 2) 3 (initial_open_set (cell 0 0) (cell 2 2)) =
        (prepared_start (cell 0 0) (cell 2 2)).pos ::
          expansions 4 (cell 2 2) 3
            ((find_neighbors (prepared_start (cell 0 0) (cell 2 2)) 3).foldl
              (process_neighbor (cell 2 2) (prepared_start (cell 0 0) (cell 2 2)))
              { nodes := [], capacity := 100 }) ∧
      a_star_loop (4 + 1) (cell 2 2) 3 (initial_open_set (cell 0 0) (cell 2 2)) =
        a_star_loop 4 (cell 2 2) 3
          ((find_neighbors (prepared_start (cell 0 0) (cell 2 2)) 3).foldl
            (process_neighbor (cell 2 2) (prepared_start (cell 0 0) (cell 2 2)))
            { nodes := [], capacity := 100 }) :=
  ⟨(every_popped_node_is_expanded (cell 2 2) 3 (initial_open_set (cell 0 0) (cell 2 2))
      { nodes := [], capacity := 100 } (prepared_start (cell 0 0) (cell 2 2))
      (by decide) (by decide) (by decide) 4).1,
    (every_popped_node_is_expanded (cell 2 2) 3 (initial_open_set (cell 0 0) (cell 2 2))
      { nodes := [], capacity := 100 } (prepared_start (cell 0 0) (cell 2 2))
      (by decide) (by decide) (by decide) 4).2.2.1 (by decide),
    (every_popped_node_is_expanded (cell 2 2) 3 (initial_open_set (cell 0 0) (cell 2 2))
      { nodes := [], capacity := 100 } (prepared_start (cell 0 0) (cell 2 2))
      (by decide) (by decide) (by decide) 4).2.2.2⟩

/-! ## Runs that never reach the goal -/

theorem iteration_taken {goal : Node} {grid_size : Int} {q next : PriorityQueue} {cur : Node}
    (h : loop_iteration goal grid_size q = some (cur, next)) (hr : q.in_range) :
    ∃ (q1 : PriorityQueue) (k : Nat), q.nodes.Perm (cur :: q1.nodes) ∧ q1.size + 1 = q.size ∧
      k ≤ (find_neighbors cur grid_size).length ∧
      next.nodes.Perm
        (((find_neighbors cur grid_size).map (relaxed goal cur)).take k ++ q1.nodes) ∧
      (k < (find_neighbors cur grid_size).length →
        next.size = next.capacity ∧ INT_MAX < next.capacity * 2) ∧
      (find_neighbors cur grid_size ≠ [] → 0 < k) ∧ next.in_range := by
  obtain ⟨q1, hs, hpop, hg, rfl⟩ := loop_iteration_some h
  obtain ⟨c, q1', hpop', -, hperm, -, hcap, hsz⟩ := pop_split q hs
  rw [hpop] at hpop'
  simp only [Prod.mk.injEq, Option.some.injEq] at hpop'
  obtain ⟨rfl, rfl⟩ := hpop'
  have hr1 : q1.in_range := pop_range hpop hs hr
  rw [expand_eq]
  obtain ⟨k, hk, hp, hfull, hpos⟩ :=
    foldl_insert_taken ((find_neighbors cur grid_size).map (relaxed goal cur)) q1
  rw [List.length_map] at hk hfull
  refine ⟨q1, k, hperm, hsz, hk, hp, hfull, ?_, foldl_insert_range _ q1 hr1⟩
  intro hne
  apply hpos
  · obtain ⟨-, h2, -⟩ := hr
    omega
  · intro hnil
    exact hne (List.map_eq_nil_iff.mp hnil)

theorem iteration_size_bounds {goal : Node} {grid_size : Int} {q next : PriorityQueue}
    {cur : Node} (h : loop_iteration goal grid_size q = some (cur, next)) (hr : q.in_range)
    (h2 : 2 ≤ (find_neighbors cur grid_size).length) :
    q.size ≤ next.size ∧ next.size + 1 ≤ q.size + (find_neighbors cur grid_size).length ∧
      min (q.size + 1) (2 ^ 30) ≤ next.size ∧ next.size ≤ INT_MAX ∧
      (next.size < 2 ^ 30 →
        next.size + 1 = q.size + (find_neighbors cur grid_size).length) := by
  obtain ⟨q1, k, hperm, hsz, hk, hp, hfull, hpos, hr2⟩ := iteration_taken h hr
  have hne : find_neighbors cur grid_size ≠ [] := by
    intro hnil
    rw [hnil] at h2
    simp at h2
  have hk0 := hpos hne
  have hl := hp.length_eq
  simp only [List.length_append, List.length_take, List.length_map] at hl
  rw [Nat.min_eq_left hk] at hl
  obtain ⟨-, hr3, hr4⟩ := hr2
  unfold PriorityQueue.size at *
  unfold INT_MAX at *
  refine ⟨by omega, by omega, ?_, by omega, ?_⟩
  · by_cases hkl : k < (find_neighbors cur grid_size).length
    · obtain ⟨hf1, hf2⟩ := hfull hkl
      have : (2 : Nat) ^ 30 = 1073741824 := by norm_num
      omega
    · omega
  · intro hlt
    by_cases hkl : k < (find_neighbors cur grid_size).length
    · obtain ⟨hf1, hf2⟩ := hfull hkl
      have : (2 : Nat) ^ 30 = 1073741824 := by norm_num
      omega
    · omega

theorem reached_cases {start goal : Node} {grid_size : Int} {x : Node}
    (h : Reached start goal grid_size x) :
    x = prepared_start start goal ∨
      ∃ p nb, Reached start goal grid_size p ∧ nb ∈ find_neighbors p grid_size ∧
        x = relaxed goal p nb := by
  cases h with
  | start => exact Or.inl rfl
  | @step p nb hp hnb => exact Or.inr ⟨p, nb, hp, hnb, rfl⟩

theorem ancestor_succ (j : Nat) (x : Node) :
    Node.ancestor (j + 1) x = (Node.ancestor j x).bind Node.parent := by
  induction j generalizing x with
  | zero =>
    unfold Node.ancestor
    cases hp : x.parent with
    | none => simp [Node.ancestor, hp]
    | some p => simp [Node.ancestor, hp]
  | succ j ih =>
    rw [Node.ancestor]
    cases hp : x.parent with
    | none => simp [Node.ancestor, hp]
    | some p =>
      simp only
      rw [ih p]
      conv_rhs => rw [Node.ancestor, hp]

theorem reached_ancestors {start goal : Node} {grid_size : Int} {x : Node}
    (hc : start.cost = 0) (h : Reached start goal grid_size x) (hx : x.cost < 2 ^ 24) :
    ∀ j, j ≤ x.cost → ∃ a, Node.ancestor j x = some a ∧ a.cost + j = x.cost ∧
      Reached start goal grid_size a := by
  induction h with
  | start =>
    intro j hj
    rw [prepared_start_cost, hc] at hj
    have : j = 0 := by omega
    subst this
    exact ⟨_, rfl, rfl, Reached.start⟩
  | @step p nb hp hnb ih =>
    intro j hj
    obtain ⟨h1, h2⟩ := relaxed_cost_exact hx
    rw [h2] at hj
    cases j with
    | zero => exact ⟨_, rfl, rfl, Reached.step hp hnb⟩
    | succ j =>
      obtain ⟨a, ha, hcost, hra⟩ := ih (by omega) j (by omega)
      refine ⟨a, ?_, ?_, hra⟩
      · rw [Node.ancestor, relaxed_parent]
        exact ha
      · rw [h2]
        omega

theorem reached_cost_zero {start goal : Node} {grid_size : Int} {x : Node}
    (h : Reached start goal grid_size x) (h0 : x.cost = 0) : x = prepared_start start goal := by
  rcases reached_cases h with rfl | ⟨p, nb, -, -, rfl⟩
  · rfl
  · obtain ⟨-, h2⟩ := @relaxed_cost_exact goal p nb (by rw [h0]; norm_num)
    omega

theorem reached_chain_end {start goal : Node} {grid_size : Int} {x : Node}
    (hp : start.parent = none) (h : Reached start goal grid_size x) :
    0 < x.chain.length ∧
      Node.ancestor (x.chain.length - 1) x = some (prepared_start start goal) ∧
      Node.ancestor x.chain.length x = none := by
  induction h with
  | start =>
    have hlen : (prepared_start start goal).chain.length = 1 := by
      rw [chain_eq, prepared_start_parent, hp]
      rfl
    rw [hlen]
    refine ⟨by norm_num, rfl, ?_⟩
    rw [Node.ancestor, prepared_start_parent, hp]
  | @step p nb hq hnb ih =>
    obtain ⟨h1, h2, h3⟩ := ih
    have hlen : (relaxed goal p nb).chain.length = p.chain.length + 1 := by
      rw [relaxed_chain, List.length_append]
      rfl
    rw [hlen]
    refine ⟨by omega, ?_, ?_⟩
    · have : p.chain.length + 1 - 1 = (p.chain.length - 1) + 1 := by omega
      rw [this, Node.ancestor, relaxed_parent]
      exact h2
    · rw [Node.ancestor, relaxed_parent]
      exact h3

theorem le_round_float_succ {c : Nat} (h : c ≤ 2 ^ 24) : c ≤ round_float (c + 1) := by
  by_cases hc : c = 2 ^ 24
  · rw [hc, round_float_saturated]
  · have hlt : c < 2 ^ 24 := lt_of_le_of_ne h hc
    have h1 := @le_round_float (c + 1) c 0 hlt (by simp)
    simpa using h1

theorem potential_take_le (B : Nat) (l : List Node) (k : Nat) :
    potential B (l.take k) ≤ potential B l := by
  have h := potential_append B (l.take k) (l.drop k)
  rw [List.take_append_drop] at h
  omega

theorem iteration_potential {goal : Node} {grid_size : Int} {q next : PriorityQueue}
    {cur : Node} (B : Nat) (h : loop_iteration goal grid_size q = some (cur, next))
    (hr : q.in_range) (hc : cur.cost ≤ B) (hx : round_float (cur.cost + 1) = cur.cost + 1) :
    potential B next.nodes < potential B q.nodes := by
  obtain ⟨q1, k, hperm, -, -, hp, -, -, -⟩ := iteration_taken h hr
  rw [potential_perm B hp, potential_append, potential_perm B hperm, potential_cons]
  have h1 := potential_take_le B ((find_neighbors cur grid_size).map (relaxed goal cur)) k
  have h2 := potential_successors B goal cur (find_neighbors cur grid_size)
    (find_neighbors_length cur grid_size) hc hx
  omega

theorem open_set_after_succ_last {goal : Node} {grid_size : Int} (n : Nat)
    (q0 q next : PriorityQueue) (cur : Node)
    (h : open_set_after n goal grid_size q0 = some q)
    (hit : loop_iteration goal grid_size q = some (cur, next)) :
    open_set_after (n + 1) goal grid_size q0 = some next := by
  induction n generalizing q0 with
  | zero =>
    simp only [open_set_after, Option.some.injEq] at h
    subst h
    rw [open_set_after, hit]
    rfl
  | succ n ih =>
    obtain ⟨c, nx, hit0, hrest⟩ := open_set_after_succ_some h
    rw [open_set_after_succ_of_iteration hit0]
    exact ih nx hrest

theorem first_neighbor_inserted {goal : Node} {grid_size : Int} {q next : PriorityQueue}
    {cur : Node} (h : loop_iteration goal grid_size q = some (cur, next)) (hr : q.in_range)
    (hne : find_neighbors cur grid_size ≠ []) :
    ∃ nb ∈ find_neighbors cur grid_size, relaxed goal cur nb ∈ next.nodes := by
  obtain ⟨q1, k, -, -, -, hp, -, hpos, -⟩ := iteration_taken h hr
  have hk := hpos hne
  cases hl : find_neighbors cur grid_size with
  | nil => exact absurd hl hne
  | cons nb rest =>
    refine ⟨nb, List.mem_cons_self _ _, ?_⟩
    apply hp.symm.subset
    rw [hl, List.map_cons]
    obtain ⟨k', rfl⟩ : ∃ k', k = k' + 1 := ⟨k - 1, by omega⟩
    rw [List.take_succ_cons]
    simp

theorem iteration_cases (start goal : Node) (grid_size : Int) (hgs : 2 ≤ grid_size)
    (hs : in_grid grid_size start.pos) (q : PriorityQueue)
    (hreach : ∀ x ∈ q.nodes, Reached start goal grid_size x) (hsize : 0 < q.size) :
    (∃ cur ∈ q.nodes, Reached start goal grid_size cur ∧ cur.x = goal.x ∧ cur.y = goal.y) ∨
      ∃ cur next, loop_iteration goal grid_size q = some (cur, next) ∧
        Reached start goal grid_size cur ∧
        2 ≤ (find_neighbors cur grid_size).length ∧
        (∀ x ∈ next.nodes, Reached start goal grid_size x) := by
  obtain ⟨cur, q1, hpop, hcur, hnext⟩ := step_reach start goal grid_size q hreach hsize
  obtain ⟨c, q1', hpop', -, hperm, -⟩ := pop_split q hsize
  rw [hpop] at hpop'
  simp only [Prod.mk.injEq, Option.some.injEq] at hpop'
  obtain ⟨rfl, rfl⟩ := hpop'
  by_cases hg : cur.x = goal.x ∧ cur.y = goal.y
  · exact Or.inl ⟨cur, hperm.symm.subset (by simp), hcur, hg.1, hg.2⟩
  · right
    have hit := loop_iteration_of_pop goal grid_size q q1 cur hpop hsize
    rw [if_neg hg] at hit
    exact ⟨cur, _, hit, hcur,
      two_le_find_neighbors cur grid_size hgs (reached_in_grid hs hcur), hnext⟩

/-- C15, as stated, fails: the cost of a node is the `float` sum of its parent's cost and
1, and from `16777216` on that sum is the parent's cost itself.  In the run from `(0,0)`
(cost 0, no parent) to the goal `(16777218,0)` on the grid of size 16777219 not every
node of the open set is one above its parent.  If every node were, no node next to the
goal could have the cost `16777215` that a parent of a goal node of cost `16777216`
needs, so the goal would never be popped; and the work left, `5 ^ (16777216 - cost)`
summed over the open set, would go down with every iteration for ever. -/
theorem parent_cost_not_always_lower :
    (cell 0 0).cost = 0 ∧ (cell 0 0).parent = none ∧
      in_grid 16777219 (cell 0 0).pos ∧ in_grid 16777219 (cell 16777218 0).pos ∧
      ¬ ∀ n openSet x,
        open_set_after n (cell 16777218 0) 16777219
            (initial_open_set (cell 0 0) (cell 16777218 0)) = some openSet →
        x ∈ openSet.nodes →
        x = prepared_start (cell 0 0) (cell 16777218 0) ∨
          ∃ p, x.parent = some p ∧ x.cost = p.cost + 1 := by
  have hs : in_grid 16777219 (cell 0 0).pos := by decide
  have hD : manhattan (cell 0 0).pos (cell 16777218 0).pos = 16777218 := by decide
  refine ⟨rfl, rfl, hs, by decide, ?_⟩
  intro H
  have hsat : ∀ {y : Node}, Reached (cell 0 0) (cell 16777218 0) 16777219 y →
      y.cost ≤ 2 ^ 24 := fun hy => reached_cost_le_saturation hy (by decide)
  -- a node of the open set at the goal contradicts `H`
  have hgoal : ∀ n q cur,
      open_set_after n (cell 16777218 0) 16777219
        (initial_open_set (cell 0 0) (cell 16777218 0)) = some q →
      cur ∈ q.nodes → Reached (cell 0 0) (cell 16777218 0) 16777219 cur →
      cur.x = (cell 16777218 0).x → cur.y = (cell 16777218 0).y → False := by
    intro n q cur hq hmem hcur hx hy
    have hpos : cur.pos = (cell 16777218 0).pos := by
      unfold Node.pos
      rw [hx, hy]
    have hc24 := hsat hcur
    have hceq : cur.cost = 2 ^ 24 := by
      by_contra hne
      have hlt : cur.cost < 2 ^ 24 := lt_of_le_of_ne hc24 hne
      have := reached_cost hcur hlt
      rw [hpos, hD] at this
      norm_num at hlt
      omega
    rcases reached_cases hcur with h0 | ⟨p, nb, hp, hnb, rfl⟩
    · rw [h0, prepared_start_cost] at hceq
      exact absurd hceq (by decide)
    · rcases H n q _ hq hmem with h | ⟨p2, hp1, hp2⟩
      · have := congrArg Node.parent h
        rw [relaxed_parent, prepared_start_parent] at this
        exact absurd this (by simp [cell, Node.parent])
      · rw [relaxed_parent] at hp1
        obtain rfl := Option.some.inj hp1
        have hpc : p.cost + 1 = 2 ^ 24 := by rw [← hp2, hceq]
        have hplt : p.cost < 2 ^ 24 := by omega
        have h1 := reached_cost hp hplt
        obtain ⟨-, -, hstep, -⟩ := mem_find_neighbors hnb
        have h2 := (manhattan_step hstep (cell 0 0).pos).2
        have hnbpos : nb.pos = (cell 16777218 0).pos := by
          rw [← hpos]
          unfold Node.pos
          rw [relaxed_x, relaxed_y]
        rw [hnbpos, hD] at h2
        norm_num at hpc
        omega
  have key : ∀ n, ∃ q,
      open_set_after n (cell 16777218 0) 16777219
        (initial_open_set (cell 0 0) (cell 16777218 0)) = some q ∧
      q.in_range ∧ 0 < q.size ∧
      (∀ x ∈ q.nodes, Reached (cell 0 0) (cell 16777218 0) 16777219 x) ∧
      potential (2 ^ 24) q.nodes + n ≤
        potential (2 ^ 24) (initial_open_set (cell 0 0) (cell 16777218 0)).nodes := by
    intro n
    induction n with
    | zero =>
      refine ⟨initial_open_set (cell 0 0) (cell 16777218 0), rfl, initial_range _ _, ?_,
        initial_reach _ _ 16777219, by omega⟩
      unfold PriorityQueue.size
      rw [initial_nodes]
      simp
    | succ n ih =>
      obtain ⟨q, hq, hr, hpos, hreach, hpot⟩ := ih
      rcases iteration_cases (cell 0 0) (cell 16777218 0) 16777219 (by norm_num) hs q hreach
        hpos with ⟨cur, hmem, hcur, hx, hy⟩ | ⟨cur, next, hit, hcur, h2, hnext⟩
      · exact absurd (hgoal n q cur hq hmem hcur hx hy) id
      · have hq' := open_set_after_succ_last n _ q next cur hq hit
        have hne : find_neighbors cur 16777219 ≠ [] := by
          intro hnil
          rw [hnil] at h2
          simp at h2
        obtain ⟨nb, hnb, hmem⟩ := first_neighbor_inserted hit hr hne
        have hx : round_float (cur.cost + 1) = cur.cost + 1 := by
          rcases H (n + 1) next _ hq' hmem with h | ⟨p, hp1, hp2⟩
          · have := congrArg Node.parent h
            rw [relaxed_parent, prepared_start_parent] at this
            exact absurd this (by simp [cell, Node.parent])
          · rw [relaxed_parent] at hp1
            obtain rfl := Option.some.inj hp1
            rw [relaxed_cost] at hp2
            exact hp2
        have hlt := iteration_potential (2 ^ 24) hit hr (hsat hcur) hx
        obtain ⟨hb1, -⟩ := iteration_size_bounds hit hr h2
        obtain ⟨-, -, -, -, -, -, -, -, hr2⟩ := iteration_taken hit hr
        exact ⟨next, hq', hr2, by omega, hnext, by omega⟩
  obtain ⟨q, -, -, -, -, hpot⟩ :=
    key (potential (2 ^ 24) (initial_open_set (cell 0 0) (cell 16777218 0)).nodes + 1)
  omega

/-- C15, amended: in a run of `a_star_algorithm` started with `start.cost = 0` and
`start.parent = NULL`, every node of the open set, after any number of iterations, is
the start node or has as cost the `float` sum of its parent's cost and 1, which is not
below its parent's cost and never above `16777216`.  For a node of cost below
`16777216` that sum is exact: its cost is its parent's cost + 1, its parent has strictly
lower cost, along its parent chain every link goes to a node of cost one less, the
chain reaches the start node after exactly `cost` steps and ends there, and
`reconstruct_path` prints `cost + 1` coordinates.  For every node the parent chain is
finite and ends at the start node, so that `reconstruct_path` returns. -/
theorem parent_chain_costs (start goal : Node) (grid_size : Int) (hc : start.cost = 0)
    (hp : start.parent = none) (n : Nat) (openSet : PriorityQueue)
    (hq : open_set_after n goal grid_size (initial_open_set start goal) = some openSet)
    (x : Node) (hx : x ∈ openSet.nodes) :
    (x = prepared_start start goal ∨
        ∃ p, x.parent = some p ∧ x.cost = round_float (p.cost + 1) ∧ p.cost ≤ x.cost ∧
          (x.cost < 2 ^ 24 → x.cost = p.cost + 1 ∧ p.cost < x.cost)) ∧
      x.cost ≤ 2 ^ 24 ∧
      (x.cost < 2 ^ 24 →
        (∀ j, j < x.cost → ∃ a b, Node.ancestor j x = some a ∧
          Node.ancestor (j + 1) x = some b ∧ a.parent = some b ∧ a.cost = b.cost + 1 ∧
          b.cost < a.cost) ∧
        Node.ancestor x.cost x = some (prepared_start start goal) ∧
        Node.ancestor (x.cost + 1) x = none ∧
        (reconstruct_path (some x)).length = x.cost + 1) ∧
      0 < (reconstruct_path (some x)).length ∧
      Node.ancestor ((reconstruct_path (some x)).length - 1) x =
        some (prepared_start start goal) ∧
      Node.ancestor (reconstruct_path (some x)).length x = none := by
  have hr : Reached start goal grid_size x :=
    open_set_after_reached start goal grid_size n _ openSet
      (initial_reach start goal grid_size) hq x hx
  have hsat : ∀ {y : Node}, Reached start goal grid_size y → y.cost ≤ 2 ^ 24 :=
    fun hy => reached_cost_le_saturation hy (by rw [hc]; exact Nat.zero_le _)
  refine ⟨?_, hsat hr, ?_, reached_chain_end hp hr⟩
  · rcases reached_cases hr with h | ⟨p, nb, hrp, -, rfl⟩
    · exact Or.inl h
    · right
      refine ⟨p, relaxed_parent goal p nb, relaxed_cost goal p nb, ?_, ?_⟩
      · rw [relaxed_cost]
        exact le_round_float_succ (hsat hrp)
      · intro hlt
        obtain ⟨-, h2⟩ := relaxed_cost_exact hlt
        exact ⟨h2, by omega⟩
  · intro hlt
    have hanc := reached_ancestors hc hr hlt
    have hroot : Node.ancestor x.cost x = some (prepared_start start goal) := by
      obtain ⟨a, ha, hcost, hra⟩ := hanc x.cost le_rfl
      rw [ha, reached_cost_zero hra (by omega)]
    refine ⟨?_, hroot, ?_, ?_⟩
    · intro j hj
      obtain ⟨a, ha, hacost, -⟩ := hanc j (by omega)
      obtain ⟨b, hb, hbcost, -⟩ := hanc (j + 1) (by omega)
      refine ⟨a, b, ha, hb, ?_, by omega, by omega⟩
      rw [ancestor_succ, ha] at hb
      exact hb
    · rw [ancestor_succ, hroot]
      show (prepared_start start goal).parent = none
      rw [prepared_start_parent, hp]
    · obtain ⟨-, -, -, hlen⟩ := reached_chain_root hp hr
      have := hlen hlt
      show x.chain.length = x.cost + 1
      omega

set_option maxRecDepth 100000 in
theorem parent_chain_costs_witness :
    Node.ancestor
        (Node.child 1 0 1 ⟨9378749 * 2 ^ 127⟩ ⟨13573053 * 2 ^ 127⟩
          (Node.root 0 0 0 ⟨11863283 * 2 ^ 127⟩ ⟨11863283 * 2 ^ 127⟩)).cost
        (Node.child 1 0 1 ⟨9378749 * 2 ^ 127⟩ ⟨13573053 * 2 ^ 127⟩
          (Node.root 0 0 0 ⟨11863283 * 2 ^ 127⟩ ⟨11863283 * 2 ^ 127⟩)) =
        some (prepared_start (cell 0 0) (cell 2 2)) ∧
      (reconstruct_path
        (some (Node.child 1 0 1 ⟨9378749 * 2 ^ 127⟩ ⟨13573053 * 2 ^ 127⟩
          (Node.root 0 0 0 ⟨11863283 * 2 ^ 127⟩ ⟨11863283 * 2 ^ 127⟩)))).length =
        (Node.child 1 0 1 ⟨9378749 * 2 ^ 127⟩ ⟨13573053 * 2 ^ 127⟩
          (Node.root 0 0 0 ⟨11863283 * 2 ^ 127⟩ ⟨11863283 * 2 ^ 127⟩)).cost + 1 :=
  ⟨((parent_chain_costs (cell 0 0) (cell 2 2) 3 rfl rfl 1
      { nodes := [Node.child 1 0 1 ⟨9378749 * 2 ^ 127⟩ ⟨13573053 * 2 ^ 127⟩
            (Node.root 0 0 0 ⟨11863283 * 2 ^ 127⟩ ⟨11863283 * 2 ^ 127⟩),
          Node.child 0 1 1 ⟨9378749 * 2 ^ 127⟩ ⟨13573053 * 2 ^ 127⟩
            (Node.root 0 0 0 ⟨11863283 * 2 ^ 127⟩ ⟨11863283 * 2 ^ 127⟩)],
        capacity := 100 }
      (by decide)
      (Node.child 1 0 1 ⟨9378749 * 2 ^ 127⟩ ⟨13573053 * 2 ^ 127⟩
        (Node.root 0 0 0 ⟨11863283 * 2 ^ 127⟩ ⟨11863283 * 2 ^ 127⟩))
      (by decide)).2.2.1 (by decide)).2.1,
    ((parent_chain_costs (cell 0 0) (cell 2 2) 3 rfl rfl 1
      { nodes := [Node.child 1 0 1 ⟨9378749 * 2 ^ 127⟩ ⟨13573053 * 2 ^ 127⟩
            (Node.root 0 0 0 ⟨11863283 * 2 ^ 127⟩ ⟨11863283 * 2 ^ 127⟩),
          Node.child 0 1 1 ⟨9378749 * 2 ^ 127⟩ ⟨13573053 * 2 ^ 127⟩
            (Node.root 0 0 0 ⟨11863283 * 2 ^ 127⟩ ⟨11863283 * 2 ^ 127⟩)],
        capacity := 100 }
      (by decide)
      (Node.child 1 0 1 ⟨9378749 * 2 ^ 127⟩ ⟨13573053 * 2 ^ 127⟩
        (Node.root 0 0 0 ⟨11863283 * 2 ^ 127⟩ ⟨11863283 * 2 ^ 127⟩))
      (by decide)).2.2.1 (by decide)).2.2.2⟩

/-! ## Open sets whose keys are all equal -/

end AStar
